import Mathlib

/-!
Verification development for the room auto-planner
(src/Room/autoPlanner.ts): a 50 x 50 grid room is classified from
terrain data, a min-cut of rampart tiles separating protected tiles
from the exits is computed with Dinic's algorithm on a split-vertex
flow graph, and a building layout is derived from BFS distance
fields.

Modelling conventions:
  - JS numbers are modelled as Int (for tags, capacities, flows,
    coordinates) or Rat (for the layout score fields, where fractional
    scalars appear).  Number.MAX_VALUE is modelled by the huge
    constant INF below; the planner only ever adds or subtracts
    quantities that are tiny compared to it, so the float saturation
    behaviour of MAX_VALUE is never exercised.
  - a JS array of arrays is a List of Lists; reads through the
    optional-chaining operator (a[x]?.[y]) are Option-valued reads,
    plain reads in provably in-range positions use a default.
  - the long vertex-indexed arrays of the flow graph (5002 entries)
    are chunked into 101 rows of 50 so that reads stay cheap.
  - while loops become fuel-indexed recursion; running out of fuel
    returns none, and every driver result is Option-valued.  The JS
    loops always terminate, so none is an artifact of the embedding.
  - the dead visualization branches (VISUALIZATION = false), console
    logging and the RoomVisual calls are omitted: they do not touch
    the data.
-/

namespace AutoPlanner

/-! ## Tile tag constants -/

def UNWALKABLE : Int := -1
def NORMAL : Int := 0
def PROTECTED : Int := 1
def TO_EXIT : Int := 2
def EXIT : Int := 3
def EXPOSED : Int := 5
def RAMPART_MIN : Int := 9

def ROOM_SIZE : Int := 50
def ROOM_MAX_INDEX : Int := 49

/-- The 8 surrounding offsets, in source order. -/
def SURROUND_OFFSETS : List (Int × Int) :=
  [(0, -1), (-1, -1), (-1, 0), (-1, 1), (0, 1), (1, 1), (1, 0), (1, -1)]

/-- Terrain query: bit mask at a coordinate; TERRAIN_MASK_WALL = 1 denotes a wall. -/
def TERRAIN_MASK_WALL : Int := 1

/-- Terrain data, a pure query from coordinates to the terrain mask
    (the get method of Room.Terrain / the TerrainData interface). -/
abbrev Terrain : Type := Int → Int → Int

/-- Number.MAX_VALUE, modelled as a huge integer constant. -/
def INF : Int := 2 ^ 1024

/-! ## Grid primitives: 50 x 50 arrays as lists of lists (outer index x) -/

abbrev Grid (α : Type) : Type := List (List α)

/-- Optional-chained read a[x]?.[y] : none models the JS undefined. -/
def gget? (g : Grid α) (x y : Int) : Option α :=
  if x < 0 then none else
  match g[x.toNat]? with
  | none => none
  | some row => if y < 0 then none else row[y.toNat]?

/-- Plain read with a default (used where the source indexes in range). -/
def gget (g : Grid α) (d : α) (x y : Int) : α := (gget? g x y).getD d

/-- Write a[x][y] = v; out-of-range writes are dropped (the verified
    call sites only write in range). -/
def gset (g : Grid α) (x y : Int) (v : α) : Grid α :=
  if x < 0 then g else
  match g[x.toNat]? with
  | none => g
  | some row => if y < 0 then g else g.set x.toNat (row.set y.toNat v)

/-- Array(50).fill(0).map(() => Array(50).fill(v)). -/
def initArr (v : α) : Grid α :=
  List.replicate 50 (List.replicate 50 v)

/-- Integer range [lo, hi] as a list (the ascending for loops). -/
def intRange (lo hi : Int) : List Int :=
  (List.range (hi + 1 - lo).toNat).map (fun (i : Nat) => lo + (i : Int))

/-! ## Bounds and positions -/

structure Bounds where
  x1 : Int
  y1 : Int
  x2 : Int
  y2 : Int
deriving DecidableEq, Repr

def wholeRoomBounds : Bounds := ⟨0, 0, 49, 49⟩

structure Position where
  x : Int
  y : Int
deriving DecidableEq, Repr

/-! ## Terrain classifier (createRoom2DArrayFromTerrain) -/

/-- Body of the first classification loop for one tile (x, y). -/
def classifyTile (t : Terrain) (b : Bounds) (g : Grid Int) (x y : Int) : Grid Int :=
  if t x y ≠ TERRAIN_MASK_WALL then
    let g1 := gset g x y NORMAL
    let g2 := if x = b.x1 ∨ y = b.y1 ∨ x = b.x2 ∨ y = b.y2 then gset g1 x y TO_EXIT else g1
    if x = 0 ∨ y = 0 ∨ x = ROOM_MAX_INDEX ∨ y = ROOM_MAX_INDEX then gset g2 x y EXIT else g2
  else g

/-- First pass: mark walkable area inside the bounds. -/
def classifyPass1 (t : Terrain) (b : Bounds) : Grid Int :=
  (intRange b.x1 b.x2).foldl
    (fun g x => (intRange b.y1 b.y2).foldl (fun g y => classifyTile t b g x y) g)
    (initArr UNWALKABLE)

/-- The three-cell EXIT window on border column cx of grid g at
    height y (the left/right exit-adjacency test of the source). -/
def lrCond (g : Grid Int) (cx y : Int) : Prop :=
  gget g UNWALKABLE cx (y - 1) = EXIT ∨ gget g UNWALKABLE cx y = EXIT ∨
    gget g UNWALKABLE cx (y + 1) = EXIT

instance (g : Grid Int) (cx y : Int) : Decidable (lrCond g cx y) := by
  unfold lrCond; infer_instance

/-- The three-cell EXIT window on border row cy of grid g at
    abscissa x (the top/bottom exit-adjacency test of the source). -/
def tbCond (g : Grid Int) (x cy : Int) : Prop :=
  gget g UNWALKABLE (x - 1) cy = EXIT ∨ gget g UNWALKABLE x cy = EXIT ∨
    gget g UNWALKABLE (x + 1) cy = EXIT

instance (g : Grid Int) (x cy : Int) : Decidable (tbCond g x cy) := by
  unfold tbCond; infer_instance

/-- One iteration of the left/right exit-adjacency pass at height y. -/
def lrStep (g : Grid Int) (y : Int) : Grid Int :=
  let g1 := if lrCond g 0 y then gset g 1 y TO_EXIT else g
  if lrCond g1 49 y then gset g1 48 y TO_EXIT else g1

/-- One iteration of the top/bottom exit-adjacency pass at abscissa x. -/
def tbStep (g : Grid Int) (x : Int) : Grid Int :=
  let g1 := if tbCond g x 0 then gset g x 1 TO_EXIT else g
  if tbCond g1 x 49 then gset g1 x 48 TO_EXIT else g1

/-- Second pass, left/right borders: mark the inner columns 1 and 48
    next to EXIT tiles as TO_EXIT. -/
def classifyPass2LR (g0 : Grid Int) : Grid Int :=
  (intRange 1 48).foldl lrStep g0

/-- Second pass, top/bottom borders: mark the inner rows 1 and 48. -/
def classifyPass2TB (g0 : Grid Int) : Grid Int :=
  (intRange 1 48).foldl tbStep g0

/-- createRoom2DArrayFromTerrain: classify every tile of the room. -/
def createRoom2DArrayFromTerrain (t : Terrain) (b : Bounds) : Grid Int :=
  classifyPass2TB (classifyPass2LR (classifyPass1 t b))

/-! ## Vertex and coordinate conversion -/

def vertexToPosition (vertex : Int) : Position :=
  ⟨vertex % 50, vertex / 50⟩

def positionToVertex (x y : Int) : Int := y * 50 + x

/-! ## Vertex-indexed arrays of the flow graph, chunked in rows of 50 -/

def GRAPH_VERTEX_COUNT : Nat := 2 * 50 * 50 + 2
def SOURCE_VERTEX : Nat := 2 * 50 * 50
def SINK_VERTEX : Nat := 2 * 50 * 50 + 1
def BOT_OFFSET : Int := 50 * 50

abbrev VArr (α : Type) : Type := List (List α)

def vget (a : VArr α) (d : α) (i : Nat) : α := ((a.getD (i / 50) []).getD (i % 50) d)

def vset (a : VArr α) (i : Nat) (v : α) : VArr α :=
  a.set (i / 50) ((a.getD (i / 50) []).set (i % 50) v)

def vinit (n : Nat) (v : α) : VArr α :=
  List.replicate ((n + 49) / 50) (List.replicate 50 v)

/-! ## The flow graph and Dinic's algorithm -/

structure Edge where
  v : Nat
  r : Nat
  c : Int
  f : Int
deriving DecidableEq, Repr

instance : Inhabited Edge := ⟨⟨0, 0, 0, 0⟩⟩

structure Graph where
  v : Nat
  level : VArr Int
  edges : VArr (List Edge)

def Graph.new (vertexCount : Nat) : Graph :=
  ⟨vertexCount, vinit vertexCount (-1), vinit vertexCount []⟩

/-- addEdge: push the forward edge onto edges[u] and the reverse edge
    (capacity 0) onto edges[v]; the reverse index r of the forward
    edge is the length of edges[v] before the pushes, the reverse
    edge's r is the length of edges[u] after the forward push, minus 1. -/
def Graph.addEdge (g : Graph) (u v : Nat) (c : Int) : Graph :=
  let eu := vget g.edges [] u
  let ev := vget g.edges [] v
  let g1 : Graph := { g with edges := vset g.edges u (eu ++ [⟨v, ev.length, c, 0⟩]) }
  let eu1 := vget g1.edges [] u
  let ev1 := vget g1.edges [] v
  { g1 with edges := vset g1.edges v (ev1 ++ [⟨u, eu1.length - 1, 0, 0⟩]) }

/-- Fuel for the BFS queue loops: the queue never exceeds the vertex
    count plus one, so this bound is never reached. -/
def BFS_FUEL : Nat := 6000

/-- Fuel bounding the depth of the DFS recursion: levels strictly
    increase along a DFS path, so the depth never exceeds the vertex
    count. -/
def DFS_FUEL : Nat := 6000

/-- Fuel for the repeated dfsFlow calls inside one phase. -/
def INNER_FUEL : Nat := 100000

/-- Fuel for the outer phase loop of Dinic's algorithm. -/
def PHASE_FUEL : Nat := 100000

/-- One dequeue step of the level BFS: scan all edges of u, assign
    level[u]+1 to unvisited endpoints of residual edges and enqueue them. -/
def bfsScanEdge (u : Nat) (st : VArr Int × List Nat) (e : Edge) : VArr Int × List Nat :=
  if vget st.1 (-1) e.v < 0 ∧ e.f < e.c then
    (vset st.1 e.v (vget st.1 (-1) u + 1), st.2 ++ [e.v])
  else st

def Graph.bfsLoop : Nat → Graph → List Nat → Nat → Option Graph
  | 0, _, _, _ => none
  | fuel+1, g, queue, qi =>
    if qi < queue.length then
      let u := queue.getD qi 0
      let st := (vget g.edges [] u).foldl (bfsScanEdge u) (g.level, queue)
      Graph.bfsLoop fuel { g with level := st.1 } st.2 (qi + 1)
    else some g

/-- Bfs: compute the level graph, return whether t is reachable in the
    residual graph. -/
def Graph.bfs (g : Graph) (s t : Nat) : Option (Graph × Bool) :=
  if t ≥ g.v then some (g, false)
  else
    let g1 : Graph := { g with level := vset (vinit g.v (-1)) s 0 }
    match Graph.bfsLoop BFS_FUEL g1 [s] 0 with
    | none => none
    | some g2 => some (g2, if 0 ≤ vget g2.level (-1) t then true else false)

/-- Add d to the flow of edges[u][i]. -/
def updEdgeF (g : Graph) (u : Nat) (i : Nat) (d : Int) : Graph :=
  let es := vget g.edges [] u
  match es.get? i with
  | none => g
  | some e => { g with edges := vset g.edges u (es.set i { e with f := e.f + d }) }

/-- While loop of Dfsflow over the edges of u, with the per-vertex
    cursor count[u]; rec is the recursive call at one smaller depth.
    The loop fuel k is called with (number of edges of u) + 1, which
    is enough since every iteration either returns or increments the
    cursor. -/
def dfsEdgeLoop (rec : Graph → VArr Int → Nat → Int → Option (Graph × VArr Int × Int))
    (u : Nat) (f : Int) :
    Nat → Graph → VArr Int → Option (Graph × VArr Int × Int)
  | 0, _, _ => none
  | k+1, g, count =>
    let cu := vget count 0 u
    let es := vget g.edges [] u
    if cu < (es.length : Int) then
      let e := es.getD cu.toNat default
      if vget g.level (-1) e.v = vget g.level (-1) u + 1 ∧ e.f < e.c then
        let flowTillHere := min f (e.c - e.f)
        match rec g count e.v flowTillHere with
        | none => none
        | some (g1, count1, flowToT) =>
          if 0 < flowToT then
            let g2 := updEdgeF g1 u cu.toNat flowToT
            let g3 := updEdgeF g2 e.v e.r (-flowToT)
            some (g3, count1, flowToT)
          else
            dfsEdgeLoop rec u f k g1 (vset count1 u (cu + 1))
      else
        dfsEdgeLoop rec u f k g (vset count u (cu + 1))
    else some (g, count, 0)

/-- Dfsflow: send flow along a path from u to t through the level
    graph, advancing per-vertex cursors. -/
def Graph.dfsFlow : Nat → Graph → VArr Int → Nat → Int → Nat → Option (Graph × VArr Int × Int)
  | 0, _, _, _, _, _ => none
  | fuel+1, g, count, u, f, t =>
    if u = t then some (g, count, f)
    else
      dfsEdgeLoop (fun g' c' v' f' => Graph.dfsFlow fuel g' c' v' f' t) u f
        ((vget g.edges [] u).length + 1) g count

/-- Do-while loop: call dfsFlow from s until it returns no flow,
    accumulating the returned flows. -/
def Graph.calcMinCutInner (s t : Nat) :
    Nat → Graph → VArr Int → Int → Option (Graph × Int)
  | 0, _, _, _ => none
  | fuel+1, g, count, acc =>
    match Graph.dfsFlow DFS_FUEL g count s INF t with
    | none => none
    | some (g1, count1, flow) =>
      if 0 < flow then Graph.calcMinCutInner s t fuel g1 count1 (acc + flow)
      else some (g1, acc)

def Graph.calcMinCutLoop (s t : Nat) : Nat → Graph → Int → Option (Graph × Int)
  | 0, _, _ => none
  | fuel+1, g, acc =>
    match g.bfs s t with
    | none => none
    | some (g1, false) => some (g1, acc)
    | some (g1, true) =>
      match Graph.calcMinCutInner s t INNER_FUEL g1 (vinit (g1.v + 1) 0) acc with
      | none => none
      | some (g2, acc1) => Graph.calcMinCutLoop s t fuel g2 acc1

/-- calcMinCut: Dinic's algorithm; returns the graph with its final
    flows together with the max-flow value, or -1 when s = t. -/
def Graph.calcMinCut (g : Graph) (s t : Nat) : Option (Graph × Int) :=
  if s = t then some (g, -1)
  else Graph.calcMinCutLoop s t PHASE_FUEL g 0

/-- One edge scan of Bfsthecut: mark endpoints of residual edges, and
    record every saturated positive-capacity edge together with its
    source vertex u (the edge.u field of the source). -/
def cutScanEdge (u : Nat) (st : VArr Int × List Nat × List (Nat × Edge)) (e : Edge) :
    VArr Int × List Nat × List (Nat × Edge) :=
  let st1 :=
    if e.f < e.c then
      if vget st.1 (-1) e.v < 1 then (vset st.1 e.v 1, st.2.1 ++ [e.v], st.2.2)
      else st
    else st
  if e.f = e.c ∧ 0 < e.c then (st1.1, st1.2.1, st1.2.2 ++ [(u, e)]) else st1

def Graph.bfsTheCutLoop :
    Nat → Graph → List Nat → Nat → List (Nat × Edge) → Option (Graph × List (Nat × Edge))
  | 0, _, _, _, _ => none
  | fuel+1, g, queue, qi, acc =>
    if qi < queue.length then
      let u := queue.getD qi 0
      let st := (vget g.edges [] u).foldl (cutScanEdge u) (g.level, queue, acc)
      Graph.bfsTheCutLoop fuel { g with level := st.1 } st.2.1 (qi + 1) st.2.2
    else some (g, acc)

/-- Bfsthecut: mark the vertices reachable from s in the residual
    graph, then keep the source vertices of the recorded saturated
    edges whose endpoint was not reached. -/
def Graph.bfsTheCut (g : Graph) (s : Nat) : Option (List Nat) :=
  let g1 : Graph := { g with level := vset (vinit g.v (-1)) s 1 }
  match Graph.bfsTheCutLoop BFS_FUEL g1 [s] 0 [] with
  | none => none
  | some (g2, eInCut) =>
    some ((eInCut.filter (fun p => vget g2.level (-1) p.2.v = -1)).map (fun p => p.1))

/-! ## Graph construction from the classified room -/

/-- Mark the protected coordinates: a coordinate whose current tag is
    NORMAL is upgraded to PROTECTED; everything else is untouched
    (missing list entries or out-of-range coordinates read as
    undefined and are skipped). -/
def markProtected (roomArray : Grid Int) (coords : List (List Int)) : Grid Int :=
  coords.foldl
    (fun ra coord =>
      match coord.get? 0, coord.get? 1 with
      | some cx, some cy =>
        if gget? ra cx cy = some NORMAL then gset ra cx cy PROTECTED else ra
      | _, _ => ra)
    roomArray

/-- Edges of one interior tile (x, y): a NORMAL tile gets the unit
    top-to-bot edge and infinite edges from bot to the top vertices of
    its NORMAL or TO_EXIT neighbours; a PROTECTED tile additionally
    gets the infinite source edge; a TO_EXIT tile gets the infinite
    edge to the sink. -/
def buildTileEdges (ra : Grid Int) (g : Graph) (x y : Int) : Graph :=
  let top := positionToVertex x y
  let bot := top + BOT_OFFSET
  let tileType := gget ra UNWALKABLE x y
  if tileType = NORMAL then
    let g1 := g.addEdge top.toNat bot.toNat 1
    SURROUND_OFFSETS.foldl
      (fun g2 d =>
        let nx := x + d.1
        let ny := y + d.2
        let neighborType := gget? ra nx ny
        if neighborType = some NORMAL ∨ neighborType = some TO_EXIT then
          g2.addEdge bot.toNat (positionToVertex nx ny).toNat INF
        else g2)
      g1
  else if tileType = PROTECTED then
    let g1 := (g.addEdge SOURCE_VERTEX top.toNat INF).addEdge top.toNat bot.toNat 1
    SURROUND_OFFSETS.foldl
      (fun g2 d =>
        let nx := x + d.1
        let ny := y + d.2
        let neighborType := gget? ra nx ny
        if neighborType = some NORMAL ∨ neighborType = some TO_EXIT then
          g2.addEdge bot.toNat (positionToVertex nx ny).toNat INF
        else g2)
      g1
  else if tileType = TO_EXIT then g.addEdge top.toNat SINK_VERTEX INF
  else g

/-- createGraph: validate the bounds, classify the room, mark the
    protected coordinates and build the flow graph over the interior
    tiles 1 <= x, y <= 48. -/
def createGraph (t : Terrain) (coords : List (List Int)) (b : Bounds) : Option Graph :=
  if b.x1 ≥ b.x2 ∨ b.y1 ≥ b.y2 ∨ b.x1 < 0 ∨ b.y1 < 0 ∨
      b.x2 > ROOM_MAX_INDEX ∨ b.y2 > ROOM_MAX_INDEX then
    none
  else
    let roomArray := markProtected (createRoom2DArrayFromTerrain t b) coords
    some ((intRange 1 48).foldl
      (fun g x => (intRange 1 48).foldl (fun g y => buildTileEdges roomArray g x y) g)
      (Graph.new GRAPH_VERTEX_COUNT))

/-! ## Dead-end pruning (deleteTilesToDeadEnds) -/

/-- Fuel for the flood-fill stack loop: every pop removes one entry
    and pushes only freshly retagged NORMAL tiles, of which there are
    at most 2500. -/
def FLOOD_FUEL : Nat := 6000

/-- Flood-fill from the seeded TO_EXIT band: repeatedly pop a
    position, retag its NORMAL neighbours as TO_EXIT and push them. -/
def floodLoop : Nat → Grid Int → List Int → Option (Grid Int)
  | 0, _, _ => none
  | fuel+1, ra, stack =>
    match stack with
    | [] => some ra
    | index :: rest =>
      let pos := vertexToPosition index
      let st := SURROUND_OFFSETS.foldl
        (fun (st : Grid Int × List Int) d =>
          let nx := pos.x + d.1
          let ny := pos.y + d.2
          if gget? st.1 nx ny = some NORMAL then
            (gset st.1 nx ny TO_EXIT, positionToVertex nx ny :: st.2)
          else st)
        (ra, rest)
      floodLoop fuel st.1 st.2

/-- deleteTilesToDeadEnds: reclassify the room with full bounds, mark
    the cut tiles unwalkable, flood-fill from the TO_EXIT tiles of the
    inner exit band, and drop every cut tile with no TO_EXIT
    neighbour. -/
def deleteTilesToDeadEnds (t : Terrain) (cutTilesArray : List Position) :
    Option (List Position) :=
  let ra0 := createRoom2DArrayFromTerrain t wholeRoomBounds
  let ra1 := cutTilesArray.foldr
    (fun tile ra => if (gget? ra tile.x tile.y).isSome then gset ra tile.x tile.y UNWALKABLE else ra)
    ra0
  let stack1 := (intRange 1 48).foldl
    (fun st y =>
      let st1 := if gget? ra1 1 y = some TO_EXIT then positionToVertex 1 y :: st else st
      if gget? ra1 48 y = some TO_EXIT then positionToVertex 48 y :: st1 else st1)
    ([] : List Int)
  let stack2 := (intRange 1 48).foldl
    (fun st x =>
      let st1 := if gget? ra1 x 1 = some TO_EXIT then positionToVertex x 1 :: st else st
      if gget? ra1 x 48 = some TO_EXIT then positionToVertex x 48 :: st1 else st1)
    stack1
  match floodLoop FLOOD_FUEL ra1 stack2 with
  | none => none
  | some ra2 =>
    some (cutTilesArray.filter
      (fun tile =>
        SURROUND_OFFSETS.any
          (fun d => gget? ra2 (tile.x + d.1) (tile.y + d.2) = some TO_EXIT)))

/-! ## Min-cut driver (getCutTiles) -/

/-- getCutTiles: build the graph (invalid bounds give the empty
    result), run Dinic, convert the cut vertices to coordinates, and
    prune dead ends when the bounds are not the whole room. -/
def getCutTiles (t : Terrain) (coords : List (List Int))
    (b : Bounds := wholeRoomBounds) : Option (List Position) :=
  match createGraph t coords b with
  | none => some []
  | some graph =>
    match graph.calcMinCut SOURCE_VERTEX SINK_VERTEX with
    | none => none
    | some (g1, count) =>
      let possOpt :=
        if 0 < count then
          match g1.bfsTheCut SOURCE_VERTEX with
          | none => none
          | some cutEdges => some (cutEdges.map (fun v => vertexToPosition (v : Int)))
        else some []
      match possOpt with
      | none => none
      | some positions =>
        let isWholeRoom := b.x1 = 0 ∧ b.y1 = 0 ∧ b.x2 = ROOM_MAX_INDEX ∧ b.y2 = ROOM_MAX_INDEX
        if positions.length > 0 ∧ ¬isWholeRoom then deleteTilesToDeadEnds t positions
        else some positions

/-! ## calculate: expanding the protected set, ramparts and exposure -/

/-- Fuel for the queue-with-index BFS loops over room tiles: each tile
    is enqueued at most once (its mark is set when enqueued), so the
    frontier never exceeds 2500 entries plus the seeds. -/
def EXPAND_FUEL : Nat := 100000

/-- One dequeue step of the protected-area expansion: each in-room
    neighbour with mark 0 gets mark (current mark + 1), is appended to
    the expanded list, and keeps expanding while its mark is at
    most 3. -/
def expandNb (p : Int × Int) (st : Grid Int × List (Int × Int) × List (Int × Int))
    (d : Int × Int) : Grid Int × List (Int × Int) × List (Int × Int) :=
  let q : Int × Int := (p.1 + d.1, p.2 + d.2)
  if (0 ≤ q.1 ∧ q.1 < ROOM_SIZE ∧ 0 ≤ q.2 ∧ q.2 < ROOM_SIZE) ∧
      gget? st.1 q.1 q.2 = some 0 then
    let newLevel := gget st.1 0 p.1 p.2 + 1
    (gset st.1 q.1 q.2 newLevel, st.2.1 ++ [q],
      if newLevel ≤ 3 then st.2.2 ++ [q] else st.2.2)
  else st

def expandStep (st : Grid Int × List (Int × Int) × List (Int × Int)) (p : Int × Int) :
    Grid Int × List (Int × Int) × List (Int × Int) :=
  SURROUND_OFFSETS.foldl (expandNb p) st

def expandLoop :
    Nat → Grid Int × List (Int × Int) × List (Int × Int) → Nat →
    Option (Grid Int × List (Int × Int))
  | 0, _, _ => none
  | fuel+1, st, fi =>
    if fi < st.2.2.length then
      let p := st.2.2.getD fi (0, 0)
      expandLoop fuel (expandStep st p) (fi + 1)
    else some (st.1, st.2.1)

/-- The protected-set expansion of calculate: seed the mark grid with
    1 at every protected position, then BFS out to depth 3, collecting
    every newly marked tile into the expanded list. -/
def expandProtected (protectedPos : List (Int × Int)) :
    Option (Grid Int × List (Int × Int)) :=
  let protectedArr := protectedPos.foldl (fun g p => gset g p.1 p.2 1) (initArr 0)
  let seeds := protectedPos
  expandLoop EXPAND_FUEL (protectedArr, seeds, seeds) 0

/-- One dequeue step of the exposure BFS: every in-room neighbour that
    is defined, not UNWALKABLE, not RAMPART_MIN and not yet explored
    is retagged EXPOSED and enqueued. -/
def exposeStep (st : Grid Int × Grid Bool × List (Int × Int)) (p : Int × Int) :
    Grid Int × Grid Bool × List (Int × Int) :=
  SURROUND_OFFSETS.foldl
    (fun (st : Grid Int × Grid Bool × List (Int × Int)) d =>
      let x := p.1 + d.1
      let y := p.2 + d.2
      if (0 ≤ x ∧ x < ROOM_SIZE ∧ 0 ≤ y ∧ y < ROOM_SIZE) ∧
          gget st.2.1 false x y = false ∧ (gget? st.1 x y).isSome ∧
          gget? st.1 x y ≠ some UNWALKABLE ∧ gget? st.1 x y ≠ some RAMPART_MIN then
        (gset st.1 x y EXPOSED, gset st.2.1 x y true, st.2.2 ++ [(x, y)])
      else st)
    st

def exposeLoop :
    Nat → Grid Int × Grid Bool × List (Int × Int) → Nat → Option (Grid Int)
  | 0, _, _ => none
  | fuel+1, st, fi =>
    if fi < st.2.2.length then
      let p := st.2.2.getD fi (0, 0)
      exposeLoop fuel (exposeStep st p) (fi + 1)
    else some st.1

/-- calculate: expand the protected set by 3, add the controller's
    neighbours, run the min-cut driver, mark the cut positions
    RAMPART_MIN, BFS the exposed region from the exits and build the
    cost matrix (0xff at exposed tiles). -/
def calculate (t : Terrain) (protectedPos : List (Int × Int))
    (controllerPos : Int × Int) : Option (List Position × Grid Int) :=
  let roomArray := createRoom2DArrayFromTerrain t wholeRoomBounds
  match expandProtected protectedPos with
  | none => none
  | some (_, expandedPos) =>
    let expandedPos := expandedPos ++
      (SURROUND_OFFSETS.filterMap
        (fun d =>
          let x := controllerPos.1 + d.1
          let y := controllerPos.2 + d.2
          if 0 ≤ x ∧ x < ROOM_SIZE ∧ 0 ≤ y ∧ y < ROOM_SIZE then some (x, y) else none))
    match getCutTiles t (expandedPos.map (fun p => [p.1, p.2])) wholeRoomBounds with
    | none => none
    | some positions =>
      let ra1 := positions.foldl
        (fun ra pos =>
          if (gget? ra pos.x pos.y).isSome then gset ra pos.x pos.y RAMPART_MIN else ra)
        roomArray
      let seedSt := (intRange 0 49).foldl
        (fun st x =>
          (intRange 0 49).foldl
            (fun (st : Grid Int × Grid Bool × List (Int × Int)) y =>
              if gget? st.1 x y = some EXIT then
                (gset st.1 x y EXPOSED, gset st.2.1 x y true, st.2.2 ++ [(x, y)])
              else st)
            st)
        (ra1, initArr false, ([] : List (Int × Int)))
      match exposeLoop EXPAND_FUEL seedSt 0 with
      | none => none
      | some ra2 =>
        let costMatrix := (intRange 0 49).foldl
          (fun cm x =>
            (intRange 0 49).foldl
              (fun cm y => if gget? ra2 x y = some EXPOSED then gset cm x y 0xff else cm)
              cm)
          (initArr (0 : Int))
        some (positions, costMatrix)

/-! ## Building layout: clusters, predicates, distance fields -/

/-- Number.MAX_VALUE for the rational-valued score fields. -/
def INFQ : Rat := 2 ^ 1024

/-- Structure type strings. -/
def STRUCTURE_STORAGE : String := "storage"
def STRUCTURE_LINK : String := "link"
def STRUCTURE_LAB : String := "lab"
def STRUCTURE_TOWER : String := "tower"
def STRUCTURE_EXTENSION : String := "extension"
def STRUCTURE_OBSERVER : String := "observer"
def LOOK_STRUCTURES : String := "structure"
def LOOK_CONSTRUCTION_SITES : String := "constructionSite"

/-- A building cluster: structure type strings with relative offsets,
    in insertion order. -/
abbrev BuildingCluster : Type := List (String × List (Int × Int))

def storageCluster : BuildingCluster :=
  [(STRUCTURE_STORAGE, [(0, 0)]), (STRUCTURE_LINK, [(0, 1)])]

def labCluster : BuildingCluster :=
  [(STRUCTURE_LAB,
    [(-1, -1), (0, -1), (1, -1), (-1, 0), (0, 0), (1, 0), (-1, 1), (0, 1), (1, 1), (0, 2)])]

def towerCluster : BuildingCluster :=
  [(STRUCTURE_TOWER, [(-1, -1), (0, -1), (1, -1)])]

def extensionCluster : BuildingCluster :=
  [(STRUCTURE_EXTENSION, [(-1, -1), (0, -1), (1, -1), (-1, 0), (1, 0)])]

def observerCluster : BuildingCluster :=
  [(STRUCTURE_OBSERVER, [(0, 0)])]

/-- isOnWallOrEdgePure: on the border ring or on wall terrain. -/
def isOnWallOrEdgePure (x y : Int) (t : Terrain) : Bool :=
  if x ≤ 0 ∨ x ≥ ROOM_MAX_INDEX ∨ y ≤ 0 ∨ y ≥ ROOM_MAX_INDEX then true
  else t x y = TERRAIN_MASK_WALL

/-- isNearWallOrEdgePure: within one step of the border ring or of
    wall terrain. -/
def isNearWallOrEdgePure (x y : Int) (t : Terrain) : Bool :=
  if x ≤ 1 ∨ x ≥ ROOM_MAX_INDEX - 1 ∨ y ≤ 1 ∨ y ≥ ROOM_MAX_INDEX - 1 then true
  else SURROUND_OFFSETS.any (fun d => t (x + d.1) (y + d.2) = TERRAIN_MASK_WALL)

/-- One dequeue step of getCostArrayPure: if the dequeued cost is
    below maxRange, assign cost + 1 to every unexplored in-room
    non-wall neighbour, and enqueue it while cost + 1 is still below
    maxRange. -/
def costNb (t : Terrain) (maxRange : Int) (p : Int × Int × Int)
    (st : Grid Rat × Grid Bool × List (Int × Int × Int)) (d : Int × Int) :
    Grid Rat × Grid Bool × List (Int × Int × Int) :=
  let q : Int × Int := (p.1 + d.1, p.2.1 + d.2)
  if (0 ≤ q.1 ∧ q.1 < ROOM_SIZE ∧ 0 ≤ q.2 ∧ q.2 < ROOM_SIZE) ∧
      gget st.2.1 false q.1 q.2 = false ∧ t q.1 q.2 ≠ TERRAIN_MASK_WALL then
    let newCost := p.2.2 + 1
    (gset st.1 q.1 q.2 (newCost : Int), gset st.2.1 q.1 q.2 true,
      if newCost < maxRange then st.2.2 ++ [(q.1, q.2, newCost)] else st.2.2)
  else st

def costStep (t : Terrain) (maxRange : Int)
    (st : Grid Rat × Grid Bool × List (Int × Int × Int)) (p : Int × Int × Int) :
    Grid Rat × Grid Bool × List (Int × Int × Int) :=
  if p.2.2 ≥ maxRange then st
  else SURROUND_OFFSETS.foldl (costNb t maxRange p) st

def costLoop (t : Terrain) (maxRange : Int) :
    Nat → Grid Rat × Grid Bool × List (Int × Int × Int) → Nat → Option (Grid Rat)
  | 0, _, _ => none
  | fuel+1, st, fi =>
    if fi < st.2.2.length then
      let p := st.2.2.getD fi (0, 0, 0)
      costLoop t maxRange fuel (costStep t maxRange st p) (fi + 1)
    else some st.1

/-- getCostArrayPure: 8-neighbour BFS from the seed, writing the BFS
    depth into the cost array up to maxRange, leaving other entries
    untouched. -/
def getCostArrayPure (costArr : Grid Rat) (startX startY maxRange : Int)
    (t : Terrain) : Option (Grid Rat) :=
  let explored := gset (initArr false) startX startY true
  let costArr1 := gset costArr startX startY 0
  costLoop t maxRange EXPAND_FUEL (costArr1, explored, [(startX, startY, 0)]) 0

/-- canPutPure: every offset of every structure of the cluster must be
    in the room, unbuilt, and off wall terrain. -/
def canPutPure (x y : Int) (cluster : BuildingCluster) (built : Grid Bool)
    (t : Terrain) : Bool :=
  cluster.all (fun kv =>
    kv.2.all (fun d =>
      let nx := x + d.1
      let ny := y + d.2
      if nx < 0 ∨ nx ≥ ROOM_SIZE ∨ ny < 0 ∨ ny ≥ ROOM_SIZE then false
      else if gget built false nx ny then false
      else if t nx ny = TERRAIN_MASK_WALL then false
      else true))

/-- findMin: row-major scan for the minimum-value cell satisfying the
    predicate; missing cells read as Number.MAX_VALUE; (0,0) when no
    cell with a value below the running minimum satisfies the
    predicate. -/
def findMin (matrix : Grid Rat) (pred : Int → Int → Bool) : Int × Int :=
  let st := (intRange 0 49).foldl
    (fun st x =>
      (intRange 0 49).foldl
        (fun (st : Rat × Int × Int) y =>
          let val := (gget? matrix x y).getD INFQ
          if val < st.1 ∧ pred x y then (val, x, y) else st)
        st)
    ((INFQ, 0, 0) : Rat × Int × Int)
  (st.2.1, st.2.2)

/-- addArrays: elementwise sum of several fields, missing cells read
    as 0. -/
def addArrays (arrays : List (Grid Rat)) : Grid Rat :=
  arrays.foldl
    (fun res arr =>
      (intRange 0 49).foldl
        (fun res x =>
          (intRange 0 49).foldl
            (fun res y => gset res x y (gget res 0 x y + (gget? arr x y).getD 0))
            res)
        res)
    (initArr 0)

/-- multiplyArray: elementwise scalar multiple, missing cells read
    as 0. -/
def multiplyArray (arr : Grid Rat) (scalar : Rat) : Grid Rat :=
  (intRange 0 49).foldl
    (fun res x =>
      (intRange 0 49).foldl
        (fun res y => gset res x y ((gget? arr x y).getD 0 * scalar))
        res)
    (initArr 0)

/-- serialize a position to the x,y string persisted in memory. -/
def serialize (pos : Int × Int) : String :=
  toString pos.1 ++ "," ++ toString pos.2

/-! ## buildLayout and its host model

The host supplies the room lookup, the path finder and the structure
lookup; they are modelled as pure functions, and the memory bag as an
association list.  A JS TypeError (writing through an undefined array
row) is modelled by Except; the errorMapper wrapper catches it, so
buildLayout then returns the untouched empty layout together with the
memory as mutated so far. -/

structure MemEntry where
  containerPos : Option String
  linkPos : Option String
deriving DecidableEq, Repr

abbrev Mem : Type := List (String × MemEntry)

structure PathOpts where
  ignoreCreeps : Bool
  ignoreDestructibleStructures : Bool
  ignoreRoads : Bool
  swampCost : Int
  heuristicWeight : Rat
  range : Int
deriving DecidableEq, Repr

/-- The host room: whether it exists, its path finder and its
    structure/construction-site lookup. -/
structure HostRoom where
  present : Bool
  findPath : (Int × Int) → (Int × Int) → PathOpts → List (Int × Int)
  lookAt : Int → Int → List String

/-- A game object with a position and an optional id. -/
structure RoomObject where
  pos : Int × Int
  id : Option String

structure RoomLayout where
  spawn : List (Int × Int) := []
  extension : List (Int × Int) := []
  extractor : List (Int × Int) := []
  factory : List (Int × Int) := []
  lab : List (Int × Int) := []
  tower : List (Int × Int) := []
  link : List (Int × Int) := []
  nuker : List (Int × Int) := []
  observer : List (Int × Int) := []
  powerSpawn : List (Int × Int) := []
  storage : List (Int × Int) := []
  terminal : List (Int × Int) := []
  container : List (Int × Int) := []
  road : List (Int × Int) := []
deriving DecidableEq, Repr

def emptyLayout : RoomLayout := {}

/-- Append a placement to the list selected by the structure type
    string (the layout[layoutKey].push of the source). -/
def pushKind (l : RoomLayout) (k : String) (p : Int × Int) : RoomLayout :=
  if k = "spawn" then { l with spawn := l.spawn ++ [p] }
  else if k = "extension" then { l with extension := l.extension ++ [p] }
  else if k = "extractor" then { l with extractor := l.extractor ++ [p] }
  else if k = "factory" then { l with factory := l.factory ++ [p] }
  else if k = "lab" then { l with lab := l.lab ++ [p] }
  else if k = "tower" then { l with tower := l.tower ++ [p] }
  else if k = "link" then { l with link := l.link ++ [p] }
  else if k = "nuker" then { l with nuker := l.nuker ++ [p] }
  else if k = "observer" then { l with observer := l.observer ++ [p] }
  else if k = "powerSpawn" then { l with powerSpawn := l.powerSpawn ++ [p] }
  else if k = "storage" then { l with storage := l.storage ++ [p] }
  else if k = "terminal" then { l with terminal := l.terminal ++ [p] }
  else if k = "container" then { l with container := l.container ++ [p] }
  else if k = "road" then { l with road := l.road ++ [p] }
  else l

/-- Write built[x][y] = true; a row index outside the array throws
    (TypeError on undefined), a column index outside the row is an
    invisible property write and is dropped. -/
def bsetE (built : Grid Bool) (x y : Int) : Except Unit (Grid Bool) :=
  if x < 0 ∨ x > 49 then Except.error () else Except.ok (gset built x y true)

/-- canPut: the pure checks plus the host lookup for structures and
    construction sites. -/
def canPut (x y : Int) (cluster : BuildingCluster) (built : Grid Bool)
    (room : HostRoom) (t : Terrain) : Bool :=
  if ¬canPutPure x y cluster built t then false
  else
    cluster.all (fun kv =>
      kv.2.all (fun d =>
        (room.lookAt (x + d.1) (y + d.2)).all
          (fun o => o ≠ LOOK_STRUCTURES ∧ o ≠ LOOK_CONSTRUCTION_SITES)))

/-- put: append every absolute tile of the cluster to the layout and
    mark it built. -/
def put (x y : Int) (layout : RoomLayout) (cluster : BuildingCluster)
    (built : Grid Bool) : Except Unit (RoomLayout × Grid Bool) :=
  cluster.foldl
    (fun acc kv =>
      kv.2.foldl
        (fun acc d =>
          match acc with
          | Except.error e => Except.error e
          | Except.ok st =>
            let nx := x + d.1
            let ny := y + d.2
            match bsetE st.2 nx ny with
            | Except.error e => Except.error e
            | Except.ok b => Except.ok (pushKind st.1 kv.1 (nx, ny), b))
        acc)
    (Except.ok (layout, built))

/-- Neighbour list of the wall-distance BFS, in source order. -/
def wallNeighbors (x y : Int) : List (Int × Int) :=
  [(x - 1, y - 1), (x - 1, y), (x - 1, y + 1), (x, y - 1), (x, y + 1),
    (x + 1, y - 1), (x + 1, y), (x + 1, y + 1)]

def wallStep (st : Grid Rat × Grid Bool × List (Int × Int)) (p : Int × Int) :
    Grid Rat × Grid Bool × List (Int × Int) :=
  (wallNeighbors p.1 p.2).foldl
    (fun (st : Grid Rat × Grid Bool × List (Int × Int)) n =>
      if (0 < n.1 ∧ n.1 < ROOM_MAX_INDEX ∧ 0 < n.2 ∧ n.2 < ROOM_MAX_INDEX) ∧
          gget st.2.1 false n.1 n.2 = false then
        (gset st.1 n.1 n.2 ((gget st.1 0 p.1 p.2 + 10) * (3 / 4 : Rat)),
          gset st.2.1 n.1 n.2 true, st.2.2 ++ [n])
      else st)
    st

def wallLoop : Nat → Grid Rat × Grid Bool × List (Int × Int) → Nat → Option (Grid Rat)
  | 0, _, _ => none
  | fuel+1, st, fi =>
    if fi < st.2.2.length then
      let p := st.2.2.getD fi (0, 0)
      wallLoop fuel (wallStep st p) (fi + 1)
    else some st.1

/-- Wall-distance field: multi-source BFS from every wall-or-edge
    tile; each newly reached tile gets (previous value + 10) * 0.75. -/
def wallField (t : Terrain) : Option (Grid Rat) :=
  let seeds := (intRange 0 49).foldl
    (fun st x =>
      (intRange 0 49).foldl
        (fun (st : Grid Rat × Grid Bool × List (Int × Int)) y =>
          if isOnWallOrEdgePure x y t then (st.1, gset st.2.1 x y true, st.2.2 ++ [(x, y)])
          else st)
        st)
    ((initArr 0, initArr false, []) : Grid Rat × Grid Bool × List (Int × Int))
  wallLoop EXPAND_FUEL seeds 0

def connectOpts : PathOpts :=
  ⟨true, true, true, 1, 1, 1⟩

/-- connectToStorage: host path from the target to the storage; every
    path tile not yet built becomes road. -/
def connectToStorage (room : HostRoom) (storagePos : Int × Int)
    (st : RoomLayout × Grid Bool) (target : Int × Int) :
    Except Unit (RoomLayout × Grid Bool) :=
  (room.findPath target storagePos connectOpts).foldl
    (fun acc p =>
      match acc with
      | Except.error e => Except.error e
      | Except.ok st =>
        if gget st.2 false p.1 p.2 = false then
          match bsetE st.2 p.1 p.2 with
          | Except.error e => Except.error e
          | Except.ok b => Except.ok ({ st.1 with road := st.1.road ++ [p] }, b)
        else Except.ok st)
    (Except.ok st)

def memEnsure (m : Mem) (k : String) : Mem :=
  if (m.lookup k).isSome then m else m ++ [(k, ⟨none, none⟩)]

def memSetContainer (m : Mem) (k : String) (v : String) : Mem :=
  m.map (fun kv => if kv.1 = k then (kv.1, { kv.2 with containerPos := some v }) else kv)

def memSetLink (m : Mem) (k : String) (v : String) : Mem :=
  m.map (fun kv => if kv.1 = k then (kv.1, { kv.2 with linkPos := some v }) else kv)

/-- placeContainer: route from the storage to the target (range 3 for
    the controller, 1 otherwise), pave the path except its last tile,
    place a container on the last tile, persist it, and, unless the
    target is the mineral, place a link on the first acceptable
    neighbour of the container. -/
def placeContainer (room : HostRoom) (t : Terrain) (storagePos : Int × Int)
    (isController isMineral : Bool) (target : RoomObject)
    (st : RoomLayout × Grid Bool × Mem) :
    Except Unit (RoomLayout × Grid Bool × Mem) :=
  let rng : Int := if isController then 3 else 1
  let path := room.findPath storagePos target.pos
    ⟨true, true, true, 1, 1, rng⟩
  let roads := (path.take (path.length - 1)).foldl
    (fun acc p =>
      match acc with
      | Except.error e => Except.error e
      | Except.ok (st : RoomLayout × Grid Bool) =>
        if gget st.2 false p.1 p.2 = false then
          match bsetE st.2 p.1 p.2 with
          | Except.error e => Except.error e
          | Except.ok b => Except.ok ({ st.1 with road := st.1.road ++ [p] }, b)
        else Except.ok st)
    (Except.ok (st.1, st.2.1))
  match roads with
  | Except.error e => Except.error e
  | Except.ok (layout1, built1) =>
    match path.getLast? with
    | none => Except.error ()
    | some cp =>
      let layout2 := { layout1 with container := layout1.container ++ [cp] }
      match bsetE built1 cp.1 cp.2 with
      | Except.error e => Except.error e
      | Except.ok built2 =>
        let mem1 :=
          match target.id with
          | some tid => memSetContainer (memEnsure st.2.2 tid) tid (serialize cp)
          | none => st.2.2
        if isMineral then Except.ok (layout2, built2, mem1)
        else
          match SURROUND_OFFSETS.find?
              (fun d =>
                ¬isNearWallOrEdgePure (cp.1 + d.1) (cp.2 + d.2) t ∧
                  gget built2 false (cp.1 + d.1) (cp.2 + d.2) = false) with
          | some d =>
            let lp := (cp.1 + d.1, cp.2 + d.2)
            let layout3 := { layout2 with link := layout2.link ++ [lp] }
            let mem2 :=
              match target.id with
              | some tid =>
                if (mem1.lookup tid).isSome then memSetLink mem1 tid (serialize lp) else mem1
              | none => mem1
            Except.ok (layout3, built2, mem2)
          | none =>
            match SURROUND_OFFSETS.find?
                (fun d =>
                  ¬isOnWallOrEdgePure (cp.1 + d.1) (cp.2 + d.2) t ∧
                    gget built2 false (cp.1 + d.1) (cp.2 + d.2) = false) with
            | some d =>
              let lp := (cp.1 + d.1, cp.2 + d.2)
              let layout3 := { layout2 with link := layout2.link ++ [lp] }
              let mem2 :=
                match target.id with
                | some tid =>
                  if (mem1.lookup tid).isSome then memSetLink mem1 tid (serialize lp) else mem1
                | none => mem1
              Except.ok (layout3, built2, mem2)
            | none => Except.ok (layout2, built2, mem1)

/-- State of the placement phase: layout, built grid, recorded cluster
    centers. -/
structure PlaceState where
  layout : RoomLayout
  built : Grid Bool
  centers : List (Int × Int)

/-- Place one cluster at the findMin optimum of a score matrix,
    recording its center. -/
def placeCluster (room : HostRoom) (t : Terrain) (matrix : Grid Rat)
    (cluster : BuildingCluster) (st : PlaceState) : Except Unit PlaceState :=
  let xy := findMin matrix (fun x y => canPut x y cluster st.built room t)
  match put xy.1 xy.2 st.layout cluster st.built with
  | Except.error e => Except.error e
  | Except.ok (l, b) => Except.ok ⟨l, b, st.centers ++ [xy]⟩

/-- buildLayout: the full layout computation.  On a thrown TypeError
    the errorMapper of the source catches, so the result is the empty
    layout together with the memory as written so far; none is the
    fuel-out artifact of the embedding. -/
def buildLayout (room : HostRoom) (t : Terrain) (sources : List RoomObject)
    (mineral controller : RoomObject) (roomMemory : Mem) :
    Option (RoomLayout × Mem) :=
  if ¬room.present then some (emptyLayout, roomMemory)
  else
    let sourceArrOpt := sources.foldl
      (fun acc s =>
        match acc with
        | none => none
        | some arr => getCostArrayPure arr s.pos.1 s.pos.2 3 t)
      (some (initArr 0))
    match sourceArrOpt with
    | none => none
    | some sourceArr =>
      let layout0 : RoomLayout := { emptyLayout with extractor := [mineral.pos] }
      match getCostArrayPure (initArr 0) mineral.pos.1 mineral.pos.2 2 t with
      | none => none
      | some mineralArr =>
        match getCostArrayPure (initArr 0) controller.pos.1 controller.pos.2 4 t with
        | none => none
        | some controllerArr =>
          match wallField t with
          | none => none
          | some wallArr =>
            let matrix := addArrays [sourceArr, multiplyArray mineralArr (1/4),
              controllerArr, multiplyArray wallArr (-1)]
            let built0 : Grid Bool := initArr false
            let sxy := findMin matrix
              (fun x y => canPut x y storageCluster built0 room t)
            match getCostArrayPure (initArr 0) sxy.1 sxy.2 0 t with
            | none => none
            | some storageArr =>
              match put sxy.1 sxy.2 layout0 storageCluster built0 with
              | Except.error _ => some (emptyLayout, roomMemory)
              | Except.ok (layout1, built1) =>
                let storagePos := sxy
                let labMatrix := addArrays [mineralArr, multiplyArray storageArr 5,
                  multiplyArray sourceArr (1/100), multiplyArray controllerArr (1/100)]
                let towerMatrix := addArrays [multiplyArray mineralArr (1/100),
                  storageArr, multiplyArray sourceArr (1/100),
                  multiplyArray controllerArr (1/100)]
                let extensionMatrix := addArrays [multiplyArray mineralArr (1/100),
                  multiplyArray storageArr 4, sourceArr,
                  multiplyArray controllerArr (1/100)]
                let placed :=
                  match placeCluster room t labMatrix labCluster ⟨layout1, built1, []⟩ with
                  | Except.error e => Except.error e
                  | Except.ok st1 =>
                    match (List.range 6).foldl
                        (fun acc _ =>
                          match acc with
                          | Except.error e => Except.error e
                          | Except.ok st =>
                            match placeCluster room t towerMatrix towerCluster st with
                            | Except.error e => Except.error e
                            | Except.ok st' =>
                              placeCluster room t extensionMatrix extensionCluster st')
                        (Except.ok st1) with
                    | Except.error e => Except.error e
                    | Except.ok st2 =>
                      let observerMatrix := addArrays [multiplyArray mineralArr (1/100),
                        storageArr, multiplyArray sourceArr (1/100),
                        multiplyArray controllerArr (1/100)]
                      placeCluster room t observerMatrix observerCluster st2
                match placed with
                | Except.error _ => some (emptyLayout, roomMemory)
                | Except.ok stP =>
                  let connected := stP.centers.foldl
                    (fun acc c =>
                      match acc with
                      | Except.error e => Except.error e
                      | Except.ok st => connectToStorage room storagePos st c)
                    (Except.ok (stP.layout, stP.built))
                  match connected with
                  | Except.error _ => some (emptyLayout, roomMemory)
                  | Except.ok (layoutC, builtC) =>
                    match placeContainer room t storagePos true false controller
                        (layoutC, builtC, roomMemory) with
                    | Except.error _ => some (emptyLayout, roomMemory)
                    | Except.ok stA =>
                      let srcsPlaced := sources.foldl
                        (fun acc s =>
                          match acc with
                          | Except.error e => Except.error e
                          | Except.ok (st : RoomLayout × Grid Bool × Mem) =>
                            match placeContainer room t storagePos false false s st with
                            | Except.error _ => Except.error st.2.2
                            | Except.ok st' => Except.ok st')
                        (Except.ok stA : Except Mem (RoomLayout × Grid Bool × Mem))
                      match srcsPlaced with
                      | Except.error m => some (emptyLayout, m)
                      | Except.ok stB =>
                        match placeContainer room t storagePos false true mineral stB with
                        | Except.error _ => some (emptyLayout, stB.2.2)
                        | Except.ok stC => some (stC.1, stC.2.2)

/-! ## Pointwise characterization values for the classifier -/

/-- Value that the body of the first classification loop leaves at its
    own tile, as a function of the previous value. -/
def pass1Cell (t : Terrain) (b : Bounds) (x y : Int) (old : Int) : Int :=
  if t x y ≠ TERRAIN_MASK_WALL then
    if x = 0 ∨ y = 0 ∨ x = ROOM_MAX_INDEX ∨ y = ROOM_MAX_INDEX then EXIT
    else if x = b.x1 ∨ y = b.y1 ∨ x = b.x2 ∨ y = b.y2 then TO_EXIT
    else NORMAL
  else old

/-- Value of the first classification pass at a tile. -/
def pass1Val (t : Terrain) (b : Bounds) (x y : Int) : Int :=
  if b.x1 ≤ x ∧ x ≤ b.x2 ∧ b.y1 ≤ y ∧ y ≤ b.y2 then pass1Cell t b x y UNWALKABLE
  else UNWALKABLE

/-- The three-cell EXIT window on border column cx that triggers the
    left/right exit-adjacency pass at height y. -/
def exitWindowLR (t : Terrain) (b : Bounds) (cx y : Int) : Prop :=
  pass1Val t b cx (y - 1) = EXIT ∨ pass1Val t b cx y = EXIT ∨ pass1Val t b cx (y + 1) = EXIT

/-- The three-cell EXIT window on border row cy that triggers the
    top/bottom exit-adjacency pass at abscissa x. -/
def exitWindowTB (t : Terrain) (b : Bounds) (x cy : Int) : Prop :=
  pass1Val t b (x - 1) cy = EXIT ∨ pass1Val t b x cy = EXIT ∨ pass1Val t b (x + 1) cy = EXIT

instance (t : Terrain) (b : Bounds) (cx y : Int) : Decidable (exitWindowLR t b cx y) := by
  unfold exitWindowLR; infer_instance

instance (t : Terrain) (b : Bounds) (x cy : Int) : Decidable (exitWindowTB t b x cy) := by
  unfold exitWindowTB; infer_instance

/-- Band condition: the tile is overwritten TO_EXIT by one of the two
    exit-adjacency passes. -/
def bandTO_EXIT (t : Terrain) (b : Bounds) (x y : Int) : Prop :=
  (x = 1 ∧ 1 ≤ y ∧ y ≤ 48 ∧ exitWindowLR t b 0 y) ∨
  (x = 48 ∧ 1 ≤ y ∧ y ≤ 48 ∧ exitWindowLR t b 49 y) ∨
  (y = 1 ∧ 1 ≤ x ∧ x ≤ 48 ∧ exitWindowTB t b x 0) ∨
  (y = 48 ∧ 1 ≤ x ∧ x ≤ 48 ∧ exitWindowTB t b x 49)

instance (t : Terrain) (b : Bounds) (x y : Int) : Decidable (bandTO_EXIT t b x y) := by
  unfold bandTO_EXIT; infer_instance

/-- Pointwise value of the full classifier. -/
def roomVal (t : Terrain) (b : Bounds) (x y : Int) : Int :=
  if bandTO_EXIT t b x y then TO_EXIT else pass1Val t b x y

/-! # Theorems

## Grid read/write lemmas -/

theorem gget?_gset_self (g : Grid α) (x y : Int) (v : α) :
    gget? (gset g x y v) x y = (gget? g x y).map (fun _ => v) := by
  unfold gget? gset
  by_cases hx : x < 0
  · simp [hx]
  · simp only [hx, if_false]
    cases hrow : g[x.toNat]? with
    | none => simp [hrow]
    | some row =>
      have hlen : x.toNat < g.length := by
        by_contra hc
        rw [List.getElem?_eq_none (by omega)] at hrow
        exact Option.noConfusion hrow
      by_cases hy : y < 0
      · simp [hrow, hy]
      · simp only [hrow, hy, if_false]
        rw [List.getElem?_set, if_pos rfl, if_pos hlen]
        simp only [hy, if_false]
        rw [List.getElem?_set, if_pos rfl]
        by_cases hylen : y.toNat < row.length
        · simp [hylen]
        · rw [if_neg hylen, List.getElem?_eq_none (by omega)]
          simp

theorem gget?_gset_ne (g : Grid α) (x y x' y' : Int) (v : α)
    (h : ¬(x = x' ∧ y = y')) :
    gget? (gset g x y v) x' y' = gget? g x' y' := by
  unfold gget? gset
  by_cases hx : x < 0
  · simp [hx]
  · simp only [hx, if_false]
    cases hrow : g[x.toNat]? with
    | none => rfl
    | some row =>
      by_cases hy : y < 0
      · simp [hrow, hy]
      · simp only [hrow, hy, if_false]
        by_cases hx' : x' < 0
        · simp [hx']
        · simp only [hx', if_false]
          by_cases hxx : x.toNat = x'.toNat
          · have hxeq : x = x' := by omega
            have hyne : y ≠ y' := by tauto
            rw [List.getElem?_set, if_pos hxx]
            have hlen : x.toNat < g.length := by
              by_contra hc
              rw [List.getElem?_eq_none (by omega)] at hrow
              exact Option.noConfusion hrow
            rw [if_pos hlen, ← hxx, hrow]
            by_cases hy' : y' < 0
            · simp [hy']
            · simp only [hy', if_false]
              rw [List.getElem?_set, if_neg (by omega)]
          · rw [List.getElem?_set, if_neg hxx]

theorem gget?_initArr (v : α) (x y : Int) (hx0 : 0 ≤ x) (hx1 : x ≤ 49)
    (hy0 : 0 ≤ y) (hy1 : y ≤ 49) :
    gget? (initArr v) x y = some v := by
  unfold gget? initArr
  have hx : ¬(x < 0) := by omega
  have hy : ¬(y < 0) := by omega
  have hxlt : x.toNat < 50 := by omega
  have hylt : y.toNat < 50 := by omega
  simp only [hx, if_false, hy]
  rw [List.getElem?_replicate, if_pos hxlt]
  simp only [if_false]
  rw [List.getElem?_replicate, if_pos hylt]

theorem gget_eq (g : Grid α) (d : α) (x y : Int) :
    gget g d x y = (gget? g x y).getD d := rfl

/-! ## intRange lemmas -/

theorem mem_intRange {a lo hi : Int} : a ∈ intRange lo hi ↔ lo ≤ a ∧ a ≤ hi := by
  unfold intRange
  constructor
  · intro hmem
    obtain ⟨i, hi, hEq⟩ := List.mem_map.mp hmem
    rw [List.mem_range] at hi
    omega
  · intro h
    apply List.mem_map.mpr
    exact ⟨(a - lo).toNat, List.mem_range.mpr (by omega), by omega⟩

/-! ## Pass 1 characterization -/

theorem pass1Cell_idem (t : Terrain) (b : Bounds) (x y old : Int) :
    pass1Cell t b x y (pass1Cell t b x y old) = pass1Cell t b x y old := by
  unfold pass1Cell
  by_cases hw : t x y ≠ TERRAIN_MASK_WALL <;> simp [hw]

theorem classifyTile_ne (t : Terrain) (b : Bounds) (g : Grid Int) (x y x' y' : Int)
    (h : ¬(x = x' ∧ y = y')) :
    gget? (classifyTile t b g x y) x' y' = gget? g x' y' := by
  unfold classifyTile
  split_ifs <;> simp only [gget?_gset_ne _ _ _ _ _ _ h]

theorem classifyTile_self (t : Terrain) (b : Bounds) (g : Grid Int) (x y : Int) :
    gget? (classifyTile t b g x y) x y =
      (gget? g x y).map (fun old => pass1Cell t b x y old) := by
  unfold classifyTile pass1Cell
  cases hg : gget? g x y with
  | none => split_ifs <;> simp [gget?_gset_self, hg]
  | some old =>
    simp only [Option.map_some]
    split_ifs <;> simp [gget?_gset_self, hg]

/-- Folding one row of pass 1 leaves other rows untouched. -/
theorem pass1Row_ne (t : Terrain) (b : Bounds) (x : Int) (ys : List Int)
    (g : Grid Int) (x' y' : Int) (hx : x' ≠ x) :
    gget? (ys.foldl (fun g y => classifyTile t b g x y) g) x' y' = gget? g x' y' := by
  induction ys generalizing g with
  | nil => rfl
  | cons a rest ih =>
    simp only [List.foldl_cons]
    rw [ih, classifyTile_ne]
    intro ⟨h1, _⟩
    exact hx h1.symm

/-- Folding one row of pass 1 leaves unprocessed columns untouched. -/
theorem pass1Row_notmem (t : Terrain) (b : Bounds) (x : Int) (ys : List Int)
    (g : Grid Int) (y' : Int) (hy : y' ∉ ys) :
    gget? (ys.foldl (fun g y => classifyTile t b g x y) g) x y' = gget? g x y' := by
  induction ys generalizing g with
  | nil => rfl
  | cons a rest ih =>
    simp only [List.foldl_cons]
    rw [ih _ (fun hm => hy (List.mem_cons_of_mem _ hm)), classifyTile_ne]
    intro ⟨_, h2⟩
    exact hy (h2 ▸ List.mem_cons_self _ _)

/-- Value of one row fold of pass 1 at a processed column. -/
theorem pass1Row_mem (t : Terrain) (b : Bounds) (x : Int) (ys : List Int)
    (g : Grid Int) (y : Int) (hy : y ∈ ys) :
    gget? (ys.foldl (fun g y => classifyTile t b g x y) g) x y =
      (gget? g x y).map (fun old => pass1Cell t b x y old) := by
  induction ys generalizing g with
  | nil => exact absurd hy (List.not_mem_nil y)
  | cons a rest ih =>
    simp only [List.foldl_cons]
    by_cases hmem : y ∈ rest
    · rw [ih _ hmem]
      by_cases hay : a = y
      · subst hay
        rw [classifyTile_self]
        cases gget? g x a <;> simp [pass1Cell_idem]
      · rw [classifyTile_ne _ _ _ _ _ _ _ (fun h => hay h.2)]
    · have hay : a = y := by
        rcases List.mem_cons.mp hy with h | h
        · exact h.symm
        · exact absurd h hmem
      subst hay
      rw [pass1Row_notmem _ _ _ _ _ _ hmem, classifyTile_self]

/-- The outer fold of pass 1: rows not in the list are untouched. -/
theorem pass1Cols_notmem (t : Terrain) (b : Bounds) (xs : List Int)
    (g : Grid Int) (x' y' : Int) (hx : x' ∉ xs) :
    gget? (xs.foldl
      (fun g x => (intRange b.y1 b.y2).foldl (fun g y => classifyTile t b g x y) g) g) x' y' =
      gget? g x' y' := by
  induction xs generalizing g with
  | nil => rfl
  | cons a rest ih =>
    simp only [List.foldl_cons]
    rw [ih _ (fun hm => hx (List.mem_cons_of_mem _ hm)), pass1Row_ne]
    intro heq
    exact hx (heq ▸ List.mem_cons_self _ _)

/-- The outer fold of pass 1 at a processed row. -/
theorem pass1Cols_mem (t : Terrain) (b : Bounds) (xs : List Int)
    (g : Grid Int) (x y : Int) (hx : x ∈ xs) :
    gget? (xs.foldl
      (fun g x => (intRange b.y1 b.y2).foldl (fun g y => classifyTile t b g x y) g) g) x y =
      (gget? g x y).map
        (fun old => if b.y1 ≤ y ∧ y ≤ b.y2 then pass1Cell t b x y old else old) := by
  induction xs generalizing g with
  | nil => exact absurd hx (List.not_mem_nil x)
  | cons a rest ih =>
    simp only [List.foldl_cons]
    by_cases hmem : x ∈ rest
    · rw [ih _ hmem]
      by_cases hax : a = x
      · subst hax
        by_cases hyr : b.y1 ≤ y ∧ y ≤ b.y2
        · rw [pass1Row_mem _ _ _ _ _ _ (mem_intRange.mpr hyr)]
          cases gget? g a y <;> simp [hyr, pass1Cell_idem]
        · rw [pass1Row_notmem _ _ _ _ _ _ (fun hm => hyr (mem_intRange.mp hm))]
      · rw [pass1Row_ne _ _ _ _ _ _ _ (fun h => hax h.symm)]
    · have hax : a = x := by
        rcases List.mem_cons.mp hx with h | h
        · exact h.symm
        · exact absurd h hmem
      subst hax
      rw [pass1Cols_notmem _ _ _ _ _ _ hmem]
      by_cases hyr : b.y1 ≤ y ∧ y ≤ b.y2
      · rw [pass1Row_mem _ _ _ _ _ _ (mem_intRange.mpr hyr)]
        simp [hyr]
      · rw [pass1Row_notmem _ _ _ _ _ _ (fun hm => hyr (mem_intRange.mp hm))]
        simp [hyr]

/-- Pointwise value of pass 1 on the initial grid. -/
theorem classifyPass1_char (t : Terrain) (b : Bounds) (x y : Int)
    (hx0 : 0 ≤ x) (hx1 : x ≤ 49) (hy0 : 0 ≤ y) (hy1 : y ≤ 49) :
    gget? (classifyPass1 t b) x y = some (pass1Val t b x y) := by
  unfold classifyPass1 pass1Val
  by_cases hxr : b.x1 ≤ x ∧ x ≤ b.x2
  · rw [pass1Cols_mem _ _ _ _ _ _ (mem_intRange.mpr hxr),
      gget?_initArr _ _ _ hx0 hx1 hy0 hy1]
    by_cases hyr : b.y1 ≤ y ∧ y ≤ b.y2
    · simp [hxr, hyr]
    · simp [hxr, hyr]
  · rw [pass1Cols_notmem _ _ _ _ _ _ (fun hm => hxr (mem_intRange.mp hm)),
      gget?_initArr _ _ _ hx0 hx1 hy0 hy1, if_neg (fun hc => hxr ⟨hc.1, hc.2.1⟩)]

/-! ## Pass 2 characterization -/

theorem gget?_cond_gset (P : Prop) [Decidable P] (g : Grid α) (x y : Int) (v : α)
    (x' y' : Int) :
    gget? (if P then gset g x y v else g) x' y' =
      if P ∧ x = x' ∧ y = y' then (gget? g x' y').map (fun _ => v)
      else gget? g x' y' := by
  by_cases hP : P
  · rw [if_pos hP]
    by_cases hxy : x = x' ∧ y = y'
    · obtain ⟨rfl, rfl⟩ := hxy
      rw [gget?_gset_self, if_pos ⟨hP, rfl, rfl⟩]
    · rw [gget?_gset_ne _ _ _ _ _ _ hxy, if_neg (fun hc => hxy ⟨hc.2.1, hc.2.2⟩)]
  · rw [if_neg hP, if_neg (fun hc => hP hc.1)]

theorem lrCond_congr {g g' : Grid Int} {cx : Int} (y : Int)
    (h : ∀ yy, gget? g cx yy = gget? g' cx yy) :
    lrCond g cx y ↔ lrCond g' cx y := by
  unfold lrCond gget
  rw [h, h, h]

theorem tbCond_congr {g g' : Grid Int} {cy : Int} (x : Int)
    (h : ∀ xx, gget? g xx cy = gget? g' xx cy) :
    tbCond g x cy ↔ tbCond g' x cy := by
  unfold tbCond gget
  rw [h, h, h]

/-- The left/right pass step does not touch the border columns 0
    and 49. -/
theorem lrStep_cols (g : Grid Int) (aa : Int) (cx yy : Int)
    (hcx : cx = 0 ∨ cx = 49) :
    gget? (lrStep g aa) cx yy = gget? g cx yy := by
  unfold lrStep
  rw [gget?_cond_gset, gget?_cond_gset,
    if_neg (fun hc => by rcases hcx with h | h <;> omega),
    if_neg (fun hc => by rcases hcx with h | h <;> omega)]

/-- The top/bottom pass step does not touch the border rows 0 and 49. -/
theorem tbStep_rows (g : Grid Int) (aa : Int) (xx cy : Int)
    (hcy : cy = 0 ∨ cy = 49) :
    gget? (tbStep g aa) xx cy = gget? g xx cy := by
  unfold tbStep
  rw [gget?_cond_gset, gget?_cond_gset,
    if_neg (fun hc => by rcases hcy with h | h <;> omega),
    if_neg (fun hc => by rcases hcy with h | h <;> omega)]

/-- Pointwise effect of one left/right pass step. -/
theorem lrStep_at (g : Grid Int) (aa x' y' : Int) :
    gget? (lrStep g aa) x' y' =
      if x' = 1 ∧ y' = aa ∧ lrCond g 0 aa then (gget? g x' y').map (fun _ => TO_EXIT)
      else if x' = 48 ∧ y' = aa ∧ lrCond g 49 aa then (gget? g x' y').map (fun _ => TO_EXIT)
      else gget? g x' y' := by
  have hc49 : lrCond (if lrCond g 0 aa then gset g 1 aa TO_EXIT else g) 49 aa ↔
      lrCond g 49 aa := by
    refine lrCond_congr _ (fun yy => ?_)
    rw [gget?_cond_gset, if_neg (fun hc => by omega)]
  unfold lrStep
  rw [gget?_cond_gset]
  by_cases h48 : lrCond g 49 aa ∧ 48 = x' ∧ aa = y'
  · rw [if_pos ⟨hc49.mpr h48.1, h48.2⟩, gget?_cond_gset,
      if_neg (fun hc => by omega),
      if_neg (fun hc => by omega),
      if_pos ⟨h48.2.1.symm, h48.2.2.symm, h48.1⟩]
  · rw [if_neg (fun hc => h48 ⟨hc49.mp hc.1, hc.2⟩), gget?_cond_gset]
    by_cases h1 : lrCond g 0 aa ∧ 1 = x' ∧ aa = y'
    · rw [if_pos h1, if_pos ⟨h1.2.1.symm, h1.2.2.symm, h1.1⟩]
    · rw [if_neg h1, if_neg (fun hc => h1 ⟨hc.2.2, hc.1.symm, hc.2.1.symm⟩),
        if_neg (fun hc => h48 ⟨hc.2.2, hc.1.symm, hc.2.1.symm⟩)]

/-- Pointwise effect of one top/bottom pass step. -/
theorem tbStep_at (g : Grid Int) (aa x' y' : Int) :
    gget? (tbStep g aa) x' y' =
      if y' = 1 ∧ x' = aa ∧ tbCond g aa 0 then (gget? g x' y').map (fun _ => TO_EXIT)
      else if y' = 48 ∧ x' = aa ∧ tbCond g aa 49 then (gget? g x' y').map (fun _ => TO_EXIT)
      else gget? g x' y' := by
  have hc49 : tbCond (if tbCond g aa 0 then gset g aa 1 TO_EXIT else g) aa 49 ↔
      tbCond g aa 49 := by
    refine tbCond_congr _ (fun xx => ?_)
    rw [gget?_cond_gset, if_neg (fun hc => by omega)]
  unfold tbStep
  rw [gget?_cond_gset]
  by_cases h48 : tbCond g aa 49 ∧ aa = x' ∧ 48 = y'
  · rw [if_pos ⟨hc49.mpr h48.1, h48.2⟩, gget?_cond_gset,
      if_neg (fun hc => by omega),
      if_neg (fun hc => by omega),
      if_pos ⟨h48.2.2.symm, h48.2.1.symm, h48.1⟩]
  · rw [if_neg (fun hc => h48 ⟨hc49.mp hc.1, hc.2⟩), gget?_cond_gset]
    by_cases h1 : tbCond g aa 0 ∧ aa = x' ∧ 1 = y'
    · rw [if_pos h1, if_pos ⟨h1.2.2.symm, h1.2.1.symm, h1.1⟩]
    · rw [if_neg h1, if_neg (fun hc => h1 ⟨hc.2.2, hc.2.1.symm, hc.1.symm⟩),
        if_neg (fun hc => h48 ⟨hc.2.2, hc.2.1.symm, hc.1.symm⟩)]

/-- Merging of the branch structure of one exit-adjacency step into a
    folded pass: P and Q are the two disjoint target columns or rows,
    M the current loop index test, R membership in the remaining
    indices. -/
theorem mergeIf (P Q M R c0 c49 c0i c49i : Prop)
    [Decidable P] [Decidable Q] [Decidable M] [Decidable R]
    [Decidable c0] [Decidable c49] [Decidable c0i] [Decidable c49i]
    (hPQ : ¬(P ∧ Q)) (hM0 : M → (c0i ↔ c0)) (hM49 : M → (c49i ↔ c49)) (T v : Int) :
    (if P ∧ R ∧ c0 then T else if Q ∧ R ∧ c49 then T
      else if P ∧ M ∧ c0i then T else if Q ∧ M ∧ c49i then T else v)
      = if P ∧ (M ∨ R) ∧ c0 then T else if Q ∧ (M ∨ R) ∧ c49 then T else v := by
  by_cases hP : P
  · have hQn : ¬Q := fun hq => hPQ ⟨hP, hq⟩
    rw [if_neg (fun (hc : Q ∧ R ∧ c49) => hQn hc.1),
      if_neg (fun (hc : Q ∧ M ∧ c49i) => hQn hc.1),
      if_neg (fun (hc : Q ∧ (M ∨ R) ∧ c49) => hQn hc.1)]
    simp only [hP, true_and]
    by_cases hc0 : c0
    · simp only [hc0, and_true]
      by_cases hR : R
      · simp [hR]
      · simp only [hR, or_false, if_false]
        by_cases hM : M
        · simp [hM, (hM0 hM).mpr hc0]
        · simp [hM]
    · by_cases hM : M
      · have hc0i : ¬c0i := fun h => hc0 ((hM0 hM).mp h)
        simp [hc0, hc0i]
      · simp [hc0, hM]
  · rw [if_neg (fun (hc : P ∧ R ∧ c0) => hP hc.1),
      if_neg (fun (hc : P ∧ M ∧ c0i) => hP hc.1),
      if_neg (fun (hc : P ∧ (M ∨ R) ∧ c0) => hP hc.1)]
    by_cases hQ : Q
    · simp only [hQ, true_and]
      by_cases hc49 : c49
      · simp only [hc49, and_true]
        by_cases hR : R
        · simp [hR]
        · simp only [hR, or_false, if_false]
          by_cases hM : M
          · simp [hM, (hM49 hM).mpr hc49]
          · simp [hM]
      · by_cases hM : M
        · have hc49i : ¬c49i := fun h => hc49 ((hM49 hM).mp h)
          simp [hc49, hc49i]
        · simp [hc49, hM]
    · simp [hQ]

/-- Pointwise effect of one left/right pass step when the cell is
    present. -/
theorem lrStep_at_some (g : Grid Int) (aa x' y' : Int) (v : Int)
    (hv : gget? g x' y' = some v) :
    gget? (lrStep g aa) x' y' =
      some (if x' = 1 ∧ y' = aa ∧ lrCond g 0 aa then TO_EXIT
        else if x' = 48 ∧ y' = aa ∧ lrCond g 49 aa then TO_EXIT else v) := by
  rw [lrStep_at, hv]
  split_ifs <;> simp

/-- Pointwise effect of one top/bottom pass step when the cell is
    present. -/
theorem tbStep_at_some (g : Grid Int) (aa x' y' : Int) (v : Int)
    (hv : gget? g x' y' = some v) :
    gget? (tbStep g aa) x' y' =
      some (if y' = 1 ∧ x' = aa ∧ tbCond g aa 0 then TO_EXIT
        else if y' = 48 ∧ x' = aa ∧ tbCond g aa 49 then TO_EXIT else v) := by
  rw [tbStep_at, hv]
  split_ifs <;> simp

set_option maxHeartbeats 1600000 in
/-- Characterization of the folded left/right pass relative to a
    reference grid with the same border columns. -/
theorem lrFold_some (ys : List Int) (g g0 : Grid Int)
    (hc0 : ∀ yy, gget? g 0 yy = gget? g0 0 yy)
    (hc49 : ∀ yy, gget? g 49 yy = gget? g0 49 yy)
    (x' y' v : Int) (hv : gget? g x' y' = some v) :
    gget? (ys.foldl lrStep g) x' y' =
      some (if x' = 1 ∧ y' ∈ ys ∧ lrCond g0 0 y' then TO_EXIT
        else if x' = 48 ∧ y' ∈ ys ∧ lrCond g0 49 y' then TO_EXIT else v) := by
  induction ys generalizing g v with
  | nil =>
    simp only [List.foldl_nil, List.not_mem_nil, false_and, and_false, if_false]
    exact hv
  | cons aa rest ih =>
    have hg0 : ∀ yy, gget? (lrStep g aa) 0 yy = gget? g0 0 yy := fun yy => by
      rw [lrStep_cols _ _ _ _ (Or.inl rfl), hc0]
    have hg49 : ∀ yy, gget? (lrStep g aa) 49 yy = gget? g0 49 yy := fun yy => by
      rw [lrStep_cols _ _ _ _ (Or.inr rfl), hc49]
    have e0 : lrCond g 0 aa ↔ lrCond g0 0 aa := lrCond_congr _ hc0
    have e49 : lrCond g 49 aa ↔ lrCond g0 49 aa := lrCond_congr _ hc49
    rw [List.foldl_cons, ih (lrStep g aa) hg0 hg49 _ (lrStep_at_some g aa x' y' v hv)]
    congr 1
    simp only [e0, e49, List.mem_cons]
    exact mergeIf (x' = 1) (x' = 48) (y' = aa) (y' ∈ rest)
      (lrCond g0 0 y') (lrCond g0 49 y') (lrCond g0 0 aa) (lrCond g0 49 aa)
      (by omega) (fun h => by rw [h]) (fun h => by rw [h]) TO_EXIT v

set_option maxHeartbeats 1600000 in
/-- Characterization of the folded top/bottom pass relative to a
    reference grid with the same border rows. -/
theorem tbFold_some (xs : List Int) (g g0 : Grid Int)
    (hr0 : ∀ xx, gget? g xx 0 = gget? g0 xx 0)
    (hr49 : ∀ xx, gget? g xx 49 = gget? g0 xx 49)
    (x' y' v : Int) (hv : gget? g x' y' = some v) :
    gget? (xs.foldl tbStep g) x' y' =
      some (if y' = 1 ∧ x' ∈ xs ∧ tbCond g0 x' 0 then TO_EXIT
        else if y' = 48 ∧ x' ∈ xs ∧ tbCond g0 x' 49 then TO_EXIT else v) := by
  induction xs generalizing g v with
  | nil =>
    simp only [List.foldl_nil, List.not_mem_nil, false_and, and_false, if_false]
    exact hv
  | cons aa rest ih =>
    have hg0 : ∀ xx, gget? (tbStep g aa) xx 0 = gget? g0 xx 0 := fun xx => by
      rw [tbStep_rows _ _ _ _ (Or.inl rfl), hr0]
    have hg49 : ∀ xx, gget? (tbStep g aa) xx 49 = gget? g0 xx 49 := fun xx => by
      rw [tbStep_rows _ _ _ _ (Or.inr rfl), hr49]
    have e0 : tbCond g aa 0 ↔ tbCond g0 aa 0 := tbCond_congr _ hr0
    have e49 : tbCond g aa 49 ↔ tbCond g0 aa 49 := tbCond_congr _ hr49
    rw [List.foldl_cons, ih (tbStep g aa) hg0 hg49 _ (tbStep_at_some g aa x' y' v hv)]
    congr 1
    simp only [e0, e49, List.mem_cons]
    exact mergeIf (y' = 1) (y' = 48) (x' = aa) (x' ∈ rest)
      (tbCond g0 x' 0) (tbCond g0 x' 49) (tbCond g0 aa 0) (tbCond g0 aa 49)
      (by omega) (fun h => by rw [h]) (fun h => by rw [h]) TO_EXIT v

/-- Reordering of a chain of four guarded overwrites into one disjunction. -/
theorem ifChain (A B C D : Prop) [Decidable A] [Decidable B] [Decidable C]
    [Decidable D] (T v : Int) :
    (if C then T else if D then T else if A then T else if B then T else v) =
    (if A ∨ B ∨ C ∨ D then T else v) := by
  by_cases hA : A <;> by_cases hB : B <;> by_cases hC : C <;> by_cases hD : D <;>
    simp [hA, hB, hC, hD]

/-- Full pointwise characterization of createRoom2DArrayFromTerrain. -/
theorem roomArray_char (t : Terrain) (b : Bounds) (x y : Int)
    (hx0 : 0 ≤ x) (hx1 : x ≤ 49) (hy0 : 0 ≤ y) (hy1 : y ≤ 49) :
    gget? (createRoom2DArrayFromTerrain t b) x y = some (roomVal t b x y) := by
  have h1 : gget? (classifyPass1 t b) x y = some (pass1Val t b x y) :=
    classifyPass1_char t b x y hx0 hx1 hy0 hy1
  have h2 : gget? (classifyPass2LR (classifyPass1 t b)) x y =
      some (if x = 1 ∧ y ∈ intRange 1 48 ∧ lrCond (classifyPass1 t b) 0 y then TO_EXIT
        else if x = 48 ∧ y ∈ intRange 1 48 ∧ lrCond (classifyPass1 t b) 49 y then TO_EXIT
        else pass1Val t b x y) :=
    lrFold_some _ _ _ (fun _ => rfl) (fun _ => rfl) x y _ h1
  have hrow0 : ∀ xx : Int, 0 ≤ xx → xx ≤ 49 →
      gget? (classifyPass2LR (classifyPass1 t b)) xx 0 = some (pass1Val t b xx 0) := by
    intro xx ha hb
    rw [show classifyPass2LR (classifyPass1 t b) =
        (intRange 1 48).foldl lrStep (classifyPass1 t b) from rfl,
      lrFold_some _ _ _ (fun _ => rfl) (fun _ => rfl) xx 0 _
        (classifyPass1_char t b xx 0 ha hb (by omega) (by omega)),
      if_neg (fun hc => by have := mem_intRange.mp hc.2.1; omega),
      if_neg (fun hc => by have := mem_intRange.mp hc.2.1; omega)]
  have hrow49 : ∀ xx : Int, 0 ≤ xx → xx ≤ 49 →
      gget? (classifyPass2LR (classifyPass1 t b)) xx 49 = some (pass1Val t b xx 49) := by
    intro xx ha hb
    rw [show classifyPass2LR (classifyPass1 t b) =
        (intRange 1 48).foldl lrStep (classifyPass1 t b) from rfl,
      lrFold_some _ _ _ (fun _ => rfl) (fun _ => rfl) xx 49 _
        (classifyPass1_char t b xx 49 ha hb (by omega) (by omega)),
      if_neg (fun hc => by have := mem_intRange.mp hc.2.1; omega),
      if_neg (fun hc => by have := mem_intRange.mp hc.2.1; omega)]
  have h3 : gget? (createRoom2DArrayFromTerrain t b) x y =
      some (if y = 1 ∧ x ∈ intRange 1 48 ∧ tbCond (classifyPass2LR (classifyPass1 t b)) x 0
          then TO_EXIT
        else if y = 48 ∧ x ∈ intRange 1 48 ∧
            tbCond (classifyPass2LR (classifyPass1 t b)) x 49 then TO_EXIT
        else if x = 1 ∧ y ∈ intRange 1 48 ∧ lrCond (classifyPass1 t b) 0 y then TO_EXIT
        else if x = 48 ∧ y ∈ intRange 1 48 ∧ lrCond (classifyPass1 t b) 49 y then TO_EXIT
        else pass1Val t b x y) :=
    tbFold_some _ _ _ (fun _ => rfl) (fun _ => rfl) x y _ h2
  rw [h3]
  congr 1
  have hTB0 : ∀ xx : Int, 1 ≤ xx → xx ≤ 48 →
      (tbCond (classifyPass2LR (classifyPass1 t b)) xx 0 ↔ exitWindowTB t b xx 0) := by
    intro xx ha hb
    unfold tbCond exitWindowTB gget
    rw [hrow0 (xx - 1) (by omega) (by omega), hrow0 xx (by omega) (by omega),
      hrow0 (xx + 1) (by omega) (by omega)]
    rfl
  have hTB49 : ∀ xx : Int, 1 ≤ xx → xx ≤ 48 →
      (tbCond (classifyPass2LR (classifyPass1 t b)) xx 49 ↔ exitWindowTB t b xx 49) := by
    intro xx ha hb
    unfold tbCond exitWindowTB gget
    rw [hrow49 (xx - 1) (by omega) (by omega), hrow49 xx (by omega) (by omega),
      hrow49 (xx + 1) (by omega) (by omega)]
    rfl
  have hLR0 : ∀ yy : Int, 1 ≤ yy → yy ≤ 48 →
      (lrCond (classifyPass1 t b) 0 yy ↔ exitWindowLR t b 0 yy) := by
    intro yy ha hb
    unfold lrCond exitWindowLR gget
    rw [classifyPass1_char t b 0 (yy - 1) (by omega) (by omega) (by omega) (by omega),
      classifyPass1_char t b 0 yy (by omega) (by omega) (by omega) (by omega),
      classifyPass1_char t b 0 (yy + 1) (by omega) (by omega) (by omega) (by omega)]
    rfl
  have hLR49 : ∀ yy : Int, 1 ≤ yy → yy ≤ 48 →
      (lrCond (classifyPass1 t b) 49 yy ↔ exitWindowLR t b 49 yy) := by
    intro yy ha hb
    unfold lrCond exitWindowLR gget
    rw [classifyPass1_char t b 49 (yy - 1) (by omega) (by omega) (by omega) (by omega),
      classifyPass1_char t b 49 yy (by omega) (by omega) (by omega) (by omega),
      classifyPass1_char t b 49 (yy + 1) (by omega) (by omega) (by omega) (by omega)]
    rfl
  have hA : (x = 1 ∧ y ∈ intRange 1 48 ∧ lrCond (classifyPass1 t b) 0 y) ↔
      (x = 1 ∧ 1 ≤ y ∧ y ≤ 48 ∧ exitWindowLR t b 0 y) := by
    constructor
    · rintro ⟨hx, hm, hcnd⟩
      have hmr := mem_intRange.mp hm
      exact ⟨hx, hmr.1, hmr.2, (hLR0 y hmr.1 hmr.2).mp hcnd⟩
    · rintro ⟨hx, ha, hb, hcnd⟩
      exact ⟨hx, mem_intRange.mpr ⟨ha, hb⟩, (hLR0 y ha hb).mpr hcnd⟩
  have hB : (x = 48 ∧ y ∈ intRange 1 48 ∧ lrCond (classifyPass1 t b) 49 y) ↔
      (x = 48 ∧ 1 ≤ y ∧ y ≤ 48 ∧ exitWindowLR t b 49 y) := by
    constructor
    · rintro ⟨hx, hm, hcnd⟩
      have hmr := mem_intRange.mp hm
      exact ⟨hx, hmr.1, hmr.2, (hLR49 y hmr.1 hmr.2).mp hcnd⟩
    · rintro ⟨hx, ha, hb, hcnd⟩
      exact ⟨hx, mem_intRange.mpr ⟨ha, hb⟩, (hLR49 y ha hb).mpr hcnd⟩
  have hC : (y = 1 ∧ x ∈ intRange 1 48 ∧
      tbCond (classifyPass2LR (classifyPass1 t b)) x 0) ↔
      (y = 1 ∧ 1 ≤ x ∧ x ≤ 48 ∧ exitWindowTB t b x 0) := by
    constructor
    · rintro ⟨hy, hm, hcnd⟩
      have hmr := mem_intRange.mp hm
      exact ⟨hy, hmr.1, hmr.2, (hTB0 x hmr.1 hmr.2).mp hcnd⟩
    · rintro ⟨hy, ha, hb, hcnd⟩
      exact ⟨hy, mem_intRange.mpr ⟨ha, hb⟩, (hTB0 x ha hb).mpr hcnd⟩
  have hD : (y = 48 ∧ x ∈ intRange 1 48 ∧
      tbCond (classifyPass2LR (classifyPass1 t b)) x 49) ↔
      (y = 48 ∧ 1 ≤ x ∧ x ≤ 48 ∧ exitWindowTB t b x 49) := by
    constructor
    · rintro ⟨hy, hm, hcnd⟩
      have hmr := mem_intRange.mp hm
      exact ⟨hy, hmr.1, hmr.2, (hTB49 x hmr.1 hmr.2).mp hcnd⟩
    · rintro ⟨hy, ha, hb, hcnd⟩
      exact ⟨hy, mem_intRange.mpr ⟨ha, hb⟩, (hTB49 x ha hb).mpr hcnd⟩
  unfold roomVal bandTO_EXIT
  simp only [hA, hB, hC, hD]
  exact ifChain _ _ _ _ TO_EXIT _

/-! ## C4: wall tiles and the exit-adjacency passes -/

/-- A terrain whose only wall is the tile (1, 1). -/
def oneWallTerrain : Terrain :=
  fun x y => if x = 1 ∧ y = 1 then TERRAIN_MASK_WALL else 0

/-- C4 counterexample: with a wall at (1,1) next to an open left exit and
    whole-room bounds, the classifier tags the wall tile (1,1) TO_EXIT
    rather than leaving it UNWALKABLE. -/
theorem C4_cex :
    oneWallTerrain 1 1 = TERRAIN_MASK_WALL ∧
    gget? (createRoom2DArrayFromTerrain oneWallTerrain wholeRoomBounds) 1 1 =
      some TO_EXIT ∧ TO_EXIT ≠ UNWALKABLE := by
  refine ⟨by decide, ?_, by decide⟩
  rw [roomArray_char oneWallTerrain wholeRoomBounds 1 1 (by decide) (by decide)
    (by decide) (by decide)]
  decide

/-- C4 (amended): a wall tile is left UNWALKABLE by the classifier unless it
    lies on an exit-adjacency band column/row (x equal to 1 or 48 with
    1 <= y <= 48, or y equal to 1 or 48 with 1 <= x <= 48) whose border window holds an
    EXIT tile, in which case the exit-adjacency pass overwrites it with
    TO_EXIT without rechecking the terrain. -/
theorem C4_wall_unwalkable_or_band (t : Terrain) (b : Bounds) (x y : Int)
    (hx0 : 0 ≤ x) (hx1 : x ≤ 49) (hy0 : 0 ≤ y) (hy1 : y ≤ 49)
    (hw : t x y = TERRAIN_MASK_WALL) :
    gget? (createRoom2DArrayFromTerrain t b) x y =
      some (if bandTO_EXIT t b x y then TO_EXIT else UNWALKABLE) := by
  rw [roomArray_char t b x y hx0 hx1 hy0 hy1]
  unfold roomVal
  congr 1
  split_ifs
  · rfl
  · unfold pass1Val pass1Cell
    rw [hw]
    simp

/-- Instantiation of the C4 amended theorem at the counterexample tile. -/
theorem C4_wall_unwalkable_or_band_witness :
    gget? (createRoom2DArrayFromTerrain oneWallTerrain wholeRoomBounds) 1 1 =
      some (if bandTO_EXIT oneWallTerrain wholeRoomBounds 1 1 then TO_EXIT
        else UNWALKABLE) :=
  C4_wall_unwalkable_or_band oneWallTerrain wholeRoomBounds 1 1 (by decide)
    (by decide) (by decide) (by decide) (by decide)

/-! ## C8: invalid bounds -/

/-- C8: bounds with x1 >= x2 or y1 >= y2 or a coordinate outside [0,49] make
    createGraph return no graph, and getCutTiles return the empty position
    list, for every terrain and protected-coordinate list. -/
theorem C8_invalid_bounds (t : Terrain) (coords : List (List Int)) (b : Bounds)
    (hb : b.x1 ≥ b.x2 ∨ b.y1 ≥ b.y2 ∨ b.x1 < 0 ∨ b.y1 < 0 ∨
      b.x2 > 49 ∨ b.y2 > 49) :
    createGraph t coords b = none ∧ getCutTiles t coords b = some [] := by
  have hg : createGraph t coords b = none := by
    unfold createGraph
    rw [if_pos]
    exact hb
  refine ⟨hg, ?_⟩
  unfold getCutTiles
  rw [hg]

/-- Instantiation of C8 at concrete out-of-range bounds. -/
theorem C8_invalid_bounds_witness :
    createGraph (fun _ _ => 0) [] ⟨60, 0, 10, 10⟩ = none ∧
    getCutTiles (fun _ _ => 0) [] ⟨60, 0, 10, 10⟩ = some [] :=
  C8_invalid_bounds (fun _ _ => 0) [] ⟨60, 0, 10, 10⟩ (by decide)

/-! ## C9: determinism of buildLayout -/

/-- C9: buildLayout is deterministic: equal terrain, source, mineral and
    controller data, equal starting memory and pointwise-equal host room
    behaviour (presence, path finder, structure lookup) give equal layouts
    and equal memory writes. -/
theorem C9_buildLayout_deterministic (r1 r2 : HostRoom) (t : Terrain)
    (sources : List RoomObject) (mineral controller : RoomObject) (mem : Mem)
    (hp : r1.present = r2.present)
    (hf : ∀ a b o, r1.findPath a b o = r2.findPath a b o)
    (hl : ∀ x y, r1.lookAt x y = r2.lookAt x y) :
    buildLayout r1 t sources mineral controller mem =
      buildLayout r2 t sources mineral controller mem := by
  obtain ⟨p1, f1, l1⟩ := r1
  obtain ⟨p2, f2, l2⟩ := r2
  have hf2 : f1 = f2 := funext fun a => funext fun b => funext fun o => hf a b o
  have hl2 : l1 = l2 := funext fun a => funext fun b => hl a b
  cases hp
  cases hf2
  cases hl2
  rfl

/-- A silent host room used to instantiate the determinism theorem. -/
def silentHost : HostRoom := ⟨false, fun _ _ _ => [], fun _ _ => []⟩

/-- Instantiation of C9 at a concrete host and inputs. -/
theorem C9_buildLayout_deterministic_witness :
    buildLayout silentHost (fun _ _ => 0) [] ⟨(1, 1), none⟩ ⟨(2, 2), none⟩ [] =
      buildLayout silentHost (fun _ _ => 0) [] ⟨(1, 1), none⟩ ⟨(2, 2), none⟩ [] :=
  C9_buildLayout_deterministic silentHost silentHost (fun _ _ => 0) []
    ⟨(1, 1), none⟩ ⟨(2, 2), none⟩ [] rfl (fun _ _ _ => rfl) (fun _ _ => rfl)

/-! ## C6: findMin characterization -/

/-- Value of a cost-matrix cell, a missing cell reading as
    Number.MAX_VALUE (the source's matrix[x]?.[y] ?? Number.MAX_VALUE). -/
def cellVal (m : Grid Rat) (c : Int × Int) : Rat := (gget? m c.1 c.2).getD INFQ

/-- The 2500 cells in findMin's row-major scan order (x outer, y inner). -/
def scanCells : List (Int × Int) :=
  (intRange 0 49).foldr (fun x acc => ((intRange 0 49).map (fun y => (x, y))) ++ acc) []

/-- One comparison step of findMin along the flattened scan order. -/
def findMinStep (m : Grid Rat) (pred : Int → Int → Bool)
    (st : Rat × Int × Int) (c : Int × Int) : Rat × Int × Int :=
  if cellVal m c < st.1 ∧ pred c.1 c.2 then (cellVal m c, c.1, c.2) else st

/-- A doubly nested fold is the fold over the flattened cell list. -/
theorem foldl_nested {α : Type} (f : α → Int → Int → α) (g : α → Int × Int → α)
    (hg : ∀ s c, g s c = f s c.1 c.2) (xs ys : List Int) (a : α) :
    xs.foldl (fun s x => ys.foldl (fun s y => f s x y) s) a =
      (xs.foldr (fun x acc => (ys.map (fun y => (x, y))) ++ acc) []).foldl g a := by
  induction xs generalizing a with
  | nil => rfl
  | cons x xs ih =>
    simp only [List.foldl_cons, List.foldr_cons, List.foldl_append, List.foldl_map,
      hg]
    exact ih _

/-- findMin as a single fold of findMinStep over the scan order. -/
theorem findMin_eq_scan (m : Grid Rat) (pred : Int → Int → Bool) :
    findMin m pred = ((scanCells.foldl (findMinStep m pred) (INFQ, 0, 0)).2.1,
      (scanCells.foldl (findMinStep m pred) (INFQ, 0, 0)).2.2) := by
  have h := foldl_nested
    (fun (st : Rat × Int × Int) x y =>
      let val := (gget? m x y).getD INFQ
      if val < st.1 ∧ pred x y then (val, x, y) else st)
    (findMinStep m pred) (fun s c => rfl) (intRange 0 49) (intRange 0 49)
    ((INFQ, 0, 0) : Rat × Int × Int)
  rw [show findMin m pred =
      ((((intRange 0 49).foldl
          (fun st x => (intRange 0 49).foldl
            (fun (st : Rat × Int × Int) y =>
              let val := (gget? m x y).getD INFQ
              if val < st.1 ∧ pred x y then (val, x, y) else st)
            st)
          ((INFQ, 0, 0) : Rat × Int × Int))).2.1,
        (((intRange 0 49).foldl
          (fun st x => (intRange 0 49).foldl
            (fun (st : Rat × Int × Int) y =>
              let val := (gget? m x y).getD INFQ
              if val < st.1 ∧ pred x y then (val, x, y) else st)
            st)
          ((INFQ, 0, 0) : Rat × Int × Int))).2.2) from rfl,
    h,
    show (intRange 0 49).foldr
        (fun x acc => ((intRange 0 49).map (fun y => (x, y))) ++ acc) [] =
      scanCells from rfl]

/-- Running characterization of the findMin fold: either no scanned cell
    improved on the incoming state, or the state records the last cell that
    did, which beats every earlier candidate strictly and every later one
    weakly. -/
theorem findMinFold_char (m : Grid Rat) (pred : Int → Int → Bool) :
    ∀ (L : List (Int × Int)) (st : Rat × Int × Int),
      (L.foldl (findMinStep m pred) st = st ∧
        ∀ c ∈ L, pred c.1 c.2 → ¬(cellVal m c < st.1)) ∨
      (∃ L₁ c L₂, L = L₁ ++ c :: L₂ ∧
        L.foldl (findMinStep m pred) st = (cellVal m c, c.1, c.2) ∧
        pred c.1 c.2 = true ∧ cellVal m c < st.1 ∧
        (∀ c' ∈ L₁, pred c'.1 c'.2 → cellVal m c < cellVal m c') ∧
        (∀ c' ∈ L₂, pred c'.1 c'.2 → ¬(cellVal m c' < cellVal m c))) := by
  intro L
  induction L with
  | nil => exact fun st => Or.inl ⟨rfl, by simp⟩
  | cons a L ih =>
    intro st
    by_cases ha : cellVal m a < st.1 ∧ pred a.1 a.2
    · have hstep : findMinStep m pred st a = (cellVal m a, a.1, a.2) := if_pos ha
      rcases ih (cellVal m a, a.1, a.2) with ⟨heq, hall⟩ |
        ⟨L₁, c, L₂, hsplit, heq, hpred, hlt, hbef, haft⟩
      · refine Or.inr ⟨[], a, L, rfl, ?_, ha.2, ha.1, by simp, hall⟩
        rw [List.foldl_cons, hstep, heq]
      · refine Or.inr ⟨a :: L₁, c, L₂, by simp [hsplit], ?_, hpred,
          lt_trans hlt ha.1, ?_, haft⟩
        · rw [List.foldl_cons, hstep, heq]
        · intro c' hc' hp
          rcases List.mem_cons.mp hc' with rfl | hc'
          · exact hlt
          · exact hbef c' hc' hp
    · have hstep : findMinStep m pred st a = st := if_neg ha
      rcases ih st with ⟨heq, hall⟩ | ⟨L₁, c, L₂, hsplit, heq, hpred, hlt, hbef, haft⟩
      · refine Or.inl ⟨?_, ?_⟩
        · rw [List.foldl_cons, hstep, heq]
        · intro c' hc' hp
          rcases List.mem_cons.mp hc' with rfl | hc'
          · exact fun hv => ha ⟨hv, hp⟩
          · exact hall c' hc' hp
      · refine Or.inr ⟨a :: L₁, c, L₂, by simp [hsplit], ?_, hpred, hlt, ?_, haft⟩
        · rw [List.foldl_cons, hstep, heq]
        · intro c' hc' hp
          rcases List.mem_cons.mp hc' with rfl | hc'
          · exact lt_of_lt_of_le hlt (not_lt.mp (fun h => ha ⟨h, hp⟩))
          · exact hbef c' hc' hp

/-- C6: findMin returns the minimum-value predicate-satisfying cell of the
    row-major scan (x outer 0..49, y inner 0..49), missing cells reading as
    Number.MAX_VALUE, ties broken by the first position in scan order; and
    it returns (0,0) when no cell with value below Number.MAX_VALUE
    satisfies the predicate. -/
theorem C6_findMin_char (m : Grid Rat) (pred : Int → Int → Bool) :
    (∃ L₁ L₂, scanCells = L₁ ++ findMin m pred :: L₂ ∧
      pred (findMin m pred).1 (findMin m pred).2 = true ∧
      cellVal m (findMin m pred) < INFQ ∧
      (∀ c ∈ L₁, pred c.1 c.2 → cellVal m (findMin m pred) < cellVal m c) ∧
      (∀ c ∈ L₂, pred c.1 c.2 → cellVal m (findMin m pred) ≤ cellVal m c)) ∨
    (findMin m pred = (0, 0) ∧
      ∀ c ∈ scanCells, pred c.1 c.2 → INFQ ≤ cellVal m c) := by
  rcases findMinFold_char m pred scanCells (INFQ, 0, 0) with ⟨heq, hall⟩ |
    ⟨L₁, c, L₂, hsplit, heq, hpred, hlt, hbef, haft⟩
  · right
    refine ⟨?_, fun c hc hp => not_lt.mp (hall c hc hp)⟩
    rw [findMin_eq_scan, heq]
  · left
    have hfm : findMin m pred = c := by
      rw [findMin_eq_scan, heq]
    rw [hfm]
    exact ⟨L₁, L₂, hsplit, hpred, hlt, hbef,
      fun c' h hp => not_lt.mp (haft c' h hp)⟩

/-! ## C7: the protected-set expansion of calculate

### Cells, reachability and grid well-formedness -/

/-- In-room test on a cell pair, as the source writes it. -/
def inRoomP (q : Int × Int) : Prop :=
  0 ≤ q.1 ∧ q.1 < ROOM_SIZE ∧ 0 ≤ q.2 ∧ q.2 < ROOM_SIZE

instance (q : Int × Int) : Decidable (inRoomP q) := by
  unfold inRoomP; infer_instance

/-- The cell displaced by one surround offset. -/
def nbr (p d : Int × Int) : Int × Int := (p.1 + d.1, p.2 + d.2)

/-- Chebyshev distance between two cells. -/
def chebDist (p q : Int × Int) : Nat :=
  max (q.1 - p.1).natAbs (q.2 - p.2).natAbs

/-- In-room 8-connected reachability from a seed set in a given number
    of steps: seeds take zero steps, every step lands on an in-room
    cell. -/
inductive ReachExp (S : List (Int × Int)) : Int × Int → Nat → Prop
  | seed (p : Int × Int) (hp : p ∈ S) : ReachExp S p 0
  | step (p : Int × Int) (n : Nat) (d : Int × Int) (hd : d ∈ SURROUND_OFFSETS)
      (hr : ReachExp S p n) (hq : inRoomP (nbr p d)) : ReachExp S (nbr p d) (n + 1)

/-- A grid is a well-formed 50 x 50 array. -/
def gridShape (g : Grid α) : Prop :=
  g.length = 50 ∧ ∀ row ∈ g, row.length = 50

/-- The mark of a cell in the expansion grid. -/
def markOf (g : Grid Int) (q : Int × Int) : Int := gget g 0 q.1 q.2

theorem gridShape_initArr (v : α) : gridShape (initArr v) := by
  unfold gridShape initArr
  refine ⟨List.length_replicate _ _, ?_⟩
  intro row hrow
  rw [List.eq_of_mem_replicate hrow]
  exact List.length_replicate _ _

theorem gridShape_gset (g : Grid α) (x y : Int) (v : α) (hs : gridShape g) :
    gridShape (gset g x y v) := by
  unfold gset
  by_cases hx : x < 0
  · simp only [if_pos hx]; exact hs
  · simp only [if_neg hx]
    cases hrow : g[x.toNat]? with
    | none => exact hs
    | some row =>
      by_cases hy : y < 0
      · simp only [if_pos hy]; exact hs
      · simp only [if_neg hy]
        obtain ⟨hlen, hrows⟩ := hs
        refine ⟨by rw [List.length_set]; exact hlen, ?_⟩
        intro r hr
        rcases List.mem_or_eq_of_mem_set hr with hmem | heq
        · exact hrows r hmem
        · obtain ⟨hlt, hrow2⟩ := List.getElem?_eq_some.mp hrow
          rw [heq, List.length_set]
          exact hrows row (hrow2 ▸ List.getElem_mem hlt)

/-- In-room reads of a well-formed grid are defined. -/
theorem gget?_isSome_of_shape (g : Grid α) (hs : gridShape g) (x y : Int)
    (hx0 : 0 ≤ x) (hx1 : x < 50) (hy0 : 0 ≤ y) (hy1 : y < 50) :
    ∃ v, gget? g x y = some v := by
  unfold gget?
  rw [if_neg (by omega)]
  have hxl : x.toNat < g.length := by rw [hs.1]; omega
  cases hrow : g[x.toNat]? with
  | none =>
    rw [List.getElem?_eq_none_iff] at hrow
    omega
  | some row =>
    obtain ⟨hlt, hrow2⟩ := List.getElem?_eq_some.mp hrow
    have hmem : row ∈ g := hrow2 ▸ List.getElem_mem hlt
    have hyl : y.toNat < row.length := by rw [hs.2 row hmem]; omega
    refine ⟨row[y.toNat], ?_⟩
    have hy : ¬(y < 0) := by omega
    simp only [hy, if_false]
    exact List.getElem?_eq_some.mpr ⟨hyl, rfl⟩

/-- In range, the optional read returns the defaulted read. -/
theorem gget?_eq_some_gget (g : Grid α) (d : α) (hs : gridShape g) (x y : Int)
    (hx0 : 0 ≤ x) (hx1 : x < 50) (hy0 : 0 ≤ y) (hy1 : y < 50) :
    gget? g x y = some (gget g d x y) := by
  obtain ⟨v, hv⟩ := gget?_isSome_of_shape g hs x y hx0 hx1 hy0 hy1
  unfold gget
  rw [hv]
  rfl

/-- Reading back an in-range write. -/
theorem gget_gset_self (g : Grid α) (d : α) (hs : gridShape g) (x y : Int)
    (hx0 : 0 ≤ x) (hx1 : x < 50) (hy0 : 0 ≤ y) (hy1 : y < 50) (v : α) :
    gget (gset g x y v) d x y = v := by
  unfold gget
  rw [gget?_gset_self]
  obtain ⟨w, hw⟩ := gget?_isSome_of_shape g hs x y hx0 hx1 hy0 hy1
  rw [hw]
  rfl

/-- Reads at other cells are unchanged by a write. -/
theorem gget_gset_ne (g : Grid α) (d : α) (x y x' y' : Int) (v : α)
    (h : ¬(x = x' ∧ y = y')) :
    gget (gset g x y v) d x' y' = gget g d x' y' := by
  unfold gget
  rw [gget?_gset_ne g x y x' y' v h]

/-- Out-of-room reads of a well-formed grid default. -/
theorem gget_out_of_room (g : Grid α) (d : α) (hs : gridShape g) (q : Int × Int)
    (h : ¬inRoomP q) : gget g d q.1 q.2 = d := by
  unfold gget gget?
  unfold inRoomP ROOM_SIZE at h
  by_cases hx : q.1 < 0
  · rw [if_pos hx]; rfl
  · rw [if_neg hx]
    cases hrow : g[q.1.toNat]? with
    | none => rfl
    | some row =>
      by_cases hy : q.2 < 0
      · simp [hy]
      · obtain ⟨hlt, hrow2⟩ := List.getElem?_eq_some.mp hrow
        have hmem : row ∈ g := hrow2 ▸ List.getElem_mem hlt
        have hx50 : q.1.toNat < 50 := by rw [← hs.1]; exact hlt
        have h2 : row[q.2.toNat]? = none :=
          List.getElem?_eq_none_iff.mpr (by rw [hs.2 row hmem]; omega)
        simp [hy, h2]

/-! ### The expansion step over a generalized offset list -/

theorem nbr_inj (p : Int × Int) {d₁ d₂ : Int × Int} (h : nbr p d₁ = nbr p d₂) :
    d₁ = d₂ := by
  unfold nbr at h
  obtain ⟨h1, h2⟩ := Prod.ext_iff.mp h
  exact Prod.ext_iff.mpr ⟨by omega, by omega⟩

theorem nbr_ne_self (p : Int × Int) {d : Int × Int} (hd : d ≠ (0, 0)) :
    nbr p d ≠ p := by
  unfold nbr
  intro h
  obtain ⟨h1, h2⟩ := Prod.ext_iff.mp h
  exact hd (Prod.ext_iff.mpr ⟨show d.1 = 0 by omega, show d.2 = 0 by omega⟩)

theorem gridShape_foldl_gset (S : List (Int × Int)) (g : Grid Int)
    (hs : gridShape g) :
    gridShape (S.foldl (fun g p => gset g p.1 p.2 1) g) := by
  induction S generalizing g with
  | nil => exact hs
  | cons p S ih => exact ih _ (gridShape_gset g p.1 p.2 1 hs)

/-- Marks of the seeded expansion grid. -/
theorem seedMarks (S : List (Int × Int)) :
    ∀ (g : Grid Int), gridShape g → (∀ q ∈ S, inRoomP q) →
    ∀ q, markOf (S.foldl (fun g p => gset g p.1 p.2 1) g) q =
      if q ∈ S then 1 else markOf g q := by
  induction S with
  | nil => intro g _ _ q; simp
  | cons p S ih =>
    intro g hs hin q
    rw [List.foldl_cons,
      ih (gset g p.1 p.2 1) (gridShape_gset g p.1 p.2 1 hs)
        (fun r hr => hin r (List.mem_cons_of_mem p hr))]
    by_cases hq : q ∈ S
    · rw [if_pos hq, if_pos (List.mem_cons_of_mem p hq)]
    · rw [if_neg hq]
      by_cases hqp : q = p
      · subst hqp
        obtain ⟨h1, h2, h3, h4⟩ := hin q (List.mem_cons_self q S)
        rw [if_pos (List.mem_cons_self q S)]
        exact gget_gset_self g 0 hs q.1 q.2 h1 h2 h3 h4 1
      · rw [if_neg (fun hmem => by
          rcases List.mem_cons.mp hmem with h | h
          · exact hqp h
          · exact hq h)]
        exact gget_gset_ne g 0 p.1 p.2 q.1 q.2 1
          (fun hcc => hqp (Prod.ext_iff.mpr ⟨hcc.1, hcc.2⟩).symm)

/-- The cells a processing step discovers: fresh in-room neighbours of
    the processed cell, in offset order. -/
def newlyOf (g : Grid Int) (p : Int × Int) (ds : List (Int × Int)) :
    List (Int × Int) :=
  ds.filterMap (fun d =>
    if inRoomP (nbr p d) ∧ gget g 0 (nbr p d).1 (nbr p d).2 = 0
    then some (nbr p d) else none)

theorem mem_newlyOf {g : Grid Int} {p : Int × Int} {ds : List (Int × Int)}
    {q : Int × Int} :
    q ∈ newlyOf g p ds ↔
      (∃ d ∈ ds, q = nbr p d) ∧ inRoomP q ∧ gget g 0 q.1 q.2 = 0 := by
  unfold newlyOf
  rw [List.mem_filterMap]
  constructor
  · rintro ⟨d, hd, hopt⟩
    by_cases hc : inRoomP (nbr p d) ∧ gget g 0 (nbr p d).1 (nbr p d).2 = 0
    · rw [if_pos hc] at hopt
      obtain rfl := Option.some.inj hopt
      exact ⟨⟨d, hd, rfl⟩, hc.1, hc.2⟩
    · rw [if_neg hc] at hopt
      exact absurd hopt (by simp)
  · rintro ⟨⟨d, hd, rfl⟩, hr, h0⟩
    exact ⟨d, hd, by rw [if_pos ⟨hr, h0⟩]⟩

theorem filterMap_congr_mem {α β : Type} {l : List α} {f g : α → Option β}
    (h : ∀ a ∈ l, f a = g a) : l.filterMap f = l.filterMap g := by
  induction l with
  | nil => rfl
  | cons a l ih =>
    rw [List.filterMap_cons, List.filterMap_cons, h a (List.mem_cons_self a l),
      ih (fun b hb => h b (List.mem_cons_of_mem a hb))]

/-- A write at a neighbour outside the offset list leaves the discovery
    list unchanged. -/
theorem newlyOf_gset (g : Grid Int) (p : Int × Int) (ds : List (Int × Int))
    (d₀ : Int × Int) (hd₀ : d₀ ∉ ds) (v : Int) :
    newlyOf (gset g (nbr p d₀).1 (nbr p d₀).2 v) p ds = newlyOf g p ds := by
  unfold newlyOf
  apply filterMap_congr_mem
  intro d hd
  have hne : nbr p d₀ ≠ nbr p d := fun h => hd₀ (by rw [nbr_inj p h]; exact hd)
  rw [gget_gset_ne g 0 _ _ _ _ v (fun hcc => hne (Prod.ext_iff.mpr hcc))]

theorem newlyOf_cons_pos {g : Grid Int} {p d : Int × Int}
    {ds : List (Int × Int)}
    (hc : inRoomP (nbr p d) ∧ gget g 0 (nbr p d).1 (nbr p d).2 = 0) :
    newlyOf g p (d :: ds) = nbr p d :: newlyOf g p ds := by
  unfold newlyOf
  rw [List.filterMap_cons, if_pos hc]

theorem newlyOf_cons_neg {g : Grid Int} {p d : Int × Int}
    {ds : List (Int × Int)}
    (hc : ¬(inRoomP (nbr p d) ∧ gget g 0 (nbr p d).1 (nbr p d).2 = 0)) :
    newlyOf g p (d :: ds) = newlyOf g p ds := by
  unfold newlyOf
  rw [List.filterMap_cons, if_neg hc]

theorem expandNb_pos (p d : Int × Int) (g : Grid Int) (E F : List (Int × Int))
    (hs : gridShape g) (hr : inRoomP (nbr p d))
    (h0 : gget g 0 (nbr p d).1 (nbr p d).2 = 0) :
    expandNb p (g, E, F) d =
      (gset g (nbr p d).1 (nbr p d).2 (gget g 0 p.1 p.2 + 1), E ++ [nbr p d],
        if gget g 0 p.1 p.2 + 1 ≤ 3 then F ++ [nbr p d] else F) := by
  have hgq : gget? g (nbr p d).1 (nbr p d).2 = some 0 := by
    rw [gget?_eq_some_gget g 0 hs _ _ hr.1 hr.2.1 hr.2.2.1 hr.2.2.2, h0]
  have hcondp : ((0 : Int) ≤ p.1 + d.1 ∧ p.1 + d.1 < ROOM_SIZE ∧
      (0 : Int) ≤ p.2 + d.2 ∧ p.2 + d.2 < ROOM_SIZE) ∧
      gget? g (p.1 + d.1) (p.2 + d.2) = some 0 := ⟨hr, hgq⟩
  simp only [expandNb]
  rw [if_pos hcondp]
  rfl

theorem expandNb_neg (p d : Int × Int) (g : Grid Int) (E F : List (Int × Int))
    (hs : gridShape g)
    (hc : ¬(inRoomP (nbr p d) ∧ gget g 0 (nbr p d).1 (nbr p d).2 = 0)) :
    expandNb p (g, E, F) d = (g, E, F) := by
  simp only [expandNb]
  refine if_neg (fun hcon => hc ⟨hcon.1, ?_⟩)
  have h2 := hcon.2
  rw [gget?_eq_some_gget g 0 hs (p.1 + d.1) (p.2 + d.2) hcon.1.1 hcon.1.2.1
    hcon.1.2.2.1 hcon.1.2.2.2] at h2
  exact Option.some.inj h2

/-- The expansion step over an arbitrary offset list. -/
def expandStepGo (p : Int × Int)
    (st : Grid Int × List (Int × Int) × List (Int × Int))
    (ds : List (Int × Int)) : Grid Int × List (Int × Int) × List (Int × Int) :=
  ds.foldl (expandNb p) st

theorem expandStep_eq_go
    (st : Grid Int × List (Int × Int) × List (Int × Int)) (p : Int × Int) :
    expandStep st p = expandStepGo p st SURROUND_OFFSETS := rfl

/-- Effect of processing one cell over a duplicate-free offset list that
    does not contain the zero offset. -/
theorem expandStepGo_char (p : Int × Int) :
    ∀ (ds : List (Int × Int)), (0, 0) ∉ ds → ds.Nodup →
    ∀ (g : Grid Int) (E F : List (Int × Int)), gridShape g →
      gridShape (expandStepGo p (g, E, F) ds).1 ∧
      (∀ q, markOf (expandStepGo p (g, E, F) ds).1 q =
        if q ∈ newlyOf g p ds then markOf g p + 1 else markOf g q) ∧
      (expandStepGo p (g, E, F) ds).2.1 = E ++ newlyOf g p ds ∧
      (expandStepGo p (g, E, F) ds).2.2 =
        F ++ (if markOf g p + 1 ≤ 3 then newlyOf g p ds else []) := by
  intro ds
  induction ds with
  | nil =>
    intro _ _ g E F hs
    refine ⟨hs, fun q => ?_, by simp [expandStepGo, newlyOf], ?_⟩
    · simp [expandStepGo, newlyOf]
    · simp [expandStepGo, newlyOf]
  | cons d ds ih =>
    intro h0 hnd g E F hs
    have hd0 : d ≠ (0, 0) := fun h => h0 (h ▸ List.mem_cons_self d ds)
    have h0' : (0, 0) ∉ ds := fun h => h0 (List.mem_cons_of_mem d h)
    obtain ⟨hdds, hnd'⟩ := List.nodup_cons.mp hnd
    have hgo : expandStepGo p (g, E, F) (d :: ds) =
        expandStepGo p (expandNb p (g, E, F) d) ds := rfl
    have hnbne : ¬((nbr p d).1 = p.1 ∧ (nbr p d).2 = p.2) :=
      fun hcc => nbr_ne_self p hd0 (Prod.ext_iff.mpr hcc)
    by_cases hc : inRoomP (nbr p d) ∧ gget g 0 (nbr p d).1 (nbr p d).2 = 0
    · have hnb := expandNb_pos p d g E F hs hc.1 hc.2
      rw [show gget g 0 p.1 p.2 = markOf g p from rfl] at hnb
      have hs1 : gridShape (gset g (nbr p d).1 (nbr p d).2 (markOf g p + 1)) :=
        gridShape_gset g _ _ _ hs
      have hm1p : markOf (gset g (nbr p d).1 (nbr p d).2 (markOf g p + 1)) p =
          markOf g p :=
        gget_gset_ne g 0 _ _ _ _ _ hnbne
      have hnewg1 :
          newlyOf (gset g (nbr p d).1 (nbr p d).2 (markOf g p + 1)) p ds =
            newlyOf g p ds :=
        newlyOf_gset g p ds d hdds _
      have hconsN : newlyOf g p (d :: ds) = nbr p d :: newlyOf g p ds :=
        newlyOf_cons_pos hc
      obtain ⟨ih1, ih2, ih3, ih4⟩ := ih h0' hnd'
        (gset g (nbr p d).1 (nbr p d).2 (markOf g p + 1)) (E ++ [nbr p d])
        (if markOf g p + 1 ≤ 3 then F ++ [nbr p d] else F) hs1
      rw [hgo, hnb]
      refine ⟨ih1, fun q => ?_, ?_, ?_⟩
      · rw [ih2 q, hnewg1, hm1p, hconsN]
        by_cases hq1 : q ∈ newlyOf g p ds
        · rw [if_pos hq1, if_pos (List.mem_cons_of_mem _ hq1)]
        · rw [if_neg hq1]
          by_cases hq2 : q = nbr p d
          · rcases hq2 with rfl
            rw [if_pos (List.mem_cons_self _ _)]
            exact gget_gset_self g 0 hs _ _ hc.1.1 hc.1.2.1 hc.1.2.2.1
              hc.1.2.2.2 _
          · rw [if_neg (fun hmem => by
              rcases List.mem_cons.mp hmem with h | h
              · exact hq2 h
              · exact hq1 h)]
            exact gget_gset_ne g 0 _ _ _ _ _
              (fun hcc => hq2 (Prod.ext_iff.mpr hcc).symm)
      · rw [ih3, hnewg1, hconsN, List.append_assoc, List.singleton_append]
      · rw [ih4, hnewg1, hm1p, hconsN]
        by_cases hM3 : markOf g p + 1 ≤ 3
        · rw [if_pos hM3, if_pos hM3, if_pos hM3, List.append_assoc,
            List.singleton_append]
        · rw [if_neg hM3, if_neg hM3, if_neg hM3]
    · have hnb := expandNb_neg p d g E F hs hc
      have hconsN : newlyOf g p (d :: ds) = newlyOf g p ds :=
        newlyOf_cons_neg hc
      obtain ⟨ih1, ih2, ih3, ih4⟩ := ih h0' hnd' g E F hs
      rw [hgo, hnb, hconsN]
      exact ⟨ih1, ih2, ih3, ih4⟩

theorem getD_mem {α : Type} {l : List α} {i : Nat} (h : i < l.length) (d : α) :
    l.getD i d ∈ l := by
  rw [List.getD_eq_getElem l d h]
  exact List.getElem_mem h

theorem mem_getD {α : Type} {l : List α} {a : α} (h : a ∈ l) (d : α) :
    ∃ i, i < l.length ∧ l.getD i d = a := by
  obtain ⟨i, hi, heq⟩ := List.mem_iff_getElem.mp h
  exact ⟨i, hi, by rw [List.getD_eq_getElem l d hi]; exact heq⟩

theorem getD_append_left {α : Type} {l l' : List α} {n : Nat}
    (h : n < l.length) (d : α) : (l ++ l').getD n d = l.getD n d := by
  rw [List.getD_eq_getElem _ d (by rw [List.length_append]; omega),
    List.getD_eq_getElem l d h]
  exact List.getElem_append_left h

theorem getD_append_right {α : Type} {l l' : List α} {n : Nat}
    (h : l.length ≤ n) (hn : n < l.length + l'.length) (d : α) :
    (l ++ l').getD n d = l'.getD (n - l.length) d := by
  rw [List.getD_eq_getElem _ d (by rw [List.length_append]; omega),
    List.getD_eq_getElem l' d (by omega)]
  exact List.getElem_append_right h

/-- Loop invariant of the protected-area expansion: a well-formed mark
    grid agreeing with the discovered list, exact BFS levels, a sorted
    frontier whose processed prefix has explored its neighbourhood, and
    completeness of the discovery below the current frontier level. -/
structure ExpInv (seeds : List (Int × Int)) (g : Grid Int)
    (E F : List (Int × Int)) (fi : Nat) : Prop where
  shape : gridShape g
  fiLe : fi ≤ F.length
  mark_mem : ∀ q, markOf g q ≠ 0 ↔ q ∈ E
  mem_room : ∀ q ∈ E, inRoomP q
  seeds_mem : ∀ q ∈ seeds, q ∈ E
  exact_dist : ∀ q ∈ E, ∃ n : Nat, ReachExp seeds q n ∧
    (∀ k, ReachExp seeds q k → n ≤ k) ∧ markOf g q = (n : Int) + 1
  mark_le4 : ∀ q ∈ E, markOf g q ≤ 4
  queue_mem : ∀ i, i < F.length →
    F.getD i (0, 0) ∈ E ∧ markOf g (F.getD i (0, 0)) ≤ 3
  mem_queue : ∀ q ∈ E, markOf g q ≤ 3 → q ∈ F
  sorted : ∀ i j, i ≤ j → j < F.length →
    markOf g (F.getD i (0, 0)) ≤ markOf g (F.getD j (0, 0))
  spread : ∀ j, j < F.length → fi < F.length →
    markOf g (F.getD j (0, 0)) ≤ markOf g (F.getD fi (0, 0)) + 1
  closure : ∀ i, i < fi → ∀ d ∈ SURROUND_OFFSETS,
    inRoomP (nbr (F.getD i (0, 0)) d) → markOf g (nbr (F.getD i (0, 0)) d) ≠ 0
  front_complete : fi < F.length → ∀ q (n : Nat), ReachExp seeds q n →
    (n : Int) + 1 ≤ markOf g (F.getD fi (0, 0)) → q ∈ E

/-- Processing the frontier cell at the current index preserves the
    expansion invariant. -/
theorem ExpInv_step (seeds : List (Int × Int)) (g : Grid Int)
    (E F : List (Int × Int)) (fi : Nat)
    (inv : ExpInv seeds g E F fi) (hfi : fi < F.length) :
    ExpInv seeds (expandStep (g, E, F) (F.getD fi (0, 0))).1
      (expandStep (g, E, F) (F.getD fi (0, 0))).2.1
      (expandStep (g, E, F) (F.getD fi (0, 0))).2.2 (fi + 1) := by
  obtain ⟨hpE, hpM3⟩ := inv.queue_mem fi hfi
  obtain ⟨hsh, hmk, hE, hF⟩ := expandStepGo_char (F.getD fi (0, 0))
    SURROUND_OFFSETS (by decide) (by decide) g E F inv.shape
  rw [expandStep_eq_go]
  set p := F.getD fi (0, 0) with hp
  set N := newlyOf g p SURROUND_OFFSETS with hNdef
  set M := markOf g p with hMdef
  obtain ⟨np, hnpR, hnpMin, hnpM⟩ := inv.exact_dist p hpE
  have hM1 : 1 ≤ M := by rw [hMdef, hnpM]; omega
  have hfiMark : markOf g (F.getD fi (0, 0)) = M := by rw [hMdef, hp]
  have hNchar : ∀ q ∈ N, inRoomP q ∧ markOf g q = 0 ∧
      ∃ d ∈ SURROUND_OFFSETS, q = nbr p d := by
    intro q hq
    obtain ⟨⟨d, hd, hqd⟩, hr, h0⟩ := mem_newlyOf.mp hq
    exact ⟨hr, h0, d, hd, hqd⟩
  have hNnotE : ∀ q ∈ N, q ∉ E := by
    intro q hq hqE
    exact absurd ((hNchar q hq).2.1) ((inv.mark_mem q).mpr hqE)
  have hENnotN : ∀ q ∈ E, q ∉ N := fun q hq hqN => hNnotE q hqN hq
  -- marks of cells in the two membership classes
  have hmkE : ∀ q ∈ E, markOf (expandStepGo p (g, E, F) SURROUND_OFFSETS).1 q =
      markOf g q := by
    intro q hq
    rw [hmk q, if_neg (hENnotN q hq)]
  have hmkN : ∀ q ∈ N, markOf (expandStepGo p (g, E, F) SURROUND_OFFSETS).1 q =
      M + 1 := by
    intro q hq
    rw [hmk q, if_pos hq]
  -- the appended frontier block
  set A := (if M + 1 ≤ 3 then N else []) with hAdef
  have hAsub : ∀ q ∈ A, q ∈ N := by
    intro q hq
    rw [hAdef] at hq
    by_cases h3 : M + 1 ≤ 3
    · rw [if_pos h3] at hq; exact hq
    · rw [if_neg h3] at hq; exact absurd hq (List.not_mem_nil q)
  -- entry marks in the new state
  have hvalOld : ∀ k, k < F.length →
      (F ++ A).getD k (0, 0) = F.getD k (0, 0) ∧
      markOf (expandStepGo p (g, E, F) SURROUND_OFFSETS).1 (F.getD k (0, 0)) =
        markOf g (F.getD k (0, 0)) := by
    intro k hk
    exact ⟨getD_append_left hk (0, 0), hmkE _ (inv.queue_mem k hk).1⟩
  have hvalNew : ∀ k, F.length ≤ k → k < (F ++ A).length →
      (F ++ A).getD k (0, 0) ∈ N ∧
      markOf (expandStepGo p (g, E, F) SURROUND_OFFSETS).1
        ((F ++ A).getD k (0, 0)) = M + 1 := by
    intro k hk hk2
    rw [List.length_append] at hk2
    have hmem : (F ++ A).getD k (0, 0) ∈ A := by
      rw [getD_append_right hk hk2 (0, 0)]
      exact getD_mem (by omega) (0, 0)
    exact ⟨hAsub _ hmem, hmkN _ (hAsub _ hmem)⟩
  -- sortedness of the new frontier
  have hsorted' : ∀ i j, i ≤ j → j < (F ++ A).length →
      markOf (expandStepGo p (g, E, F) SURROUND_OFFSETS).1
        ((F ++ A).getD i (0, 0)) ≤
      markOf (expandStepGo p (g, E, F) SURROUND_OFFSETS).1
        ((F ++ A).getD j (0, 0)) := by
    intro i j hij hj
    by_cases hjF : j < F.length
    · have hiF : i < F.length := by omega
      rw [(hvalOld i hiF).1, (hvalOld j hjF).1, (hvalOld i hiF).2,
        (hvalOld j hjF).2]
      exact inv.sorted i j hij hjF
    · have hjN := hvalNew j (by omega) hj
      rw [hjN.2]
      by_cases hiF : i < F.length
      · rw [(hvalOld i hiF).1, (hvalOld i hiF).2]
        exact inv.spread i hiF hfi
      · have hiN := hvalNew i (by omega) (by omega)
        rw [hiN.2]
    -- membership of the new discoveries
  have hEmem : ∀ q, q ∈ E ++ N ↔ q ∈ E ∨ q ∈ N := fun q => List.mem_append
  rw [hE, hF]
  refine ⟨hsh, ?_, ?_, ?_, ?_, ?_, ?_, ?_, ?_, ?_, ?_, ?_, ?_⟩
  · -- fiLe
    rw [List.length_append]
    omega
  · -- mark_mem
    intro q
    rw [hEmem q]
    by_cases hqN : q ∈ N
    · rw [hmkN q hqN]
      constructor
      · intro _; exact Or.inr hqN
      · intro _; omega
    · rw [hmk q, if_neg hqN, inv.mark_mem q]
      constructor
      · exact Or.inl
      · rintro (h | h)
        · exact h
        · exact absurd h hqN
  · -- mem_room
    intro q hq
    rcases (hEmem q).mp hq with h | h
    · exact inv.mem_room q h
    · exact (hNchar q h).1
  · -- seeds_mem
    intro q hq
    exact List.mem_append_left N (inv.seeds_mem q hq)
  · -- exact_dist
    intro q hq
    rcases (hEmem q).mp hq with h | h
    · obtain ⟨n, h1, h2, h3⟩ := inv.exact_dist q h
      exact ⟨n, h1, h2, by rw [hmkE q h]; exact h3⟩
    · obtain ⟨hr, h0, d, hd, hqd⟩ := hNchar q h
      refine ⟨np + 1, ?_, ?_, ?_⟩
      · rw [hqd]
        exact ReachExp.step p np d hd hnpR (hqd ▸ hr)
      · intro k hk
        by_contra hlt
        have hkle : (k : Int) + 1 ≤ M := by rw [hMdef, hnpM]; omega
        have := inv.front_complete hfi q k hk hkle
        exact hNnotE q h this
      · rw [hmkN q h, hMdef, hnpM]
        push_cast
        ring
  · -- mark_le4
    intro q hq
    rcases (hEmem q).mp hq with h | h
    · rw [hmkE q h]; exact inv.mark_le4 q h
    · rw [hmkN q h]; omega
  · -- queue_mem
    intro i hi
    by_cases hiF : i < F.length
    · rw [(hvalOld i hiF).1]
      refine ⟨List.mem_append_left N (inv.queue_mem i hiF).1, ?_⟩
      rw [(hvalOld i hiF).2]
      exact (inv.queue_mem i hiF).2
    · obtain ⟨hiN, hiM⟩ := hvalNew i (by omega) hi
      refine ⟨List.mem_append_right E hiN, ?_⟩
      rw [hiM]
      -- a new entry exists only when M + 1 <= 3
      by_cases h3 : M + 1 ≤ 3
      · exact h3
      · exfalso
        rw [List.length_append, hAdef, if_neg h3] at hi
        simp at hi
        omega
  · -- mem_queue
    intro q hq hm
    rcases (hEmem q).mp hq with h | h
    · rw [hmkE q h] at hm
      exact List.mem_append_left A (inv.mem_queue q h hm)
    · rw [hmkN q h] at hm
      refine List.mem_append_right F ?_
      rw [hAdef, if_pos hm]
      exact h
  · -- sorted
    exact hsorted'
  · -- spread
    intro j hj hfi1
    by_cases hfiF : fi + 1 < F.length
    · have hfront : markOf (expandStepGo p (g, E, F) SURROUND_OFFSETS).1
          ((F ++ A).getD (fi + 1) (0, 0)) =
          markOf g (F.getD (fi + 1) (0, 0)) := by
        rw [(hvalOld (fi + 1) hfiF).1, (hvalOld (fi + 1) hfiF).2]
      have hMle : M ≤ markOf g (F.getD (fi + 1) (0, 0)) :=
        inv.sorted fi (fi + 1) (by omega) hfiF
      rw [hfront]
      by_cases hjF : j < F.length
      · rw [(hvalOld j hjF).1, (hvalOld j hjF).2]
        have := inv.spread j hjF hfi
        omega
      · rw [(hvalNew j (by omega) hj).2]
        omega
    · have hfiF2 : fi + 1 = F.length := by omega
      obtain ⟨_, hfrontM⟩ := hvalNew (fi + 1) (by omega) hfi1
      rw [hfrontM]
      by_cases hjF : j < F.length
      · rw [(hvalOld j hjF).1, (hvalOld j hjF).2]
        have := inv.spread j hjF hfi
        omega
      · rw [(hvalNew j (by omega) hj).2]
        omega
  · -- closure
    intro i hi d hd hroom
    by_cases hiF : i < fi
    · rw [(hvalOld i (by omega)).1] at hroom ⊢
      have hold := inv.closure i hiF d hd hroom
      by_cases hqN : nbr (F.getD i (0, 0)) d ∈ N
      · rw [hmkN _ hqN]; omega
      · rw [hmk _, if_neg hqN]; exact hold
    · have hieq : i = fi := by omega
      subst hieq
      rw [(hvalOld i (by omega)).1, ← hp] at hroom ⊢
      by_cases h0 : markOf g (nbr (F.getD i (0, 0)) d) = 0
      · have hqN : nbr (F.getD i (0, 0)) d ∈ N := by
          rw [hNdef]
          exact mem_newlyOf.mpr ⟨⟨d, hd, rfl⟩, hroom, h0⟩
        rw [hmkN _ hqN]
        omega
      · by_cases hqN : nbr (F.getD i (0, 0)) d ∈ N
        · rw [hmkN _ hqN]; omega
        · rw [hmk _, if_neg hqN]; exact h0
  · -- front_complete
    intro hfi1 u n hu hle
    -- the new frontier mark is at most M + 1
    have hWle : markOf (expandStepGo p (g, E, F) SURROUND_OFFSETS).1
        ((F ++ A).getD (fi + 1) (0, 0)) ≤ M + 1 := by
      by_cases hfiF : fi + 1 < F.length
      · rw [(hvalOld (fi + 1) hfiF).1, (hvalOld (fi + 1) hfiF).2]
        exact inv.spread (fi + 1) hfiF hfi
      · rw [(hvalNew (fi + 1) (by omega) hfi1).2]
    rw [hEmem u]
    by_cases hnM : (n : Int) + 1 ≤ M
    · exact Or.inl (inv.front_complete hfi u n hu hnM)
    · -- n = np + 1 and the frontier has moved to the next level
      have hnval : (n : Int) = M := by omega
      cases hu with
      | seed q hq =>
        exfalso
        rw [hMdef, hnpM] at hnval
        push_cast at hnval
        omega
      | step v k d hd hv hroom =>
        -- u = nbr v d at level k + 1 with (k : Int) + 1 = M
        have hkM : (k : Int) + 1 ≤ M := by push_cast at hnval; omega
        have hvE : v ∈ E := inv.front_complete hfi v k hv hkM
        obtain ⟨nv, hnvR, hnvMin, hnvM⟩ := inv.exact_dist v hvE
        have hnvk : nv ≤ k := hnvMin k hv
        have hvM : markOf g v ≤ M := by rw [hnvM]; omega
        have hvM3 : markOf g v ≤ 3 := by omega
        have hvF : v ∈ F := inv.mem_queue v hvE hvM3
        obtain ⟨j, hjF, hjv⟩ := mem_getD hvF (0, 0)
        by_cases hjfi : j < fi
        · have := inv.closure j hjfi d hd (by rw [hjv]; exact hroom)
          rw [hjv] at this
          exact Or.inl ((inv.mark_mem _).mp this)
        · by_cases hjeq : j = fi
          · -- v is the cell just processed
            have hvp : v = p := by rw [← hjv, hjeq]
            by_cases h0 : markOf g (nbr v d) = 0
            · refine Or.inr ?_
              rw [hNdef]
              exact mem_newlyOf.mpr ⟨⟨d, hd, by rw [hvp]⟩, hroom, h0⟩
            · exact Or.inl ((inv.mark_mem _).mp h0)
          · -- v would sit beyond the new frontier: impossible
            exfalso
            have hjge : fi + 1 ≤ j := by omega
            have hs := hsorted' (fi + 1) j hjge (by
              rw [List.length_append]
              rw [List.length_append] at hfi1
              omega)
            rw [(hvalOld j hjF).1, (hvalOld j hjF).2, hjv] at hs
            -- frontier mark at fi+1 is at least n + 1 = M + 1
            omega

theorem markOf_initArr (q : Int × Int) : markOf (initArr (0 : Int)) q = 0 := by
  by_cases h : inRoomP q
  · unfold markOf gget
    have h1 : q.1 ≤ 49 := by
      have : q.1 < (50 : Int) := h.2.1
      omega
    have h2 : q.2 ≤ 49 := by
      have : q.2 < (50 : Int) := h.2.2.2
      omega
    rw [gget?_initArr 0 q.1 q.2 h.1 h1 h.2.2.1 h2]
    rfl
  · exact gget_out_of_room _ _ (gridShape_initArr 0) q h

/-- The invariant holds before the expansion loop starts. -/
theorem ExpInv_init (seeds : List (Int × Int)) (hin : ∀ q ∈ seeds, inRoomP q) :
    ExpInv seeds (seeds.foldl (fun g p => gset g p.1 p.2 1) (initArr 0))
      seeds seeds 0 := by
  have hm : ∀ q, markOf (seeds.foldl (fun g p => gset g p.1 p.2 1) (initArr 0)) q =
      if q ∈ seeds then 1 else 0 := by
    intro q
    rw [seedMarks seeds (initArr 0) (gridShape_initArr 0) hin q, markOf_initArr q]
  have hmE : ∀ q ∈ seeds,
      markOf (seeds.foldl (fun g p => gset g p.1 p.2 1) (initArr 0)) q = 1 := by
    intro q hq
    rw [hm q, if_pos hq]
  refine ⟨gridShape_foldl_gset seeds _ (gridShape_initArr 0), Nat.zero_le _,
    ?_, hin, fun q h => h, ?_, ?_, ?_, fun q hq _ => hq, ?_, ?_, ?_, ?_⟩
  · intro q
    rw [hm q]
    by_cases hq : q ∈ seeds
    · rw [if_pos hq]
      constructor
      · intro _; exact hq
      · intro _; omega
    · rw [if_neg hq]
      constructor
      · intro h; exact absurd rfl h
      · intro h; exact absurd h hq
  · intro q hq
    exact ⟨0, ReachExp.seed q hq, fun k _ => Nat.zero_le k,
      by rw [hmE q hq]; norm_num⟩
  · intro q hq
    rw [hmE q hq]
    omega
  · intro i hi
    have hqm := getD_mem hi ((0, 0) : Int × Int)
    exact ⟨hqm, by rw [hmE _ hqm]; omega⟩
  · intro i j _ hj
    rw [hmE _ (getD_mem (by omega) _), hmE _ (getD_mem hj _)]
  · intro j hj hfi
    rw [hmE _ (getD_mem hj _), hmE _ (getD_mem hfi _)]
    omega
  · intro i hi
    exact absurd hi (Nat.not_lt_zero i)
  · intro hfi u n hu hle
    rw [hmE _ (getD_mem hfi _)] at hle
    cases hu with
    | seed p hp => exact hp
    | step p k d hd hr hq =>
      exfalso
      omega

/-- Running the expansion loop from an invariant state yields a fully
    processed invariant state. -/
theorem expandLoop_sound (seeds : List (Int × Int)) :
    ∀ (fuel : Nat) (g : Grid Int) (E F : List (Int × Int)) (fi : Nat)
      (res : Grid Int × List (Int × Int)),
      ExpInv seeds g E F fi →
      expandLoop fuel (g, E, F) fi = some res →
      ∃ F', ExpInv seeds res.1 res.2 F' F'.length := by
  intro fuel
  induction fuel with
  | zero =>
    intro g E F fi res _ hrun
    exact absurd hrun (by simp [expandLoop])
  | succ fuel ih =>
    intro g E F fi res inv hrun
    simp only [expandLoop] at hrun
    by_cases hlt : fi < F.length
    · rw [if_pos hlt] at hrun
      have inv' := ExpInv_step seeds g E F fi inv hlt
      exact ih _ _ _ _ res inv' hrun
    · rw [if_neg hlt] at hrun
      obtain rfl : (g, E) = res := Option.some.inj hrun
      have hfi : fi = F.length := Nat.le_antisymm inv.fiLe (Nat.not_lt.mp hlt)
      exact ⟨F, hfi ▸ inv⟩

/-- At the end of the expansion, the discovered list is the seeds plus
    exactly the in-room cells within three steps of a seed. -/
theorem expandEnd_char (seeds : List (Int × Int)) (g : Grid Int)
    (E F : List (Int × Int)) (inv : ExpInv seeds g E F F.length) :
    ∀ q, q ∈ E ↔ q ∈ seeds ∨
      (inRoomP q ∧ q ∉ seeds ∧ ∃ n : Nat, n ≤ 3 ∧ ReachExp seeds q n) := by
  have hreach : ∀ n : Nat, n ≤ 3 → ∀ q, ReachExp seeds q n → q ∈ E := by
    intro n
    induction n with
    | zero =>
      intro _ q hq
      cases hq with
      | seed p hp => exact inv.seeds_mem _ hp
    | succ k ihk =>
      intro hk3 q hq
      cases hq with
      | step v kk d hd hv hroom =>
        have hvE : v ∈ E := ihk (by omega) v hv
        obtain ⟨nv, hnvR, hnvMin, hnvM⟩ := inv.exact_dist v hvE
        have hvle : markOf g v ≤ 3 := by
          have := hnvMin k hv
          rw [hnvM]
          omega
        have hvF : v ∈ F := inv.mem_queue v hvE hvle
        obtain ⟨j, hjF, hjv⟩ := mem_getD hvF (0, 0)
        have hcl := inv.closure j hjF d hd (by rw [hjv]; exact hroom)
        rw [hjv] at hcl
        exact (inv.mark_mem _).mp hcl
  intro q
  constructor
  · intro hq
    by_cases hqs : q ∈ seeds
    · exact Or.inl hqs
    · refine Or.inr ⟨inv.mem_room q hq, hqs, ?_⟩
      obtain ⟨n, hnR, _, hnM⟩ := inv.exact_dist q hq
      have h4 := inv.mark_le4 q hq
      rw [hnM] at h4
      exact ⟨n, by omega, hnR⟩
  · rintro (hqs | ⟨_, _, n, hn3, hr⟩)
    · exact inv.seeds_mem q hqs
    · exact hreach n hn3 q hr

/-- A cell reached in n steps lies within Chebyshev distance n of a
    seed. -/
theorem ReachExp_chebDist {S : List (Int × Int)} {q : Int × Int} {n : Nat}
    (h : ReachExp S q n) : ∃ p ∈ S, chebDist p q ≤ n := by
  induction h with
  | seed p hp => exact ⟨p, hp, by simp [chebDist]⟩
  | step v k d hd hr hroom ih =>
    obtain ⟨p0, hp0, hc⟩ := ih
    refine ⟨p0, hp0, ?_⟩
    have hd1 : d.1.natAbs ≤ 1 ∧ d.2.natAbs ≤ 1 := by
      have hall : ∀ e ∈ SURROUND_OFFSETS, e.1.natAbs ≤ 1 ∧ e.2.natAbs ≤ 1 := by
        decide
      exact hall d hd
    simp only [chebDist, nbr, Nat.max_le] at hc ⊢
    omega

/-- Conversely, a cell at Chebyshev distance c of an in-room seed is
    reached in exactly c steps through the room. -/
theorem chebDist_reach {S : List (Int × Int)} (p : Int × Int) (hpS : p ∈ S)
    (hpr : inRoomP p) :
    ∀ (c : Nat) (q : Int × Int), inRoomP q → chebDist p q = c →
      ReachExp S q c := by
  intro c
  induction c with
  | zero =>
    intro q _ hc
    simp only [chebDist, Nat.max_eq_zero_iff, Int.natAbs_eq_zero,
      sub_eq_zero] at hc
    have : q = p := Prod.ext_iff.mpr ⟨hc.1, hc.2⟩
    rw [this]
    exact ReachExp.seed p hpS
  | succ c ihc =>
    intro q hq hc
    obtain ⟨hq1, hq2, hq3, hq4⟩ := hq
    obtain ⟨hp1, hp2, hp3, hp4⟩ := hpr
    have hq2' : q.1 < (50 : Int) := hq2
    have hq4' : q.2 < (50 : Int) := hq4
    have hp2' : p.1 < (50 : Int) := hp2
    have hp4' : p.2 < (50 : Int) := hp4
    -- the last step direction
    set d1 : Int := if p.1 < q.1 then 1 else if q.1 < p.1 then -1 else 0
      with hd1def
    set d2 : Int := if p.2 < q.2 then 1 else if q.2 < p.2 then -1 else 0
      with hd2def
    have hd1 : (p.1 < q.1 ∧ d1 = 1) ∨ (q.1 < p.1 ∧ d1 = -1) ∨
        (q.1 = p.1 ∧ d1 = 0) := by
      rw [hd1def]
      split_ifs with h1 h2
      · exact Or.inl ⟨h1, rfl⟩
      · exact Or.inr (Or.inl ⟨h2, rfl⟩)
      · exact Or.inr (Or.inr ⟨by omega, rfl⟩)
    have hd2 : (p.2 < q.2 ∧ d2 = 1) ∨ (q.2 < p.2 ∧ d2 = -1) ∨
        (q.2 = p.2 ∧ d2 = 0) := by
      rw [hd2def]
      split_ifs with h1 h2
      · exact Or.inl ⟨h1, rfl⟩
      · exact Or.inr (Or.inl ⟨h2, rfl⟩)
      · exact Or.inr (Or.inr ⟨by omega, rfl⟩)
    -- the bounds encoded by the distance
    have hmax1 : (q.1 - p.1).natAbs ≤ c + 1 := by
      rw [← hc]
      exact Nat.le_max_left _ _
    have hmax2 : (q.2 - p.2).natAbs ≤ c + 1 := by
      rw [← hc]
      exact Nat.le_max_right _ _
    have hor : (q.1 - p.1).natAbs = c + 1 ∨ (q.2 - p.2).natAbs = c + 1 := by
      rcases Nat.le_total ((q.1 - p.1).natAbs) ((q.2 - p.2).natAbs) with h | h
      · right
        rw [chebDist, Nat.max_eq_right h] at hc
        exact hc
      · left
        rw [chebDist, Nat.max_eq_left h] at hc
        exact hc
    have hnz : ¬(d1 = 0 ∧ d2 = 0) := by
      rintro ⟨hz1, hz2⟩
      rcases hd1 with ⟨h, he⟩ | ⟨h, he⟩ | ⟨h, _⟩ <;>
        rcases hd2 with ⟨h2, he2⟩ | ⟨h2, he2⟩ | ⟨h2, _⟩ <;> omega
    have hmem : ((d1, d2) : Int × Int) ∈ SURROUND_OFFSETS := by
      rcases hd1 with ⟨_, he1⟩ | ⟨_, he1⟩ | ⟨_, he1⟩ <;>
        rcases hd2 with ⟨_, he2⟩ | ⟨_, he2⟩ | ⟨_, he2⟩ <;>
        rw [he1, he2] <;>
        first
        | decide
        | exact absurd ⟨he1, he2⟩ hnz
    -- the previous cell on the path
    have hprev : chebDist p (q.1 - d1, q.2 - d2) = c := by
      have e1 : ((q.1 - d1) - p.1).natAbs ≤ c := by
        rcases hd1 with ⟨h, he⟩ | ⟨h, he⟩ | ⟨h, he⟩ <;> omega
      have e2 : ((q.2 - d2) - p.2).natAbs ≤ c := by
        rcases hd2 with ⟨h, he⟩ | ⟨h, he⟩ | ⟨h, he⟩ <;> omega
      have e3 : ((q.1 - d1) - p.1).natAbs = c ∨
          ((q.2 - d2) - p.2).natAbs = c := by
        rcases hor with h | h
        · left
          rcases hd1 with ⟨hl, he⟩ | ⟨hl, he⟩ | ⟨hl, he⟩ <;> omega
        · right
          rcases hd2 with ⟨hl, he⟩ | ⟨hl, he⟩ | ⟨hl, he⟩ <;> omega
      simp only [chebDist]
      rcases e3 with h | h
      · exact Nat.le_antisymm (Nat.max_le.mpr ⟨e1, e2⟩)
          (h ▸ Nat.le_max_left _ _)
      · exact Nat.le_antisymm (Nat.max_le.mpr ⟨e1, e2⟩)
          (h ▸ Nat.le_max_right _ _)
    have hprevroom : inRoomP (q.1 - d1, q.2 - d2) := by
      refine ⟨?_, ?_, ?_, ?_⟩
      · show (0 : Int) ≤ q.1 - d1
        rcases hd1 with ⟨h, he⟩ | ⟨h, he⟩ | ⟨h, he⟩ <;> omega
      · show q.1 - d1 < ROOM_SIZE
        have : ROOM_SIZE = (50 : Int) := rfl
        rcases hd1 with ⟨h, he⟩ | ⟨h, he⟩ | ⟨h, he⟩ <;> omega
      · show (0 : Int) ≤ q.2 - d2
        rcases hd2 with ⟨h, he⟩ | ⟨h, he⟩ | ⟨h, he⟩ <;> omega
      · show q.2 - d2 < ROOM_SIZE
        have : ROOM_SIZE = (50 : Int) := rfl
        rcases hd2 with ⟨h, he⟩ | ⟨h, he⟩ | ⟨h, he⟩ <;> omega
    have hstep := ReachExp.step (S := S) (q.1 - d1, q.2 - d2) c (d1, d2) hmem
      (ihc (q.1 - d1, q.2 - d2) hprevroom hprev) ?_
    · have hnbq : nbr ((q.1 - d1, q.2 - d2) : Int × Int) (d1, d2) = q := by
        unfold nbr
        exact Prod.ext_iff.mpr ⟨by simp, by simp⟩
      rw [hnbq] at hstep
      exact hstep
    · have hnbq : nbr ((q.1 - d1, q.2 - d2) : Int × Int) (d1, d2) = q := by
        unfold nbr
        exact Prod.ext_iff.mpr ⟨by simp, by simp⟩
      rw [hnbq]
      exact ⟨hq1, hq2, hq3, hq4⟩

/-- C7: whenever the embedded expansion loop completes, the expanded
    protected list handed to the min-cut driver is exactly the seeds plus
    every in-room tile at Chebyshev distance 1 to 3 from the nearest seed,
    independent of terrain. -/
theorem C7_expandProtected_char (protectedPos : List (Int × Int))
    (hin : ∀ q ∈ protectedPos, inRoomP q)
    (g : Grid Int) (expanded : List (Int × Int))
    (hrun : expandProtected protectedPos = some (g, expanded))
    (q : Int × Int) :
    q ∈ expanded ↔ q ∈ protectedPos ∨
      (inRoomP q ∧ q ∉ protectedPos ∧
        ∃ p ∈ protectedPos, chebDist p q ≤ 3) := by
  have hrun' : expandLoop EXPAND_FUEL
      (protectedPos.foldl (fun g p => gset g p.1 p.2 1) (initArr 0),
        protectedPos, protectedPos) 0 = some (g, expanded) := hrun
  obtain ⟨F', hinv⟩ := expandLoop_sound protectedPos EXPAND_FUEL _ _ _ 0
    (g, expanded) (ExpInv_init protectedPos hin) hrun'
  have hchr := expandEnd_char protectedPos g expanded F' hinv
  constructor
  · intro h
    rcases (hchr q).mp h with h | ⟨hroom, hq, n, hn, hr⟩
    · exact Or.inl h
    · obtain ⟨p, hp, hcle⟩ := ReachExp_chebDist hr
      exact Or.inr ⟨hroom, hq, p, hp, le_trans hcle hn⟩
  · rintro (h | ⟨hroom, hq, p, hp, hcle⟩)
    · exact (hchr q).mpr (Or.inl h)
    · exact (hchr q).mpr (Or.inr ⟨hroom, hq, chebDist p q, hcle,
        chebDist_reach p hp (hin p hp) (chebDist p q) q hroom rfl⟩)

/-- Instantiation of C7: expansion from the corner seed (0,0), queried
    at the tile (1,1). -/
theorem C7_expandProtected_char_witness :
    ∃ r : Grid Int × List (Int × Int),
      expandProtected [((0 : Int), (0 : Int))] = some r ∧
      (((1 : Int), (1 : Int)) ∈ r.2 ↔
        ((1 : Int), (1 : Int)) ∈ [((0 : Int), (0 : Int))] ∨
          (inRoomP ((1 : Int), (1 : Int)) ∧
            ((1 : Int), (1 : Int)) ∉ [((0 : Int), (0 : Int))] ∧
            ∃ p ∈ [((0 : Int), (0 : Int))],
              chebDist p ((1 : Int), (1 : Int)) ≤ 3)) := by
  have hs : (expandProtected [((0 : Int), (0 : Int))]).isSome = true := by decide
  obtain ⟨r, hr⟩ := Option.isSome_iff_exists.mp hs
  exact ⟨r, hr, C7_expandProtected_char [((0 : Int), (0 : Int))] (by decide)
    r.1 r.2 (by rw [hr]) ((1 : Int), (1 : Int))⟩

/-! ## C5: the cost-array BFS getCostArrayPure -/

/-- Reachability for the cost BFS: in-room non-wall 8-connected paths
    from the seed (the seed itself may be anything). -/
inductive ReachCost (t : Terrain) (s : Int × Int) : Int × Int → Nat → Prop
  | seed : ReachCost t s s 0
  | step (p : Int × Int) (n : Nat) (d : Int × Int) (hd : d ∈ SURROUND_OFFSETS)
      (hr : ReachCost t s p n) (hq : inRoomP (nbr p d))
      (hw : t (nbr p d).1 (nbr p d).2 ≠ TERRAIN_MASK_WALL) :
      ReachCost t s (nbr p d) (n + 1)

/-- The fresh eligible neighbours a cost-BFS step discovers, in offset
    order. -/
def newlyCost (X : Grid Bool) (t : Terrain) (pc : Int × Int)
    (ds : List (Int × Int)) : List (Int × Int) :=
  ds.filterMap (fun d =>
    if inRoomP (nbr pc d) ∧ gget X false (nbr pc d).1 (nbr pc d).2 = false ∧
        t (nbr pc d).1 (nbr pc d).2 ≠ TERRAIN_MASK_WALL
    then some (nbr pc d) else none)

theorem mem_newlyCost {X : Grid Bool} {t : Terrain} {pc : Int × Int}
    {ds : List (Int × Int)} {q : Int × Int} :
    q ∈ newlyCost X t pc ds ↔
      (∃ d ∈ ds, q = nbr pc d) ∧ inRoomP q ∧
        gget X false q.1 q.2 = false ∧ t q.1 q.2 ≠ TERRAIN_MASK_WALL := by
  unfold newlyCost
  rw [List.mem_filterMap]
  constructor
  · rintro ⟨d, hd, hopt⟩
    by_cases hc : inRoomP (nbr pc d) ∧
        gget X false (nbr pc d).1 (nbr pc d).2 = false ∧
        t (nbr pc d).1 (nbr pc d).2 ≠ TERRAIN_MASK_WALL
    · rw [if_pos hc] at hopt
      obtain rfl := Option.some.inj hopt
      exact ⟨⟨d, hd, rfl⟩, hc.1, hc.2.1, hc.2.2⟩
    · rw [if_neg hc] at hopt
      exact absurd hopt (by simp)
  · rintro ⟨⟨d, hd, rfl⟩, hr, h0, hw⟩
    exact ⟨d, hd, by rw [if_pos ⟨hr, h0, hw⟩]⟩

/-- A write to the explored grid at a neighbour outside the offset list
    leaves the discovery list unchanged. -/
theorem newlyCost_gset (X : Grid Bool) (t : Terrain) (pc : Int × Int)
    (ds : List (Int × Int)) (d₀ : Int × Int) (hd₀ : d₀ ∉ ds) (v : Bool) :
    newlyCost (gset X (nbr pc d₀).1 (nbr pc d₀).2 v) t pc ds =
      newlyCost X t pc ds := by
  unfold newlyCost
  apply filterMap_congr_mem
  intro d hd
  have hne : nbr pc d₀ ≠ nbr pc d := fun h => hd₀ (by rw [nbr_inj pc h]; exact hd)
  rw [gget_gset_ne X false _ _ _ _ v (fun hcc => hne (Prod.ext_iff.mpr hcc))]

theorem newlyCost_cons_pos {X : Grid Bool} {t : Terrain} {pc d : Int × Int}
    {ds : List (Int × Int)}
    (hc : inRoomP (nbr pc d) ∧ gget X false (nbr pc d).1 (nbr pc d).2 = false ∧
      t (nbr pc d).1 (nbr pc d).2 ≠ TERRAIN_MASK_WALL) :
    newlyCost X t pc (d :: ds) = nbr pc d :: newlyCost X t pc ds := by
  unfold newlyCost
  rw [List.filterMap_cons, if_pos hc]

theorem newlyCost_cons_neg {X : Grid Bool} {t : Terrain} {pc d : Int × Int}
    {ds : List (Int × Int)}
    (hc : ¬(inRoomP (nbr pc d) ∧ gget X false (nbr pc d).1 (nbr pc d).2 = false ∧
      t (nbr pc d).1 (nbr pc d).2 ≠ TERRAIN_MASK_WALL)) :
    newlyCost X t pc (d :: ds) = newlyCost X t pc ds := by
  unfold newlyCost
  rw [List.filterMap_cons, if_neg hc]

/-- Reading back an in-range optional write on a well-formed grid. -/
theorem gget?_gset_self_of_shape (g : Grid α) (hs : gridShape g) (x y : Int)
    (hx0 : 0 ≤ x) (hx1 : x < 50) (hy0 : 0 ≤ y) (hy1 : y < 50) (v : α) :
    gget? (gset g x y v) x y = some v := by
  rw [gget?_gset_self]
  obtain ⟨w, hw⟩ := gget?_isSome_of_shape g hs x y hx0 hx1 hy0 hy1
  rw [hw]
  rfl

theorem costNb_pos (t : Terrain) (R : Int) (p : Int × Int × Int)
    (C : Grid Rat) (X : Grid Bool) (Q : List (Int × Int × Int)) (d : Int × Int)
    (hc : inRoomP (nbr (p.1, p.2.1) d) ∧
      gget X false (nbr (p.1, p.2.1) d).1 (nbr (p.1, p.2.1) d).2 = false ∧
      t (nbr (p.1, p.2.1) d).1 (nbr (p.1, p.2.1) d).2 ≠ TERRAIN_MASK_WALL) :
    costNb t R p (C, X, Q) d =
      (gset C (nbr (p.1, p.2.1) d).1 (nbr (p.1, p.2.1) d).2
          ((p.2.2 + 1 : Int) : Rat),
        gset X (nbr (p.1, p.2.1) d).1 (nbr (p.1, p.2.1) d).2 true,
        if p.2.2 + 1 < R then
          Q ++ [((nbr (p.1, p.2.1) d).1, (nbr (p.1, p.2.1) d).2, p.2.2 + 1)]
        else Q) := by
  have hcond : ((0 : Int) ≤ p.1 + d.1 ∧ p.1 + d.1 < ROOM_SIZE ∧
      (0 : Int) ≤ p.2.1 + d.2 ∧ p.2.1 + d.2 < ROOM_SIZE) ∧
      gget X false (p.1 + d.1) (p.2.1 + d.2) = false ∧
      t (p.1 + d.1) (p.2.1 + d.2) ≠ TERRAIN_MASK_WALL := ⟨hc.1, hc.2.1, hc.2.2⟩
  simp only [costNb]
  rw [if_pos hcond]
  rfl

theorem costNb_neg (t : Terrain) (R : Int) (p : Int × Int × Int)
    (C : Grid Rat) (X : Grid Bool) (Q : List (Int × Int × Int)) (d : Int × Int)
    (hc : ¬(inRoomP (nbr (p.1, p.2.1) d) ∧
      gget X false (nbr (p.1, p.2.1) d).1 (nbr (p.1, p.2.1) d).2 = false ∧
      t (nbr (p.1, p.2.1) d).1 (nbr (p.1, p.2.1) d).2 ≠ TERRAIN_MASK_WALL)) :
    costNb t R p (C, X, Q) d = (C, X, Q) := by
  simp only [costNb]
  exact if_neg (fun hcon => hc ⟨hcon.1, hcon.2.1, hcon.2.2⟩)

/-- The cost step over an arbitrary offset list. -/
def costStepGo (t : Terrain) (R : Int) (p : Int × Int × Int)
    (st : Grid Rat × Grid Bool × List (Int × Int × Int))
    (ds : List (Int × Int)) : Grid Rat × Grid Bool × List (Int × Int × Int) :=
  ds.foldl (costNb t R p) st

theorem costStep_eq_go (t : Terrain) (R : Int)
    (st : Grid Rat × Grid Bool × List (Int × Int × Int)) (p : Int × Int × Int)
    (hp : ¬(p.2.2 ≥ R)) :
    costStep t R st p = costStepGo t R p st SURROUND_OFFSETS := by
  unfold costStep costStepGo
  rw [if_neg hp]

theorem costStep_gate (t : Terrain) (R : Int)
    (st : Grid Rat × Grid Bool × List (Int × Int × Int)) (p : Int × Int × Int)
    (hp : p.2.2 ≥ R) : costStep t R st p = st := by
  unfold costStep
  rw [if_pos hp]

/-- Effect of one cost-BFS processing step (below the range gate) over a
    duplicate-free offset list. -/
theorem costStepGo_char (t : Terrain) (R : Int) (p : Int × Int × Int) :
    ∀ (ds : List (Int × Int)), ds.Nodup →
    ∀ (C : Grid Rat) (X : Grid Bool) (Q : List (Int × Int × Int)),
      gridShape C → gridShape X →
      gridShape (costStepGo t R p (C, X, Q) ds).1 ∧
      gridShape (costStepGo t R p (C, X, Q) ds).2.1 ∧
      (∀ q : Int × Int, gget? (costStepGo t R p (C, X, Q) ds).1 q.1 q.2 =
        if q ∈ newlyCost X t (p.1, p.2.1) ds then some ((p.2.2 + 1 : Int) : Rat)
        else gget? C q.1 q.2) ∧
      (∀ q : Int × Int, gget (costStepGo t R p (C, X, Q) ds).2.1 false q.1 q.2 =
        if q ∈ newlyCost X t (p.1, p.2.1) ds then true
        else gget X false q.1 q.2) ∧
      (costStepGo t R p (C, X, Q) ds).2.2 =
        Q ++ (if p.2.2 + 1 < R then
          (newlyCost X t (p.1, p.2.1) ds).map (fun q => (q.1, q.2, p.2.2 + 1))
        else []) := by
  intro ds
  induction ds with
  | nil =>
    intro _ C X Q hsC hsX
    refine ⟨hsC, hsX, fun q => ?_, fun q => ?_, ?_⟩
    · simp [costStepGo, newlyCost]
    · simp [costStepGo, newlyCost]
    · simp [costStepGo, newlyCost]
  | cons d ds ih =>
    intro hnd C X Q hsC hsX
    obtain ⟨hdds, hnd'⟩ := List.nodup_cons.mp hnd
    have hgo : costStepGo t R p (C, X, Q) (d :: ds) =
        costStepGo t R p (costNb t R p (C, X, Q) d) ds := rfl
    by_cases hc : inRoomP (nbr (p.1, p.2.1) d) ∧
        gget X false (nbr (p.1, p.2.1) d).1 (nbr (p.1, p.2.1) d).2 = false ∧
        t (nbr (p.1, p.2.1) d).1 (nbr (p.1, p.2.1) d).2 ≠ TERRAIN_MASK_WALL
    · have hnb := costNb_pos t R p C X Q d hc
      have hsC1 : gridShape (gset C (nbr (p.1, p.2.1) d).1 (nbr (p.1, p.2.1) d).2
          ((p.2.2 + 1 : Int) : Rat)) := gridShape_gset C _ _ _ hsC
      have hsX1 : gridShape (gset X (nbr (p.1, p.2.1) d).1 (nbr (p.1, p.2.1) d).2
          true) := gridShape_gset X _ _ _ hsX
      have hnew1 : newlyCost (gset X (nbr (p.1, p.2.1) d).1
          (nbr (p.1, p.2.1) d).2 true) t (p.1, p.2.1) ds =
          newlyCost X t (p.1, p.2.1) ds :=
        newlyCost_gset X t (p.1, p.2.1) ds d hdds true
      have hcons : newlyCost X t (p.1, p.2.1) (d :: ds) =
          nbr (p.1, p.2.1) d :: newlyCost X t (p.1, p.2.1) ds :=
        newlyCost_cons_pos hc
      obtain ⟨ih1, ih2, ih3, ih4, ih5⟩ := ih hnd'
        (gset C (nbr (p.1, p.2.1) d).1 (nbr (p.1, p.2.1) d).2
          ((p.2.2 + 1 : Int) : Rat))
        (gset X (nbr (p.1, p.2.1) d).1 (nbr (p.1, p.2.1) d).2 true)
        (if p.2.2 + 1 < R then
          Q ++ [((nbr (p.1, p.2.1) d).1, (nbr (p.1, p.2.1) d).2, p.2.2 + 1)]
        else Q) hsC1 hsX1
      rw [hgo, hnb]
      refine ⟨ih1, ih2, fun q => ?_, fun q => ?_, ?_⟩
      · rw [ih3 q, hnew1, hcons]
        by_cases hq1 : q ∈ newlyCost X t (p.1, p.2.1) ds
        · rw [if_pos hq1, if_pos (List.mem_cons_of_mem _ hq1)]
        · rw [if_neg hq1]
          by_cases hq2 : q = nbr (p.1, p.2.1) d
          · rcases hq2 with rfl
            rw [if_pos (List.mem_cons_self _ _)]
            exact gget?_gset_self_of_shape C hsC _ _ hc.1.1 hc.1.2.1
              hc.1.2.2.1 hc.1.2.2.2 _
          · rw [if_neg (fun hmem => by
              rcases List.mem_cons.mp hmem with h | h
              · exact hq2 h
              · exact hq1 h)]
            rw [gget?_gset_ne C _ _ _ _ _
              (fun hcc => hq2 (Prod.ext_iff.mpr hcc).symm)]
      · rw [ih4 q, hnew1, hcons]
        by_cases hq1 : q ∈ newlyCost X t (p.1, p.2.1) ds
        · rw [if_pos hq1, if_pos (List.mem_cons_of_mem _ hq1)]
        · rw [if_neg hq1]
          by_cases hq2 : q = nbr (p.1, p.2.1) d
          · rcases hq2 with rfl
            rw [if_pos (List.mem_cons_self _ _)]
            exact gget_gset_self X false hsX _ _ hc.1.1 hc.1.2.1
              hc.1.2.2.1 hc.1.2.2.2 true
          · rw [if_neg (fun hmem => by
              rcases List.mem_cons.mp hmem with h | h
              · exact hq2 h
              · exact hq1 h)]
            exact gget_gset_ne X false _ _ _ _ true
              (fun hcc => hq2 (Prod.ext_iff.mpr hcc).symm)
      · rw [ih5, hnew1, hcons, List.map_cons]
        by_cases hR : p.2.2 + 1 < R
        · rw [if_pos hR, if_pos hR, if_pos hR, List.append_assoc,
            List.singleton_append]
        · rw [if_neg hR, if_neg hR, if_neg hR]
    · have hnb := costNb_neg t R p C X Q d hc
      have hcons : newlyCost X t (p.1, p.2.1) (d :: ds) =
          newlyCost X t (p.1, p.2.1) ds := newlyCost_cons_neg hc
      obtain ⟨ih1, ih2, ih3, ih4, ih5⟩ := ih hnd' C X Q hsC hsX
      rw [hgo, hnb, hcons]
      exact ⟨ih1, ih2, ih3, ih4, ih5⟩

/-- Loop invariant of the cost-array BFS: explored cells carry their
    exact BFS distance in the cost grid, unexplored cells keep the
    initial field, and the index queue is a sorted frontier of
    below-range entries with processed closure and level completeness. -/
structure CostInv (t : Terrain) (s : Int × Int) (R : Int) (f : Grid Rat)
    (C : Grid Rat) (X : Grid Bool) (F : List (Int × Int × Int)) (fi : Nat) :
    Prop where
  shapeC : gridShape C
  shapeX : gridShape X
  fiLe : fi ≤ F.length
  expl_dist : ∀ q : Int × Int, gget X false q.1 q.2 = true →
    ∃ n : Nat, ReachCost t s q n ∧ (∀ k, ReachCost t s q k → n ≤ k) ∧
      (n : Int) ≤ R ∧ gget? C q.1 q.2 = some ((n : Int) : Rat)
  unexpl_frame : ∀ q : Int × Int, gget X false q.1 q.2 = false →
    gget? C q.1 q.2 = gget? f q.1 q.2
  seed_expl : gget X false s.1 s.2 = true
  queue_entry : ∀ i, i < F.length →
    gget X false (F.getD i (0, 0, 0)).1 (F.getD i (0, 0, 0)).2.1 = true ∧
    (F.getD i (0, 0, 0)).2.2 < R ∧
    (∃ n : Nat,
      ReachCost t s ((F.getD i (0, 0, 0)).1, (F.getD i (0, 0, 0)).2.1) n ∧
      (∀ k, ReachCost t s ((F.getD i (0, 0, 0)).1, (F.getD i (0, 0, 0)).2.1) k →
        n ≤ k) ∧
      (F.getD i (0, 0, 0)).2.2 = (n : Int))
  mem_queue : ∀ (q : Int × Int) (n : Nat), gget X false q.1 q.2 = true →
    ReachCost t s q n → (∀ k, ReachCost t s q k → n ≤ k) → (n : Int) < R →
    (q.1, q.2, (n : Int)) ∈ F
  sorted : ∀ i j, i ≤ j → j < F.length →
    (F.getD i (0, 0, 0)).2.2 ≤ (F.getD j (0, 0, 0)).2.2
  spread : ∀ j, j < F.length → fi < F.length →
    (F.getD j (0, 0, 0)).2.2 ≤ (F.getD fi (0, 0, 0)).2.2 + 1
  closure : ∀ i, i < fi → ∀ d ∈ SURROUND_OFFSETS,
    inRoomP (nbr ((F.getD i (0, 0, 0)).1, (F.getD i (0, 0, 0)).2.1) d) →
    t (nbr ((F.getD i (0, 0, 0)).1, (F.getD i (0, 0, 0)).2.1) d).1
      (nbr ((F.getD i (0, 0, 0)).1, (F.getD i (0, 0, 0)).2.1) d).2 ≠
      TERRAIN_MASK_WALL →
    gget X false (nbr ((F.getD i (0, 0, 0)).1, (F.getD i (0, 0, 0)).2.1) d).1
      (nbr ((F.getD i (0, 0, 0)).1, (F.getD i (0, 0, 0)).2.1) d).2 = true
  front_complete : fi < F.length → ∀ u (n : Nat), ReachCost t s u n →
    (n : Int) ≤ (F.getD fi (0, 0, 0)).2.2 → gget X false u.1 u.2 = true

/-- Processing the frontier entry at the current index preserves the
    cost-BFS invariant. -/
theorem CostInv_step (t : Terrain) (s : Int × Int) (R : Int) (f : Grid Rat)
    (C : Grid Rat) (X : Grid Bool) (F : List (Int × Int × Int)) (fi : Nat)
    (inv : CostInv t s R f C X F fi) (hfi : fi < F.length) :
    CostInv t s R f (costStep t R (C, X, F) (F.getD fi (0, 0, 0))).1
      (costStep t R (C, X, F) (F.getD fi (0, 0, 0))).2.1
      (costStep t R (C, X, F) (F.getD fi (0, 0, 0))).2.2 (fi + 1) := by
  obtain ⟨hpX, hpR, np, hnpR, hnpMin, hnpC⟩ := inv.queue_entry fi hfi
  rw [costStep_eq_go t R (C, X, F) (F.getD fi (0, 0, 0)) (by omega)]
  obtain ⟨hsC', hsX', hC', hX', hQ'⟩ := costStepGo_char t R (F.getD fi (0, 0, 0))
    SURROUND_OFFSETS (by decide) C X F inv.shapeC inv.shapeX
  set p := F.getD fi (0, 0, 0) with hp
  set pc : Int × Int := (p.1, p.2.1) with hpc
  set c : Int := p.2.2 with hc
  set N := newlyCost X t pc SURROUND_OFFSETS with hN
  set A := (if c + 1 < R then N.map (fun q => (q.1, q.2, c + 1)) else [])
    with hA
  have hfiCost : (F.getD fi (0, 0, 0)).2.2 = c := by rw [← hp]
  have hNchar : ∀ q ∈ N, (∃ d ∈ SURROUND_OFFSETS, q = nbr pc d) ∧ inRoomP q ∧
      gget X false q.1 q.2 = false ∧ t q.1 q.2 ≠ TERRAIN_MASK_WALL :=
    fun q hq => mem_newlyCost.mp hq
  -- exact distance of a newly discovered cell
  have hNdist : ∀ q ∈ N, ReachCost t s q (np + 1) ∧
      (∀ k, ReachCost t s q k → np + 1 ≤ k) := by
    intro q hq
    obtain ⟨⟨d, hd, hqd⟩, hroom, hfresh, hwall⟩ := hNchar q hq
    constructor
    · rw [hqd]
      exact ReachCost.step pc np d hd hnpR (hqd ▸ hroom) (hqd ▸ hwall)
    · intro k hk
      by_contra hlt
      have hkc : (k : Int) ≤ (F.getD fi (0, 0, 0)).2.2 := by
        rw [hfiCost]
        omega
      have := inv.front_complete hfi q k hk hkc
      rw [this] at hfresh
      exact Bool.true_eq_false.mp hfresh
  -- explored-set transitions
  have hXold : ∀ q : Int × Int, gget X false q.1 q.2 = true →
      gget (costStepGo t R p (C, X, F) SURROUND_OFFSETS).2.1 false q.1 q.2 =
        true := by
    intro q hq
    rw [hX' q]
    by_cases hqN : q ∈ N
    · rw [if_pos hqN]
    · rw [if_neg hqN]; exact hq
  have hXnew : ∀ q ∈ N,
      gget (costStepGo t R p (C, X, F) SURROUND_OFFSETS).2.1 false q.1 q.2 =
        true := by
    intro q hq
    rw [hX' q, if_pos hq]
  have hXinv : ∀ q : Int × Int,
      gget (costStepGo t R p (C, X, F) SURROUND_OFFSETS).2.1 false q.1 q.2 =
        true → gget X false q.1 q.2 = true ∨ q ∈ N := by
    intro q hq
    rw [hX' q] at hq
    by_cases hqN : q ∈ N
    · exact Or.inr hqN
    · rw [if_neg hqN] at hq
      exact Or.inl hq
  have hXoldN : ∀ q : Int × Int, gget X false q.1 q.2 = true → q ∉ N := by
    intro q hq hqN
    have := (hNchar q hqN).2.2.1
    rw [hq] at this
    exact Bool.true_eq_false.mp this
  -- the appended block of the queue
  have hvalOld : ∀ k, k < F.length → (F ++ A).getD k (0, 0, 0) =
      F.getD k (0, 0, 0) :=
    fun k hk => getD_append_left hk (0, 0, 0)
  have hAform : ∀ e, e ∈ A → ∃ q ∈ N, e = (q.1, q.2, c + 1) := by
    intro e he
    rw [hA] at he
    by_cases hR1 : c + 1 < R
    · rw [if_pos hR1] at he
      obtain ⟨q, hqN, hqe⟩ := List.mem_map.mp he
      exact ⟨q, hqN, hqe.symm⟩
    · rw [if_neg hR1] at he
      exact absurd he (List.not_mem_nil _)
  have hvalNew : ∀ k, F.length ≤ k → k < (F ++ A).length →
      ∃ q ∈ N, (F ++ A).getD k (0, 0, 0) = (q.1, q.2, c + 1) := by
    intro k hk hk2
    rw [List.length_append] at hk2
    refine hAform _ ?_
    rw [getD_append_right hk hk2 (0, 0, 0)]
    exact getD_mem (by omega) (0, 0, 0)
  have hvalNewCost : ∀ k, F.length ≤ k → k < (F ++ A).length →
      ((F ++ A).getD k (0, 0, 0)).2.2 = c + 1 := by
    intro k hk hk2
    obtain ⟨q, _, hqe⟩ := hvalNew k hk hk2
    rw [hqe]
  -- sortedness of the extended queue
  have hsorted' : ∀ i j, i ≤ j → j < (F ++ A).length →
      ((F ++ A).getD i (0, 0, 0)).2.2 ≤ ((F ++ A).getD j (0, 0, 0)).2.2 := by
    intro i j hij hj
    by_cases hjF : j < F.length
    · have hiF : i < F.length := by omega
      rw [hvalOld i hiF, hvalOld j hjF]
      exact inv.sorted i j hij hjF
    · rw [hvalNewCost j (by omega) hj]
      by_cases hiF : i < F.length
      · rw [hvalOld i hiF]
        have := inv.spread i hiF hfi
        rw [hfiCost] at this
        omega
      · rw [hvalNewCost i (by omega) (by omega)]
  refine ⟨hsC', hsX', ?_, ?_, ?_, ?_, ?_, ?_, ?_, ?_, ?_, ?_⟩
  · -- fiLe
    rw [hQ', List.length_append]
    omega
  · -- expl_dist
    intro q hq
    rcases hXinv q hq with hqold | hqN
    · obtain ⟨n, h1, h2, h3, h4⟩ := inv.expl_dist q hqold
      refine ⟨n, h1, h2, h3, ?_⟩
      rw [hC' q, if_neg (hXoldN q hqold)]
      exact h4
    · obtain ⟨h1, h2⟩ := hNdist q hqN
      refine ⟨np + 1, h1, h2, by push_cast; omega, ?_⟩
      rw [hC' q, if_pos hqN, hnpC]
      norm_cast
  · -- unexpl_frame
    intro q hq
    rw [hX' q] at hq
    by_cases hqN : q ∈ N
    · rw [if_pos hqN] at hq
      exact absurd hq (by simp)
    · rw [if_neg hqN] at hq
      rw [hC' q, if_neg hqN]
      exact inv.unexpl_frame q hq
  · -- seed_expl
    exact hXold s inv.seed_expl
  · -- queue_entry
    rw [hQ']
    intro i hi
    by_cases hiF : i < F.length
    · rw [hvalOld i hiF]
      obtain ⟨h1, h2, n, h3, h4, h5⟩ := inv.queue_entry i hiF
      exact ⟨hXold ((F.getD i (0, 0, 0)).1, (F.getD i (0, 0, 0)).2.1) h1,
        h2, n, h3, h4, h5⟩
    · obtain ⟨q, hqN, hqe⟩ := hvalNew i (by omega) hi
      rw [hqe]
      obtain ⟨h1, h2⟩ := hNdist q hqN
      have hcR : c + 1 < R := by
        by_contra hR1
        have hAnil : A = [] := by rw [hA, if_neg hR1]
        rw [List.length_append, hAnil] at hi
        simp at hi
        omega
      refine ⟨hXnew q hqN, hcR, np + 1, h1, h2, ?_⟩
      show c + 1 = ((np + 1 : Nat) : Int)
      push_cast
      omega
  · -- mem_queue
    intro q n hq hr hmin hnR
    rw [hQ']
    rcases hXinv q hq with hqold | hqN
    · exact List.mem_append_left A (inv.mem_queue q n hqold hr hmin hnR)
    · obtain ⟨h1, h2⟩ := hNdist q hqN
      have hneq : n = np + 1 := Nat.le_antisymm (hmin _ h1) (h2 _ hr)
      have hcR : c + 1 < R := by omega
      have hn2 : (n : Int) = c + 1 := by
        rw [hneq]
        push_cast
        omega
      rw [hn2]
      refine List.mem_append_right F ?_
      rw [hA, if_pos hcR]
      exact List.mem_map.mpr ⟨q, hqN, rfl⟩
  · -- sorted
    rw [hQ']
    exact hsorted'
  · -- spread
    rw [hQ']
    intro j hj hfi1
    by_cases hfiF : fi + 1 < F.length
    · rw [hvalOld (fi + 1) hfiF]
      have hMle : c ≤ (F.getD (fi + 1) (0, 0, 0)).2.2 := by
        have := inv.sorted fi (fi + 1) (by omega) hfiF
        rw [hfiCost] at this
        exact this
      by_cases hjF : j < F.length
      · rw [hvalOld j hjF]
        have := inv.spread j hjF hfi
        rw [hfiCost] at this
        omega
      · rw [hvalNewCost j (by omega) hj]
        omega
    · rw [hvalNewCost (fi + 1) (by omega) hfi1]
      by_cases hjF : j < F.length
      · rw [hvalOld j hjF]
        have := inv.spread j hjF hfi
        rw [hfiCost] at this
        omega
      · rw [hvalNewCost j (by omega) hj]
        omega
  · -- closure
    rw [hQ']
    intro i hi d hd hroom hwall
    by_cases hiF : i < fi
    · rw [hvalOld i (by omega)] at hroom hwall ⊢
      exact hXold _ (inv.closure i hiF d hd hroom hwall)
    · have hieq : i = fi := by omega
      subst hieq
      rw [hvalOld i (by omega), ← hp] at hroom hwall ⊢
      by_cases h0 : gget X false (nbr pc d).1 (nbr pc d).2 = false
      · refine hXnew _ ?_
        rw [hN]
        exact mem_newlyCost.mpr ⟨⟨d, hd, rfl⟩, hroom, h0, hwall⟩
      · refine hXold _ ?_
        cases hb : gget X false (nbr pc d).1 (nbr pc d).2
        · exact absurd hb h0
        · rfl
  · -- front_complete
    rw [hQ']
    intro hfi1 u n hu hle
    have hWle : ((F ++ A).getD (fi + 1) (0, 0, 0)).2.2 ≤ c + 1 := by
      by_cases hfiF : fi + 1 < F.length
      · rw [hvalOld (fi + 1) hfiF]
        have := inv.spread (fi + 1) hfiF hfi
        rw [hfiCost] at this
        exact this
      · rw [hvalNewCost (fi + 1) (by omega) hfi1]
    by_cases hnc : (n : Int) ≤ c
    · refine hXold u (inv.front_complete hfi u n hu ?_)
      rw [hfiCost]
      exact hnc
    · have hnval : (n : Int) = c + 1 := by omega
      cases hu with
      | seed =>
        exfalso
        simp at hnval
        omega
      | step v k d hd hv hroom hwall =>
        have hkc : (k : Int) ≤ c := by push_cast at hnval; omega
        have hvX : gget X false v.1 v.2 = true :=
          inv.front_complete hfi v k hv (by rw [hfiCost]; exact hkc)
        obtain ⟨nv, hnvR, hnvMin, hnvLe, hnvC⟩ := inv.expl_dist v hvX
        have hnvk : nv ≤ k := hnvMin k hv
        have hnvR2 : (nv : Int) < R := by omega
        have hvF : (v.1, v.2, (nv : Int)) ∈ F :=
          inv.mem_queue v nv hvX hnvR hnvMin hnvR2
        obtain ⟨j, hjF, hjv⟩ := mem_getD hvF (0, 0, 0)
        have hjCost : (F.getD j (0, 0, 0)).2.2 = (nv : Int) := by rw [hjv]
        by_cases hjfi : j < fi
        · have hcl := inv.closure j hjfi d hd
          rw [hjv] at hcl
          exact hXold _ (hcl hroom hwall)
        · by_cases hjeq : j = fi
          · have hvp : v = pc := by
              have h2 : F.getD j (0, 0, 0) = p := by rw [hjeq, hp]
              rw [hjv] at h2
              rw [hpc, ← h2]
            by_cases h0 : gget X false (nbr v d).1 (nbr v d).2 = false
            · refine hXnew _ ?_
              rw [hN]
              exact mem_newlyCost.mpr ⟨⟨d, hd, by rw [hvp]⟩, hroom, h0, hwall⟩
            · refine hXold _ ?_
              cases hb : gget X false (nbr v d).1 (nbr v d).2
              · exact absurd hb h0
              · rfl
          · exfalso
            have hjge : fi + 1 ≤ j := by omega
            have hs := hsorted' (fi + 1) j hjge (by
              rw [List.length_append]
              rw [List.length_append] at hfi1
              omega)
            rw [hvalOld j hjF, hjCost] at hs
            omega

theorem gget_initArr_self (v : α) (q : Int × Int) :
    gget (initArr v) v q.1 q.2 = v := by
  by_cases h : inRoomP q
  · unfold gget
    have h1 : q.1 ≤ 49 := by
      have : q.1 < (50 : Int) := h.2.1
      omega
    have h2 : q.2 ≤ 49 := by
      have : q.2 < (50 : Int) := h.2.2.2
      omega
    rw [gget?_initArr v q.1 q.2 h.1 h1 h.2.2.1 h2]
    rfl
  · exact gget_out_of_room _ _ (gridShape_initArr v) q h

/-- The cost-BFS invariant holds at the start of getCostArrayPure. -/
theorem CostInv_init (t : Terrain) (sx sy R : Int) (f : Grid Rat)
    (hsf : gridShape f) (hR : 1 ≤ R) (hs : inRoomP (sx, sy)) :
    CostInv t (sx, sy) R f (gset f sx sy 0) (gset (initArr false) sx sy true)
      [(sx, sy, 0)] 0 := by
  have hX0self : gget (gset (initArr false) sx sy true) false sx sy = true :=
    gget_gset_self (initArr false) false (gridShape_initArr false) sx sy hs.1
      hs.2.1 hs.2.2.1 hs.2.2.2 true
  have hX0 : ∀ q : Int × Int, q ≠ (sx, sy) →
      gget (gset (initArr false) sx sy true) false q.1 q.2 = false := by
    intro q hq
    rw [gget_gset_ne (initArr false) false sx sy q.1 q.2 true
      (fun hcc => hq (Prod.ext_iff.mpr ⟨hcc.1.symm, hcc.2.symm⟩))]
    exact gget_initArr_self false q
  refine ⟨gridShape_gset f sx sy 0 hsf,
    gridShape_gset _ sx sy true (gridShape_initArr false), Nat.zero_le _,
    ?_, ?_, hX0self, ?_, ?_, ?_, ?_, ?_, ?_⟩
  · -- expl_dist
    intro q hq
    by_cases hqs : q = (sx, sy)
    · subst hqs
      refine ⟨0, ReachCost.seed, fun k _ => Nat.zero_le k, by omega, ?_⟩
      show gget? (gset f sx sy 0) sx sy = some (((0 : Nat) : Int) : Rat)
      rw [gget?_gset_self_of_shape f hsf sx sy hs.1 hs.2.1 hs.2.2.1
        hs.2.2.2 (0 : Rat)]
      norm_num
    · rw [hX0 q hqs] at hq
      exact absurd hq (by simp)
  · -- unexpl_frame
    intro q hq
    have hqs : q ≠ (sx, sy) := by
      intro h
      rw [h] at hq
      have h2 : gget (gset (initArr false) sx sy true) false sx sy = false := hq
      rw [hX0self] at h2
      exact Bool.true_eq_false.mp h2
    exact gget?_gset_ne f sx sy q.1 q.2 0
      (fun hcc => hqs (Prod.ext_iff.mpr ⟨hcc.1.symm, hcc.2.symm⟩))
  · -- queue_entry
    intro i hi
    have hi0 : i = 0 := by
      simp at hi
      omega
    subst hi0
    refine ⟨hX0self, ?_, 0, ReachCost.seed, fun k _ => Nat.zero_le k, ?_⟩
    · show (0 : Int) < R
      omega
    · show (0 : Int) = ((0 : Nat) : Int)
      norm_num
  · -- mem_queue
    intro q n hq hr hmin hnR
    have hq0 : q = (sx, sy) := by
      by_contra hqs
      rw [hX0 q hqs] at hq
      exact absurd hq (by simp)
    subst hq0
    have hn0 : n = 0 := Nat.le_antisymm (hmin 0 ReachCost.seed) (Nat.zero_le n)
    subst hn0
    simp
  · -- sorted
    intro i j hij hj
    have hj0 : j = 0 := by simp at hj; omega
    have hi0 : i = 0 := by omega
    subst hj0
    subst hi0
    exact le_refl _
  · -- spread
    intro j hj hfi
    have hj0 : j = 0 := by simp at hj; omega
    subst hj0
    omega
  · -- closure
    intro i hi
    exact absurd hi (Nat.not_lt_zero i)
  · -- front_complete
    intro h0 u n hu hle
    have hle2 : (n : Int) ≤ 0 := hle
    cases hu with
    | seed => exact hX0self
    | step v k d hd hv hroom hwall =>
      exfalso
      push_cast at hle2
      omega

/-- Running the cost loop from an invariant state yields a fully
    processed invariant state. -/
theorem costLoop_sound (t : Terrain) (s : Int × Int) (R : Int) (f : Grid Rat) :
    ∀ (fuel : Nat) (C : Grid Rat) (X : Grid Bool) (F : List (Int × Int × Int))
      (fi : Nat) (res : Grid Rat),
      CostInv t s R f C X F fi →
      costLoop t R fuel (C, X, F) fi = some res →
      ∃ X' F', CostInv t s R f res X' F' F'.length := by
  intro fuel
  induction fuel with
  | zero =>
    intro C X F fi res _ hrun
    exact absurd hrun (by simp [costLoop])
  | succ fuel ih =>
    intro C X F fi res inv hrun
    simp only [costLoop] at hrun
    by_cases hlt : fi < F.length
    · rw [if_pos hlt] at hrun
      have inv' := CostInv_step t s R f C X F fi inv hlt
      exact ih _ _ _ _ res inv' hrun
    · rw [if_neg hlt] at hrun
      obtain rfl : C = res := Option.some.inj hrun
      have hfi : fi = F.length := Nat.le_antisymm inv.fiLe (Nat.not_lt.mp hlt)
      exact ⟨X, F, hfi ▸ inv⟩

/-- At the end of the cost BFS, reachable-within-range cells hold their
    exact distance and all other cells keep the initial field. -/
theorem costEnd_char (t : Terrain) (s : Int × Int) (R : Int) (f : Grid Rat)
    (C : Grid Rat) (X : Grid Bool) (F : List (Int × Int × Int))
    (inv : CostInv t s R f C X F F.length) :
    (∀ (q : Int × Int) (n : Nat), ReachCost t s q n → (n : Int) ≤ R →
      ∃ m : Nat, m ≤ n ∧ gget? C q.1 q.2 = some ((m : Int) : Rat)) ∧
    (∀ q : Int × Int, (¬∃ n : Nat, ReachCost t s q n ∧ (n : Int) ≤ R) →
      gget? C q.1 q.2 = gget? f q.1 q.2) := by
  have hexpl : ∀ n : Nat, (n : Int) ≤ R → ∀ q, ReachCost t s q n →
      gget X false q.1 q.2 = true := by
    intro n
    induction n with
    | zero =>
      intro _ q hq
      cases hq with
      | seed => exact inv.seed_expl
    | succ k ihk =>
      intro hkR q hq
      cases hq with
      | step v kk d hd hv hroom hwall =>
        have hvX := ihk (by push_cast at hkR; omega) v hv
        obtain ⟨nv, hnvR, hnvMin, hnvLe, hnvC⟩ := inv.expl_dist v hvX
        have hnvR2 : (nv : Int) < R := by
          have := hnvMin k hv
          push_cast at hkR
          omega
        have hvF := inv.mem_queue v nv hvX hnvR hnvMin hnvR2
        obtain ⟨j, hjF, hjv⟩ := mem_getD hvF (0, 0, 0)
        have hcl := inv.closure j hjF d hd
        rw [hjv] at hcl
        exact hcl hroom hwall
  constructor
  · intro q n hr hnR
    obtain ⟨m, hmR, hmMin, hmLe, hmC⟩ := inv.expl_dist q (hexpl n hnR q hr)
    exact ⟨m, hmMin n hr, hmC⟩
  · intro q hnot
    cases hb : gget X false q.1 q.2
    · exact inv.unexpl_frame q hb
    · exfalso
      obtain ⟨n, hnR, _, hnLe, _⟩ := inv.expl_dist q hb
      exact hnot ⟨n, hnR, hnLe⟩

/-- A single gated entry makes the cost loop return its grid unchanged. -/
theorem costLoop_gate0 (t : Terrain) (R : Int) (fuel : Nat) (C : Grid Rat)
    (X : Grid Bool) (e : Int × Int × Int) (hgate : e.2.2 ≥ R) :
    costLoop t R (fuel + 2) (C, X, [e]) 0 = some C := by
  have h1 : costLoop t R (fuel + 2) (C, X, [e]) 0 =
      costLoop t R (fuel + 1) (costStep t R (C, X, [e]) e) 1 := rfl
  rw [h1, costStep_gate t R _ e hgate]
  rfl

/-- C5: after getCostArrayPure with a well-formed field, an in-room seed
    and radius R at least 0, every tile reachable in at most R steps of
    the in-room non-wall 8-neighbour BFS holds the exact minimum distance
    (in particular a value at most any reachable step count), and every
    other tile keeps its pre-call value. -/
theorem C5_getCostArrayPure_bounds (f : Grid Rat) (sx sy R : Int) (t : Terrain)
    (hsf : gridShape f) (hR : 0 ≤ R) (hs : inRoomP (sx, sy))
    (res : Grid Rat) (hrun : getCostArrayPure f sx sy R t = some res) :
    (∀ (q : Int × Int) (n : Nat), ReachCost t (sx, sy) q n → (n : Int) ≤ R →
      ∃ m : Nat, m ≤ n ∧ gget? res q.1 q.2 = some ((m : Int) : Rat)) ∧
    (∀ q : Int × Int, (¬∃ n : Nat, ReachCost t (sx, sy) q n ∧ (n : Int) ≤ R) →
      gget? res q.1 q.2 = gget? f q.1 q.2) := by
  by_cases hR1 : 1 ≤ R
  · have hrun' : costLoop t R EXPAND_FUEL
        (gset f sx sy 0, gset (initArr false) sx sy true, [(sx, sy, 0)]) 0 =
        some res := hrun
    obtain ⟨X', F', hinv⟩ := costLoop_sound t (sx, sy) R f EXPAND_FUEL _ _ _ 0
      res (CostInv_init t sx sy R f hsf hR1 hs) hrun'
    exact costEnd_char t (sx, sy) R f res X' F' hinv
  · have hR0 : R = 0 := by omega
    subst hR0
    have hrun' : costLoop t 0 EXPAND_FUEL
        (gset f sx sy 0, gset (initArr false) sx sy true, [(sx, sy, 0)]) 0 =
        some res := hrun
    rw [show (EXPAND_FUEL : Nat) = 99998 + 2 from rfl,
      costLoop_gate0 t 0 99998 _ _ (sx, sy, 0) (le_refl 0)] at hrun'
    obtain rfl : gset f sx sy 0 = res := Option.some.inj hrun'
    constructor
    · intro q n hr hnR
      have hn0 : n = 0 := by omega
      subst hn0
      cases hr with
      | seed =>
        refine ⟨0, le_refl 0, ?_⟩
        show gget? (gset f sx sy 0) sx sy = some (((0 : Nat) : Int) : Rat)
        rw [gget?_gset_self_of_shape f hsf sx sy hs.1 hs.2.1 hs.2.2.1
          hs.2.2.2 (0 : Rat)]
        norm_num
    · intro q hnot
      have hqs : q ≠ (sx, sy) := by
        intro h
        subst h
        exact hnot ⟨0, ReachCost.seed, by norm_num⟩
      exact gget?_gset_ne f sx sy q.1 q.2 0
        (fun hcc => hqs (Prod.ext_iff.mpr ⟨hcc.1.symm, hcc.2.symm⟩))

set_option maxRecDepth 400000 in
/-- Instantiation of C5: a radius-1 BFS from (1,1) on open terrain. -/
theorem C5_getCostArrayPure_bounds_witness :
    ∃ res : Grid Rat,
      getCostArrayPure (initArr 0) 1 1 1 (fun _ _ => 0) = some res ∧
      ((∀ (q : Int × Int) (n : Nat), ReachCost (fun _ _ => 0) (1, 1) q n →
          (n : Int) ≤ 1 → ∃ m : Nat, m ≤ n ∧
          gget? res q.1 q.2 = some ((m : Int) : Rat)) ∧
       (∀ q : Int × Int,
          (¬∃ n : Nat, ReachCost (fun _ _ => 0) (1, 1) q n ∧ (n : Int) ≤ 1) →
          gget? res q.1 q.2 = gget? (initArr 0) q.1 q.2)) := by
  have hsome : (getCostArrayPure (initArr 0) 1 1 1 (fun _ _ => 0)).isSome =
      true := by decide
  obtain ⟨res, hres⟩ := Option.isSome_iff_exists.mp hsome
  exact ⟨res, hres, C5_getCostArrayPure_bounds (initArr 0) 1 1 1 (fun _ _ => 0)
    (gridShape_initArr 0) (by norm_num) (by decide) res hres⟩

/-! ## The flow graph: vertex-array primitives -/

/-- Well-formedness of the 5002-slot vertex arrays (101 rows of 50). -/
def VShape (a : VArr α) : Prop :=
  a.length = 101 ∧ ∀ r ∈ a, r.length = 50

theorem VShape_vinit (n : Nat) (v : α) (h : (n + 49) / 50 = 101) :
    VShape (vinit n v) := by
  unfold VShape vinit
  rw [h]
  refine ⟨List.length_replicate _ _, ?_⟩
  intro r hr
  rw [List.eq_of_mem_replicate hr]
  exact List.length_replicate _ _

theorem vget_vinit (n : Nat) (v : α) (d : α) (i : Nat)
    (h : (n + 49) / 50 = 101) (hi : i < 5050) :
    vget (vinit n v) d i = v := by
  unfold vget vinit
  rw [h]
  simp only [List.getD_eq_getElem?_getD]
  rw [List.getElem?_replicate, if_pos (show i / 50 < 101 by omega), Option.getD_some,
    List.getElem?_replicate, if_pos (show i % 50 < 50 from Nat.mod_lt i (by omega)),
    Option.getD_some]

theorem VShape_vset (a : VArr α) (i : Nat) (v : α) (hs : VShape a) :
    VShape (vset a i v) := by
  unfold vset
  by_cases hrow : i / 50 < a.length
  · refine ⟨by rw [List.length_set]; exact hs.1, ?_⟩
    intro r hr
    rcases List.mem_or_eq_of_mem_set hr with hmem | heq
    · exact hs.2 r hmem
    · rw [heq, List.length_set]
      exact hs.2 _ (getD_mem hrow [])
  · rw [List.set_eq_of_length_le (by omega)]
    exact hs

theorem vget_vset_self (a : VArr α) (i : Nat) (v : α) (d : α) (hs : VShape a)
    (hi : i < 5050) : vget (vset a i v) d i = v := by
  unfold vget vset
  have hrow : i / 50 < a.length := by rw [hs.1]; omega
  simp only [List.getD_eq_getElem?_getD]
  rw [List.getElem?_set_self hrow, Option.getD_some]
  have hcol : i % 50 < (a[i / 50]?.getD []).length := by
    rw [List.getElem?_eq_getElem hrow, Option.getD_some, hs.2 _ (List.getElem_mem hrow)]
    exact Nat.mod_lt i (by omega)
  rw [List.getElem?_set_self hcol, Option.getD_some]

theorem vget_vset_ne (a : VArr α) (i j : Nat) (v : α) (d : α) (hne : i ≠ j) :
    vget (vset a i v) d j = vget a d j := by
  unfold vget vset
  simp only [List.getD_eq_getElem?_getD, List.getElem?_set]
  by_cases hrow : i / 50 = j / 50
  · by_cases hlen : i / 50 < a.length
    · have hcol : i % 50 ≠ j % 50 := fun hc => hne (by omega)
      rw [if_pos hrow, if_pos hlen, Option.getD_some, List.getElem?_set,
        if_neg hcol, hrow]
    · rw [if_pos hrow, if_neg hlen,
        List.getElem?_eq_none (show a.length ≤ j / 50 by omega)]
  · rw [if_neg hrow]
/-! ## Structural predicates on flow graphs -/

/-- The edge list stored at vertex u. -/
def elist (g : Graph) (u : Nat) : List Edge := vget g.edges [] u

/-- The i-th edge stored at vertex u. -/
def elook (g : Graph) (u i : Nat) : Option Edge := (elist g u).get? i

/-- The flow-independent part of an edge record. -/
def estrip (e : Edge) : Nat × Nat × Int := (e.v, e.r, e.c)

/-- Well-formedness: correct vertex count and well-shaped arrays. -/
def GraphWF (g : Graph) : Prop :=
  g.v = GRAPH_VERTEX_COUNT ∧ VShape g.level ∧ VShape g.edges

/-- Every stored edge has an antisymmetric reverse partner recorded at
    its endpoint, flows never exceed capacities, and one member of each
    pair has capacity zero. -/
def Paired (g : Graph) : Prop :=
  ∀ u i e, elook g u i = some e →
    e.v < GRAPH_VERTEX_COUNT ∧ e.v ≠ u ∧ 0 ≤ e.c ∧ e.f ≤ e.c ∧
    ∃ e', elook g e.v e.r = some e' ∧ e'.v = u ∧ e'.r = i ∧ 0 ≤ e'.c ∧
      e'.f = -e.f ∧ (e.c = 0 ∨ e'.c = 0)

/-- Two graphs with identical vertex counts and edge records up to flow
    values. -/
def SameStruct (g g' : Graph) : Prop :=
  g'.v = g.v ∧ ∀ u i, (elook g' u i).map estrip = (elook g u i).map estrip

/-- Pointwise flow-change bound between two structurally equal graphs. -/
def AllDelta (g g' : Graph) (B : Int) : Prop :=
  ∀ u i e, elook g u i = some e → ∃ e', elook g' u i = some e' ∧ |e'.f - e.f| ≤ B

/-- Total flow recorded at a vertex. -/
def edgeSum (g : Graph) (u : Nat) : Int := ((elist g u).map Edge.f).sum

/-- Every capacity is 0, 1 or INF. -/
def CapsOK (g : Graph) : Prop :=
  ∀ u i e, elook g u i = some e → e.c = 0 ∨ e.c = 1 ∨ e.c = INF

/-- Every unit-capacity edge leaves the top vertex of an interior tile. -/
def UnitAt (g : Graph) : Prop :=
  ∀ u i e, elook g u i = some e → e.c = 1 →
    ∃ x y : Int, 1 ≤ x ∧ x ≤ 48 ∧ 1 ≤ y ∧ y ≤ 48 ∧ u = (positionToVertex x y).toNat

/-- Shape of the edge lists reached from the source: every source edge
    points at a protected top vertex carrying exactly its reverse-source
    entry followed by its unit edge. -/
def SourceOK (g : Graph) : Prop :=
  ∀ i e, elook g SOURCE_VERTEX i = some e →
    e.v ≠ SINK_VERTEX ∧ e.v < GRAPH_VERTEX_COUNT ∧
    (elist g e.v).length = 2 ∧
    (∃ e0, elook g e.v 0 = some e0 ∧ e0.v = SOURCE_VERTEX) ∧
    (∃ e1, elook g e.v 1 = some e1 ∧ e1.c = 1)

/-- All flows are zero (the freshly built graph). -/
def ZeroFlow (g : Graph) : Prop := ∀ u i e, elook g u i = some e → e.f = 0

theorem SameStruct_refl (g : Graph) : SameStruct g g := ⟨rfl, fun _ _ => rfl⟩

theorem SameStruct_trans {g1 g2 g3 : Graph} (h12 : SameStruct g1 g2)
    (h23 : SameStruct g2 g3) : SameStruct g1 g3 :=
  ⟨h23.1.trans h12.1, fun u i => (h23.2 u i).trans (h12.2 u i)⟩

theorem SameStruct_elook_none {g g' : Graph} (h : SameStruct g g') (u i : Nat) :
    elook g' u i = none ↔ elook g u i = none := by
  have h2 := h.2 u i
  constructor
  · intro hn
    rw [hn] at h2
    cases hl : elook g u i with
    | none => rfl
    | some e => rw [hl] at h2; simp at h2
  · intro hn
    rw [hn] at h2
    cases hl : elook g' u i with
    | none => rfl
    | some e => rw [hl] at h2; simp at h2

theorem SameStruct_elook_some {g g' : Graph} (h : SameStruct g g') (u i : Nat)
    (e : Edge) (he : elook g u i = some e) :
    ∃ e', elook g' u i = some e' ∧ e'.v = e.v ∧ e'.r = e.r ∧ e'.c = e.c := by
  have h2 := h.2 u i
  rw [he] at h2
  cases hl : elook g' u i with
  | none => rw [hl] at h2; simp at h2
  | some e' =>
    rw [hl] at h2
    simp only [Option.map_some'] at h2
    refine ⟨e', rfl, ?_, ?_, ?_⟩ <;>
      · have := Option.some.inj h2
        unfold estrip at this
        cases e <;> cases e' <;> simp_all

theorem SameStruct_length {g g' : Graph} (h : SameStruct g g') (u : Nat) :
    (elist g' u).length = (elist g u).length := by
  apply le_antisymm
  · by_contra hlt
    push_neg at hlt
    have hn : elook g u (elist g u).length = none := by
      unfold elook
      rw [List.get?_eq_getElem?]
      exact List.getElem?_eq_none (le_refl _)
    have := (SameStruct_elook_none h u (elist g u).length).mpr hn
    unfold elook at this
    rw [List.get?_eq_getElem?] at this
    rw [List.getElem?_eq_none_iff] at this
    omega
  · by_contra hlt
    push_neg at hlt
    have hn : elook g' u (elist g' u).length = none := by
      unfold elook
      rw [List.get?_eq_getElem?]
      exact List.getElem?_eq_none (le_refl _)
    have := (SameStruct_elook_none h u (elist g' u).length).mp hn
    unfold elook at this
    rw [List.get?_eq_getElem?] at this
    rw [List.getElem?_eq_none_iff] at this
    omega

theorem CapsOK_transport {g g' : Graph} (h : SameStruct g g') (hc : CapsOK g) :
    CapsOK g' := by
  intro u i e' he'
  have h2 := h.2 u i
  rw [he'] at h2
  cases hl : elook g u i with
  | none => rw [hl] at h2; simp at h2
  | some e =>
    rw [hl] at h2
    simp only [Option.map_some'] at h2
    have hce : e'.c = e.c := by
      have := Option.some.inj h2
      unfold estrip at this
      cases e <;> cases e' <;> simp_all
    rw [hce]
    exact hc u i e hl

theorem UnitAt_transport {g g' : Graph} (h : SameStruct g g') (hc : UnitAt g) :
    UnitAt g' := by
  intro u i e' he' hc1
  have h2 := h.2 u i
  rw [he'] at h2
  cases hl : elook g u i with
  | none => rw [hl] at h2; simp at h2
  | some e =>
    rw [hl] at h2
    simp only [Option.map_some'] at h2
    have hce : e'.c = e.c := by
      have := Option.some.inj h2
      unfold estrip at this
      cases e <;> cases e' <;> simp_all
    exact hc u i e hl (by rw [← hce]; exact hc1)

theorem SourceOK_transport {g g' : Graph} (h : SameStruct g g') (hc : SourceOK g) :
    SourceOK g' := by
  intro i e' he'
  have h2 := h.2 SOURCE_VERTEX i
  rw [he'] at h2
  cases hl : elook g SOURCE_VERTEX i with
  | none => rw [hl] at h2; simp at h2
  | some e =>
    rw [hl] at h2
    simp only [Option.map_some'] at h2
    have hve : e'.v = e.v := by
      have := Option.some.inj h2
      unfold estrip at this
      cases e <;> cases e' <;> simp_all
    obtain ⟨hs, hlt, hlen, ⟨e0, he0, hv0⟩, ⟨e1, he1, hc1⟩⟩ := hc i e hl
    rw [hve]
    refine ⟨hs, hlt, by rw [SameStruct_length h]; exact hlen, ?_, ?_⟩
    · obtain ⟨e0', he0', hv', _, _⟩ := SameStruct_elook_some h e.v 0 e0 he0
      exact ⟨e0', he0', by rw [hv', hv0]⟩
    · obtain ⟨e1', he1', _, _, hc'⟩ := SameStruct_elook_some h e.v 1 e1 he1
      exact ⟨e1', he1', by rw [hc', hc1]⟩

theorem AllDelta_mono {g g' : Graph} {B B' : Int} (h : AllDelta g g' B)
    (hB : B ≤ B') : AllDelta g g' B' := by
  intro u i e he
  obtain ⟨e', he', hb⟩ := h u i e he
  exact ⟨e', he', le_trans hb hB⟩

theorem AllDelta_refl (g : Graph) : AllDelta g g 0 := by
  intro u i e he
  exact ⟨e, he, by simp⟩

theorem AllDelta_trans {g1 g2 g3 : Graph} {B1 B2 : Int} (h12 : AllDelta g1 g2 B1)
    (h23 : AllDelta g2 g3 B2) : AllDelta g1 g3 (B1 + B2) := by
  intro u i e he
  obtain ⟨e2, he2, hb2⟩ := h12 u i e he
  obtain ⟨e3, he3, hb3⟩ := h23 u i e2 he2
  refine ⟨e3, he3, ?_⟩
  have : |e3.f - e.f| ≤ |e3.f - e2.f| + |e2.f - e.f| := by
    have := abs_sub_abs_le_abs_sub (e3.f - e.f) (e3.f - e2.f)
    have h2 := abs_add (e3.f - e2.f) (e2.f - e.f)
    have h3 : e3.f - e.f = (e3.f - e2.f) + (e2.f - e.f) := by ring
    rw [h3]
    exact h2
  omega

/-! ## Effect of updEdgeF on the stored lists -/

theorem elook_eq (g : Graph) (u i : Nat) : elook g u i = (elist g u)[i]? :=
  List.get?_eq_getElem? _ _

theorem elook_lt_length {g : Graph} {u i : Nat} {e : Edge}
    (h : elook g u i = some e) : i < (elist g u).length := by
  rw [elook_eq] at h
  exact (List.getElem?_eq_some.mp h).1

theorem elook_mem {g : Graph} {u i : Nat} {e : Edge}
    (h : elook g u i = some e) : e ∈ elist g u := by
  rw [elook_eq] at h
  obtain ⟨hlt, hv⟩ := List.getElem?_eq_some.mp h
  rw [← hv]
  exact List.getElem_mem hlt

theorem mem_elook {g : Graph} {u : Nat} {e : Edge} (h : e ∈ elist g u) :
    ∃ i, elook g u i = some e := by
  obtain ⟨i, hi, hv⟩ := List.mem_iff_getElem.mp h
  refine ⟨i, ?_⟩
  rw [elook_eq, List.getElem?_eq_getElem hi, hv]

theorem sum_map_set (l : List Edge) (i : Nat) (e' e : Edge)
    (he : l.get? i = some e) :
    ((l.set i e').map Edge.f).sum = (l.map Edge.f).sum - e.f + e'.f := by
  induction l generalizing i with
  | nil => simp at he
  | cons a t ih =>
    cases i with
    | zero =>
      simp only [List.get?] at he
      have : a = e := Option.some.inj he
      subst this
      simp [List.set]
      ring
    | succ n =>
      simp only [List.get?] at he
      simp only [List.set, List.map_cons, List.sum_cons, ih n he]
      ring

theorem updEdgeF_v (g : Graph) (u i : Nat) (d : Int) :
    (updEdgeF g u i d).v = g.v := by
  unfold updEdgeF
  simp only
  split <;> rfl

theorem updEdgeF_level (g : Graph) (u i : Nat) (d : Int) :
    (updEdgeF g u i d).level = g.level := by
  unfold updEdgeF
  simp only
  split <;> rfl

theorem updEdgeF_none (g : Graph) (u i : Nat) (d : Int)
    (h : elook g u i = none) : updEdgeF g u i d = g := by
  unfold updEdgeF
  simp only
  split
  · rfl
  · next e heq =>
    unfold elook elist at h
    rw [h] at heq
    cases heq

theorem updEdgeF_VShape (g : Graph) (u i : Nat) (d : Int)
    (hs : VShape g.edges) : VShape (updEdgeF g u i d).edges := by
  unfold updEdgeF
  simp only
  split
  · exact hs
  · exact VShape_vset _ _ _ hs

theorem updEdgeF_elist_ne (g : Graph) (u i : Nat) (d : Int) (w : Nat)
    (hw : w ≠ u) : elist (updEdgeF g u i d) w = elist g w := by
  unfold updEdgeF
  simp only
  split
  · rfl
  · unfold elist
    exact vget_vset_ne _ _ _ _ _ (fun h => hw h.symm)

theorem updEdgeF_elist_self {g : Graph} {u i : Nat} {e : Edge} (d : Int)
    (hs : VShape g.edges) (hu : u < 5050) (he : elook g u i = some e) :
    elist (updEdgeF g u i d) u = (elist g u).set i { e with f := e.f + d } := by
  unfold updEdgeF
  simp only
  split
  · next heq =>
    unfold elook elist at he
    rw [he] at heq
    cases heq
  · next e2 heq =>
    unfold elook elist at he
    rw [he] at heq
    have : e = e2 := Option.some.inj heq
    subst this
    unfold elist
    exact vget_vset_self _ _ _ _ hs hu

theorem updEdgeF_elook_self {g : Graph} {u i : Nat} {e : Edge} (d : Int)
    (hs : VShape g.edges) (hu : u < 5050) (he : elook g u i = some e) :
    elook (updEdgeF g u i d) u i = some { e with f := e.f + d } := by
  unfold elook
  rw [updEdgeF_elist_self d hs hu he, List.get?_eq_getElem?,
    List.getElem?_set_self (elook_lt_length he)]

theorem updEdgeF_elook_ne_vertex (g : Graph) (u i : Nat) (d : Int) (w j : Nat)
    (hw : w ≠ u) : elook (updEdgeF g u i d) w j = elook g w j := by
  unfold elook
  rw [updEdgeF_elist_ne g u i d w hw]

theorem updEdgeF_elook_ne_index (g : Graph) (u i : Nat) (d : Int) (j : Nat)
    (hs : VShape g.edges) (hu : u < 5050) (hj : j ≠ i) :
    elook (updEdgeF g u i d) u j = elook g u j := by
  cases he : elook g u i with
  | none => rw [updEdgeF_none g u i d he]
  | some e =>
    unfold elook
    rw [updEdgeF_elist_self d hs hu he, List.get?_eq_getElem?,
      List.get?_eq_getElem?, List.getElem?_set_ne (fun h => hj h.symm)]

theorem updEdgeF_edgeSum_self {g : Graph} {u i : Nat} {e : Edge} (d : Int)
    (hs : VShape g.edges) (hu : u < 5050) (he : elook g u i = some e) :
    edgeSum (updEdgeF g u i d) u = edgeSum g u + d := by
  unfold edgeSum
  rw [updEdgeF_elist_self d hs hu he, sum_map_set _ i _ e he]
  simp only
  ring

theorem updEdgeF_edgeSum_ne (g : Graph) (u i : Nat) (d : Int) (w : Nat)
    (hw : w ≠ u) : edgeSum (updEdgeF g u i d) w = edgeSum g w := by
  unfold edgeSum
  rw [updEdgeF_elist_ne g u i d w hw]
/-! ## The paired flow update performed by the DFS -/

/-- The two updEdgeF calls of a successful augmentation step: add Φ to
    the cursor edge at (u, j) and subtract Φ from its reverse partner. -/
def pupd (g : Graph) (u j : Nat) (e : Edge) (q : Int) : Graph :=
  updEdgeF (updEdgeF g u j q) e.v e.r (-q)

theorem GVC_lt : GRAPH_VERTEX_COUNT ≤ 5050 := by decide

theorem pupd_facts {g : Graph} {u j : Nat} {e : Edge} {q : Int}
    (hwf : GraphWF g) (hp : Paired g) (hu : u < GRAPH_VERTEX_COUNT)
    (he : elook g u j = some e) (hq : 0 ≤ q) (hcap : q ≤ e.c - e.f) :
    GraphWF (pupd g u j e q) ∧ Paired (pupd g u j e q) ∧
    SameStruct g (pupd g u j e q) ∧ (pupd g u j e q).level = g.level ∧
    AllDelta g (pupd g u j e q) q ∧
    (∀ w, edgeSum (pupd g u j e q) w =
      edgeSum g w + (if w = u then q else 0) - (if w = e.v then q else 0)) ∧
    (∀ w k, w ≠ u → w ≠ e.v → elook (pupd g u j e q) w k = elook g w k) := by
  obtain ⟨hvlt, hvne, hc0, hfc, e', hpe', hv', hr', hc'0, hf', hdisj⟩ := hp u j e he
  obtain ⟨_, _, _, hfc', _⟩ := hp e.v e.r e' hpe'
  have hs : VShape g.edges := hwf.2.2
  have hu50 : u < 5050 := lt_of_lt_of_le hu GVC_lt
  have hev50 : e.v < 5050 := lt_of_lt_of_le hvlt GVC_lt
  have hs2 : VShape (updEdgeF g u j q).edges := updEdgeF_VShape g u j q hs
  have h2self : elook (updEdgeF g u j q) u j = some { e with f := e.f + q } :=
    updEdgeF_elook_self q hs hu50 he
  have h2partner : elook (updEdgeF g u j q) e.v e.r = some e' := by
    rw [updEdgeF_elook_ne_vertex g u j q e.v e.r hvne]
    exact hpe'
  have h3partner : elook (pupd g u j e q) e.v e.r = some { e' with f := e'.f + -q } :=
    updEdgeF_elook_self (-q) hs2 hev50 h2partner
  have h3self : elook (pupd g u j e q) u j = some { e with f := e.f + q } := by
    unfold pupd
    rw [updEdgeF_elook_ne_vertex _ e.v e.r (-q) u j (fun h => hvne h.symm)]
    exact h2self
  have hlook : ∀ w k, elook (pupd g u j e q) w k =
      if w = u ∧ k = j then some { e with f := e.f + q }
      else if w = e.v ∧ k = e.r then some { e' with f := e'.f + -q }
      else elook g w k := by
    intro w k
    by_cases h1 : w = u ∧ k = j
    · rw [if_pos h1, h1.1, h1.2]
      exact h3self
    · rw [if_neg h1]
      by_cases h2 : w = e.v ∧ k = e.r
      · rw [if_pos h2, h2.1, h2.2]
        exact h3partner
      · rw [if_neg h2]
        by_cases hw : w = u
        · have hk : k ≠ j := fun h => h1 ⟨hw, h⟩
          rw [hw]
          unfold pupd
          rw [updEdgeF_elook_ne_vertex _ e.v e.r (-q) u k (fun h => hvne h.symm),
            updEdgeF_elook_ne_index g u j q k hs hu50 hk]
        · by_cases hv : w = e.v
          · have hk : k ≠ e.r := fun h => h2 ⟨hv, h⟩
            rw [hv]
            unfold pupd
            rw [updEdgeF_elook_ne_index _ e.v e.r (-q) k hs2 hev50 hk,
              updEdgeF_elook_ne_vertex g u j q e.v k hvne]
          · unfold pupd
            rw [updEdgeF_elook_ne_vertex _ e.v e.r (-q) w k hv,
              updEdgeF_elook_ne_vertex g u j q w k hw]
  have hwf3 : GraphWF (pupd g u j e q) := by
    refine ⟨?_, ?_, ?_⟩
    · unfold pupd
      rw [updEdgeF_v, updEdgeF_v]
      exact hwf.1
    · unfold pupd
      rw [updEdgeF_level, updEdgeF_level]
      exact hwf.2.1
    · exact updEdgeF_VShape _ _ _ _ hs2
  refine ⟨hwf3, ?_, ?_, ?_, ?_, ?_, ?_⟩
  · -- Paired
    intro w k ee hee
    rw [hlook] at hee
    by_cases h1 : w = u ∧ k = j
    · rw [if_pos h1] at hee
      have hee2 : ee = { e with f := e.f + q } := (Option.some.inj hee).symm
      subst hee2
      rw [h1.1, h1.2]
      refine ⟨hvlt, hvne, hc0, ?_, ?_⟩
      · show e.f + q ≤ e.c
        omega
      · refine ⟨{ e' with f := e'.f + -q }, h3partner, hv', hr', hc'0, ?_, ?_⟩
        · show e'.f + -q = -(e.f + q)
          omega
        · show e.c = 0 ∨ e'.c = 0
          exact hdisj
    · rw [if_neg h1] at hee
      by_cases h2 : w = e.v ∧ k = e.r
      · rw [if_pos h2] at hee
        have hee2 : ee = { e' with f := e'.f + -q } := (Option.some.inj hee).symm
        subst hee2
        rw [h2.1, h2.2]
        refine ⟨?_, ?_, hc'0, ?_, ?_⟩
        · show e'.v < GRAPH_VERTEX_COUNT
          rw [hv']
          exact hu
        · show e'.v ≠ e.v
          rw [hv']
          exact fun h => hvne h.symm
        · show e'.f + -q ≤ e'.c
          omega
        · refine ⟨{ e with f := e.f + q }, ?_, rfl, rfl, hc0, ?_, ?_⟩
          · show elook (pupd g u j e q) e'.v e'.r = some { e with f := e.f + q }
            rw [hv', hr']
            exact h3self
          · show e.f + q = -(e'.f + -q)
            omega
          · show e'.c = 0 ∨ e.c = 0
            tauto
      · rw [if_neg h2] at hee
        obtain ⟨hvlt2, hvne2, hc02, hfc2, ee', hpee', hvp, hrp, hcp, hfp, hdp⟩ :=
          hp w k ee hee
        refine ⟨hvlt2, hvne2, hc02, hfc2, ee', ?_, hvp, hrp, hcp, hfp, hdp⟩
        rw [hlook]
        by_cases hc1 : ee.v = u ∧ ee.r = j
        · exfalso
          rw [hc1.1, hc1.2] at hpee'
          have : ee' = e := Option.some.inj (hpee'.symm.trans he)
          subst this
          exact h2 ⟨hvp.symm, hrp.symm⟩
        · rw [if_neg hc1]
          by_cases hc2 : ee.v = e.v ∧ ee.r = e.r
          · exfalso
            rw [hc2.1, hc2.2] at hpee'
            have : ee' = e' := Option.some.inj (hpee'.symm.trans hpe')
            subst this
            exact h1 ⟨hvp.symm.trans hv', hrp.symm.trans hr'⟩
          · rw [if_neg hc2]
            exact hpee'
  · -- SameStruct
    refine ⟨hwf3.1.trans hwf.1.symm, ?_⟩
    intro w k
    rw [hlook]
    by_cases h1 : w = u ∧ k = j
    · rw [if_pos h1, h1.1, h1.2, he]
      rfl
    · rw [if_neg h1]
      by_cases h2 : w = e.v ∧ k = e.r
      · rw [if_pos h2, h2.1, h2.2, hpe']
        rfl
      · rw [if_neg h2]
  · -- level
    unfold pupd
    rw [updEdgeF_level, updEdgeF_level]
  · -- AllDelta
    intro w k ee0 hee0
    rw [show elook (pupd g u j e q) w k =
        (if w = u ∧ k = j then some { e with f := e.f + q }
         else if w = e.v ∧ k = e.r then some { e' with f := e'.f + -q }
         else elook g w k) from hlook w k]
    by_cases h1 : w = u ∧ k = j
    · rw [if_pos h1]
      have : ee0 = e := by
        rw [h1.1, h1.2] at hee0
        exact Option.some.inj (hee0.symm.trans he)
      subst this
      exact ⟨_, rfl, by simp only; rw [abs_of_nonneg (by omega : (0:Int) ≤ ee0.f + q - ee0.f)]; omega⟩
    · rw [if_neg h1]
      by_cases h2 : w = e.v ∧ k = e.r
      · rw [if_pos h2]
        have : ee0 = e' := by
          rw [h2.1, h2.2] at hee0
          exact Option.some.inj (hee0.symm.trans hpe')
        subst this
        refine ⟨_, rfl, ?_⟩
        simp only
        rw [show ee0.f + -q - ee0.f = -q by ring, abs_neg, abs_of_nonneg hq]
      · rw [if_neg h2]
        exact ⟨ee0, hee0, by simp [hq]⟩
  · -- edgeSum
    intro w
    by_cases hw : w = u
    · rw [hw, if_pos rfl, if_neg (fun h => hvne h.symm)]
      unfold pupd
      rw [updEdgeF_edgeSum_ne _ e.v e.r (-q) u (fun h => hvne h.symm),
        updEdgeF_edgeSum_self q hs hu50 he]
      ring
    · rw [if_neg hw]
      by_cases hv : w = e.v
      · rw [hv, if_pos rfl]
        unfold pupd
        rw [updEdgeF_edgeSum_self (-q) hs2 hev50 h2partner,
          updEdgeF_edgeSum_ne g u j q e.v hvne]
        ring
      · rw [if_neg hv]
        unfold pupd
        rw [updEdgeF_edgeSum_ne _ e.v e.r (-q) w hv,
          updEdgeF_edgeSum_ne g u j q w hw]
        ring
  · -- frame
    intro w k hwu hwv
    rw [hlook, if_neg (fun h => hwu h.1), if_neg (fun h => hwv h.1)]

/-! ## Invariants of the DFS of Dinic's algorithm -/

/-- Specification of a recursive dfsFlow call toward t with flow-change
    factor B: well-formedness, pairing and levels are preserved, the
    pushed flow is between 0 and the requested amount, every flow value
    moves by at most B times the pushed flow, vertex sums change only at
    the entry vertex and at t, and lists of vertices at levels below the
    entry vertex are untouched. -/
def DfsSpec (t : Nat) (B : Int)
    (rec : Graph → VArr Int → Nat → Int → Option (Graph × VArr Int × Int)) : Prop :=
  ∀ g c v' f' res, rec g c v' f' = some res → GraphWF g → Paired g → 0 ≤ f' →
    v' < GRAPH_VERTEX_COUNT →
    GraphWF res.1 ∧ Paired res.1 ∧ SameStruct g res.1 ∧ res.1.level = g.level ∧
    0 ≤ res.2.2 ∧ res.2.2 ≤ f' ∧
    AllDelta g res.1 (B * res.2.2) ∧
    (∀ w, edgeSum res.1 w = edgeSum g w + (if w = v' then res.2.2 else 0) -
      (if w = t then res.2.2 else 0)) ∧
    (∀ w k, vget g.level (-1) w < vget g.level (-1) v' → elook res.1 w k = elook g w k)

theorem dfsEdgeLoop_master (t : Nat) (B : Int) (hB : 0 ≤ B)
    (rec : Graph → VArr Int → Nat → Int → Option (Graph × VArr Int × Int))
    (hrec : DfsSpec t B rec) (u : Nat) (f : Int)
    (hu : u < GRAPH_VERTEX_COUNT) (hf : 0 ≤ f) :
    ∀ k g count res, dfsEdgeLoop rec u f k g count = some res →
      GraphWF g → Paired g →
      GraphWF res.1 ∧ Paired res.1 ∧ SameStruct g res.1 ∧ res.1.level = g.level ∧
      0 ≤ res.2.2 ∧ res.2.2 ≤ f ∧
      AllDelta g res.1 ((B + 1) * res.2.2) ∧
      (∀ w, edgeSum res.1 w = edgeSum g w + (if w = u then res.2.2 else 0) -
        (if w = t then res.2.2 else 0)) ∧
      (∀ w k, vget g.level (-1) w < vget g.level (-1) u →
        elook res.1 w k = elook g w k) := by
  intro k
  induction k with
  | zero =>
    intro g count res hrun _ _
    simp only [dfsEdgeLoop] at hrun
    exact Option.noConfusion hrun
  | succ k ih =>
    intro g count res hrun hwf hp
    simp only [dfsEdgeLoop] at hrun
    split at hrun
    · -- cursor within range
      rename_i hcu
      split at hrun
      · -- residual level edge
        rename_i hg
        have hlen0 : vget g.edges [] u ≠ [] := by
          intro h0
          rw [h0] at hg
          have hd : ([] : List Edge).getD (vget count 0 u).toNat default = default :=
            rfl
          rw [hd] at hg
          have : (default : Edge).f < (default : Edge).c := hg.2
          exact absurd this (by decide)
        have hlenpos : 0 < (vget g.edges [] u).length :=
          List.length_pos.mpr hlen0
        have hjlt : (vget count 0 u).toNat < (vget g.edges [] u).length := by
          omega
        have he : elook g u (vget count 0 u).toNat =
            some ((vget g.edges [] u).getD (vget count 0 u).toNat default) := by
          unfold elook elist
          rw [List.get?_eq_getElem?, List.getElem?_eq_getElem hjlt,
            List.getD_eq_getElem _ _ hjlt]
        obtain ⟨hevlt, hevne, hec0, hefc, _⟩ := hp u _ _ he
        have hfth0 : 0 ≤ min f
            (((vget g.edges [] u).getD (vget count 0 u).toNat default).c -
             ((vget g.edges [] u).getD (vget count 0 u).toNat default).f) := by
          have := hg.2
          omega
        split at hrun
        · exact Option.noConfusion hrun
        · -- rec returned some
          rename_i g1 count1 flowToT hrec0
          have hspec := hrec g count _ _ _ hrec0 hwf hp hfth0 hevlt
          obtain ⟨hwf1, hp1, hss1, hlev1, hft0, hftle, had1, hsum1, hfr1⟩ := hspec
          dsimp only at hwf1 hp1 hss1 hlev1 hft0 hftle had1 hsum1 hfr1
          split at hrun
          · -- positive flow: the paired update, then return
            rename_i hpos
            have hlt : vget g.level (-1) u <
                vget g.level (-1) ((vget g.edges [] u).getD
                  (vget count 0 u).toNat default).v := by
              rw [hg.1]
              omega
            have he1 : elook g1 u (vget count 0 u).toNat =
                some ((vget g.edges [] u).getD (vget count 0 u).toNat default) := by
              rw [hfr1 u _ hlt]
              exact he
            have hcap : flowToT ≤
                ((vget g.edges [] u).getD (vget count 0 u).toNat default).c -
                ((vget g.edges [] u).getD (vget count 0 u).toNat default).f := by
              have h1 := min_le_right f
                (((vget g.edges [] u).getD (vget count 0 u).toNat default).c -
                 ((vget g.edges [] u).getD (vget count 0 u).toNat default).f)
              omega
            have hpf := pupd_facts hwf1 hp1 hu he1 (le_of_lt hpos) hcap
            obtain ⟨hwf3, hp3, hss3, hlev3, had3, hsum3, hfr3⟩ := hpf
            have hres : res = (pupd g1 u (vget count 0 u).toNat
                ((vget g.edges [] u).getD (vget count 0 u).toNat default) flowToT,
                count1, flowToT) := (Option.some.inj hrun).symm
            subst hres
            dsimp only
            refine ⟨hwf3, hp3, SameStruct_trans hss1 hss3, ?_, le_of_lt hpos, ?_, ?_, ?_, ?_⟩
            · rw [hlev3, hlev1]
            · have := min_le_left f
                (((vget g.edges [] u).getD (vget count 0 u).toNat default).c -
                 ((vget g.edges [] u).getD (vget count 0 u).toNat default).f)
              omega
            · have hcomp := AllDelta_trans had1 had3
              refine AllDelta_mono hcomp ?_
              ring_nf
              omega
            · intro w
              rw [hsum3 w, hsum1 w]
              split_ifs <;> omega
            · intro w kk hwlt
              have hne_u : w ≠ u := by
                intro hwu
                rw [hwu] at hwlt
                omega
              have hne_v : w ≠ ((vget g.edges [] u).getD
                  (vget count 0 u).toNat default).v := by
                intro hwv
                rw [hwv] at hwlt
                omega
              rw [hfr3 w kk hne_u hne_v, hfr1 w kk (lt_trans hwlt hlt)]
          · -- zero flow: advance the cursor on g1
            rename_i hpos
            have hft0' : flowToT = 0 := by omega
            have hih := ih g1 (vset count1 u (vget count 0 u + 1)) res hrun hwf1 hp1
            obtain ⟨hwfr, hpr, hssr, hlevr, hfr0, hfrle, hadr, hsumr, hfrr⟩ := hih
            refine ⟨hwfr, hpr, SameStruct_trans hss1 hssr, ?_, hfr0, hfrle, ?_, ?_, ?_⟩
            · rw [hlevr, hlev1]
            · have hz : AllDelta g g1 0 := by
                have := had1
                rw [hft0'] at this
                rw [show B * 0 = 0 by ring] at this
                exact this
              have := AllDelta_trans hz hadr
              rw [zero_add] at this
              exact this
            · intro w
              rw [hsumr w, hsum1 w, hft0']
              split_ifs <;> omega
            · intro w kk hwlt
              rw [hlev1] at hfrr
              rw [hfrr w kk hwlt]
              have hlt : vget g.level (-1) u <
                  vget g.level (-1) ((vget g.edges [] u).getD
                    (vget count 0 u).toNat default).v := by
                rw [hg.1]
                omega
              exact hfr1 w kk (lt_trans hwlt hlt)
      · -- guard failed: advance the cursor on g
        rename_i hg
        exact ih g (vset count u (vget count 0 u + 1)) res hrun hwf hp
    · -- cursor exhausted: return zero flow
      rename_i hcu
      have hres : res = (g, count, 0) := (Option.some.inj hrun).symm
      subst hres
      dsimp only
      refine ⟨hwf, hp, SameStruct_refl g, rfl, le_refl 0, hf, ?_, ?_, ?_⟩
      · exact AllDelta_mono (AllDelta_refl g) (by simp)
      · intro w
        split_ifs <;> omega
      · intro w kk _
        rfl

theorem dfsFlow_master (t : Nat) :
    ∀ fuel g count u f res,
      Graph.dfsFlow fuel g count u f t = some res →
      GraphWF g → Paired g → 0 ≤ f → u < GRAPH_VERTEX_COUNT →
      GraphWF res.1 ∧ Paired res.1 ∧ SameStruct g res.1 ∧ res.1.level = g.level ∧
      0 ≤ res.2.2 ∧ res.2.2 ≤ f ∧
      AllDelta g res.1 (2 * (fuel : Int) * res.2.2) ∧
      (∀ w, edgeSum res.1 w = edgeSum g w + (if w = u then res.2.2 else 0) -
        (if w = t then res.2.2 else 0)) ∧
      (∀ w k, vget g.level (-1) w < vget g.level (-1) u →
        elook res.1 w k = elook g w k) := by
  intro fuel
  induction fuel with
  | zero =>
    intro g count u f res hrun _ _ _ _
    simp only [Graph.dfsFlow] at hrun
    exact Option.noConfusion hrun
  | succ fuel ih =>
    intro g count u f res hrun hwf hp hf hu
    simp only [Graph.dfsFlow] at hrun
    split at hrun
    · -- u = t
      rename_i hut
      have hres : res = (g, count, f) := (Option.some.inj hrun).symm
      subst hres
      dsimp only
      refine ⟨hwf, hp, SameStruct_refl g, rfl, hf, le_refl f, ?_, ?_, ?_⟩
      · refine AllDelta_mono (AllDelta_refl g) ?_
        have : (0:Int) ≤ 2 * ((fuel:Int) + 1) * f := by positivity
        push_cast
        omega
      · intro w
        rw [hut]
        split_ifs <;> omega
      · intro w kk _
        rfl
    · -- recurse through the edge loop
      have hspec : DfsSpec t (2 * (fuel : Int))
          (fun g' c' v' f' => Graph.dfsFlow fuel g' c' v' f' t) := by
        intro g' c' v' f' res' hr hwf' hp' hf' hv'
        exact ih g' c' v' f' res' hr hwf' hp' hf' hv'
      have hloop := dfsEdgeLoop_master t (2 * (fuel : Int)) (by positivity)
        _ hspec u f hu hf _ g count res hrun hwf hp
      obtain ⟨hwfr, hpr, hssr, hlevr, h0r, hler, hadr, hsumr, hfrr⟩ := hloop
      refine ⟨hwfr, hpr, hssr, hlevr, h0r, hler, ?_, hsumr, hfrr⟩
      refine AllDelta_mono hadr ?_
      push_cast
      nlinarith [h0r]

/-! ## Augmentations from the source push at most one unit of flow -/

theorem unit_flow_nonneg {g : Graph} {w : Nat} {e1 : Edge} (hp : Paired g)
    (he1 : elook g w 1 = some e1) (hc1 : e1.c = 1) : 0 ≤ e1.f := by
  obtain ⟨_, _, _, _, e', hpe', _, _, _, hf', hdisj⟩ := hp w 1 e1 he1
  obtain ⟨_, _, _, hfc', _⟩ := hp e1.v e1.r e' hpe'
  rcases hdisj with h | h
  · rw [hc1] at h
    exact absurd h (by decide)
  · rw [h] at hfc'
    omega

theorem dfsEdgeLoopAttop (fuel : Nat) (w : Nat) (f : Int) (hf : 0 ≤ f) :
    ∀ k g count res,
      dfsEdgeLoop (fun g' c' v' f' => Graph.dfsFlow fuel g' c' v' f' SINK_VERTEX)
        w f k g count = some res →
      GraphWF g → Paired g →
      (elist g w).length = 2 →
      (∃ e0, elook g w 0 = some e0 ∧ e0.v = SOURCE_VERTEX) →
      (∃ e1, elook g w 1 = some e1 ∧ e1.c = 1) →
      vget g.level (-1) SOURCE_VERTEX = 0 →
      vget g.level (-1) w = 1 →
      res.2.2 ≤ 1 := by
  intro k
  induction k with
  | zero =>
    intro g count res hrun _ _ _ _ _ _ _
    simp only [dfsEdgeLoop] at hrun
    exact Option.noConfusion hrun
  | succ k ih =>
    intro g count res hrun hwf hp hlen he0x he1x hlev0 hlevw
    obtain ⟨e0, he0, hv0⟩ := he0x
    obtain ⟨e1, he1, hc1⟩ := he1x
    have hlen' : (vget g.edges [] w).length = 2 := hlen
    simp only [dfsEdgeLoop] at hrun
    split at hrun
    · rename_i hcu
      rw [hlen'] at hcu
      have hjlt : (vget count 0 w).toNat < 2 := by omega
      split at hrun
      · rename_i hg
        by_cases hj : (vget count 0 w).toNat = 0
        · -- the reverse-source entry is blocked by the level guard
          exfalso
          rw [hj] at hg
          have hgd : (vget g.edges [] w).getD 0 default = e0 := by
            unfold elook elist at he0
            rw [List.get?_eq_getElem?] at he0
            obtain ⟨hlt, hv⟩ := List.getElem?_eq_some.mp he0
            rw [List.getD_eq_getElem _ _ hlt, hv]
          rw [hgd, hv0] at hg
          rw [hlev0, hlevw] at hg
          exact absurd hg.1 (by decide)
        · -- the unit edge
          have hj1 : (vget count 0 w).toNat = 1 := by omega
          rw [hj1] at hg hrun
          have hgd : (vget g.edges [] w).getD 1 default = e1 := by
            unfold elook elist at he1
            rw [List.get?_eq_getElem?] at he1
            obtain ⟨hlt, hv⟩ := List.getElem?_eq_some.mp he1
            rw [List.getD_eq_getElem _ _ hlt, hv]
          rw [hgd] at hg hrun
          obtain ⟨hevlt, _, _, _, _⟩ := hp w 1 e1 he1
          have hf10 : 0 ≤ e1.f := unit_flow_nonneg hp he1 hc1
          have hfth0 : 0 ≤ min f (e1.c - e1.f) := by
            have := hg.2
            omega
          split at hrun
          · exact Option.noConfusion hrun
          · rename_i g1 count1 flowToT hrec0
            have hm := dfsFlow_master SINK_VERTEX fuel g count e1.v
              (min f (e1.c - e1.f)) _ hrec0 hwf hp hfth0 hevlt
            obtain ⟨hwf1, hp1, hss1, hlev1, hft0, hftle, _, _, _⟩ := hm
            dsimp only at hwf1 hp1 hss1 hlev1 hft0 hftle
            have hft1 : flowToT ≤ 1 := by
              have h1 := min_le_right f (e1.c - e1.f)
              rw [hc1] at h1
              omega
            split at hrun
            · have hres := (Option.some.inj hrun).symm
              subst hres
              exact hft1
            · -- zero flow: continue with the next cursor position
              refine ih g1 _ res hrun hwf1 hp1 ?_ ?_ ?_ ?_ ?_
              · rw [SameStruct_length hss1]
                exact hlen
              · obtain ⟨e0', he0', hv', _, _⟩ := SameStruct_elook_some hss1 w 0 e0 he0
                exact ⟨e0', he0', by rw [hv', hv0]⟩
              · obtain ⟨e1', he1', _, _, hc'⟩ := SameStruct_elook_some hss1 w 1 e1 he1
                exact ⟨e1', he1', by rw [hc', hc1]⟩
              · rw [hlev1]
                exact hlev0
              · rw [hlev1]
                exact hlevw
      · rename_i hg
        exact ih g _ res hrun hwf hp hlen ⟨e0, he0, hv0⟩ ⟨e1, he1, hc1⟩ hlev0 hlevw
    · rename_i hcu
      have hres : res = (g, count, 0) := (Option.some.inj hrun).symm
      subst hres
      exact (by decide : (0:Int) ≤ 1)

theorem dfsFlowAttop (fuel : Nat) (g : Graph) (count : VArr Int) (w : Nat) (f : Int)
    (res : Graph × VArr Int × Int)
    (hrun : Graph.dfsFlow fuel g count w f SINK_VERTEX = some res)
    (hwf : GraphWF g) (hp : Paired g) (hf : 0 ≤ f)
    (hw : w ≠ SINK_VERTEX)
    (hlen : (elist g w).length = 2)
    (he0 : ∃ e0, elook g w 0 = some e0 ∧ e0.v = SOURCE_VERTEX)
    (he1 : ∃ e1, elook g w 1 = some e1 ∧ e1.c = 1)
    (hlev0 : vget g.level (-1) SOURCE_VERTEX = 0)
    (hlevw : vget g.level (-1) w = 1) :
    res.2.2 ≤ 1 := by
  cases fuel with
  | zero =>
    simp only [Graph.dfsFlow] at hrun
    exact Option.noConfusion hrun
  | succ fuel =>
    simp only [Graph.dfsFlow] at hrun
    rw [if_neg hw] at hrun
    exact dfsEdgeLoopAttop fuel w f hf _ g count res hrun hwf hp hlen he0 he1
      hlev0 hlevw

theorem dfsEdgeLoopFromSource (fuel : Nat) (f : Int) (hf : 0 ≤ f) :
    ∀ k g count res,
      dfsEdgeLoop (fun g' c' v' f' => Graph.dfsFlow fuel g' c' v' f' SINK_VERTEX)
        SOURCE_VERTEX f k g count = some res →
      GraphWF g → Paired g → SourceOK g →
      vget g.level (-1) SOURCE_VERTEX = 0 →
      res.2.2 ≤ 1 := by
  intro k
  induction k with
  | zero =>
    intro g count res hrun _ _ _ _
    simp only [dfsEdgeLoop] at hrun
    exact Option.noConfusion hrun
  | succ k ih =>
    intro g count res hrun hwf hp hsrc hlev0
    simp only [dfsEdgeLoop] at hrun
    split at hrun
    · rename_i hcu
      split at hrun
      · rename_i hg
        have hlen0 : vget g.edges [] SOURCE_VERTEX ≠ [] := by
          intro h0
          rw [h0] at hg
          have hd : ([] : List Edge).getD (vget count 0 SOURCE_VERTEX).toNat default =
              default := rfl
          rw [hd] at hg
          have : (default : Edge).f < (default : Edge).c := hg.2
          exact absurd this (by decide)
        have hlenpos : 0 < (vget g.edges [] SOURCE_VERTEX).length :=
          List.length_pos.mpr hlen0
        have hjlt : (vget count 0 SOURCE_VERTEX).toNat <
            (vget g.edges [] SOURCE_VERTEX).length := by omega
        have he : elook g SOURCE_VERTEX (vget count 0 SOURCE_VERTEX).toNat =
            some ((vget g.edges [] SOURCE_VERTEX).getD
              (vget count 0 SOURCE_VERTEX).toNat default) := by
          unfold elook elist
          rw [List.get?_eq_getElem?, List.getElem?_eq_getElem hjlt,
            List.getD_eq_getElem _ _ hjlt]
        obtain ⟨hsink, hevlt, hlen2, he0x, he1x⟩ := hsrc _ _ he
        have hfth0 : 0 ≤ min f
            (((vget g.edges [] SOURCE_VERTEX).getD
                (vget count 0 SOURCE_VERTEX).toNat default).c -
             ((vget g.edges [] SOURCE_VERTEX).getD
                (vget count 0 SOURCE_VERTEX).toNat default).f) := by
          have := hg.2
          omega
        have hlevv : vget g.level (-1) ((vget g.edges [] SOURCE_VERTEX).getD
            (vget count 0 SOURCE_VERTEX).toNat default).v = 1 := by
          rw [hg.1, hlev0]
          omega
        split at hrun
        · exact Option.noConfusion hrun
        · rename_i g1 count1 flowToT hrec0
          have hft1 : flowToT ≤ 1 := by
            have := dfsFlowAttop fuel g count _ _ _ hrec0 hwf hp hfth0 hsink
              hlen2 he0x he1x hlev0 hlevv
            exact this
          have hm := dfsFlow_master SINK_VERTEX fuel g count _ _ _ hrec0 hwf hp
            hfth0 hevlt
          obtain ⟨hwf1, hp1, hss1, hlev1, _, _, _, _, _⟩ := hm
          dsimp only at hwf1 hp1 hss1 hlev1
          split at hrun
          · have hres := (Option.some.inj hrun).symm
            subst hres
            exact hft1
          · refine ih g1 _ res hrun hwf1 hp1 (SourceOK_transport hss1 hsrc) ?_
            rw [hlev1]
            exact hlev0
      · rename_i hg
        exact ih g _ res hrun hwf hp hsrc hlev0
    · rename_i hcu
      have hres : res = (g, count, 0) := (Option.some.inj hrun).symm
      subst hres
      exact (by decide : (0:Int) ≤ 1)

theorem dfsFlowFromSource (fuel : Nat) (g : Graph) (count : VArr Int) (f : Int)
    (res : Graph × VArr Int × Int)
    (hrun : Graph.dfsFlow fuel g count SOURCE_VERTEX f SINK_VERTEX = some res)
    (hwf : GraphWF g) (hp : Paired g) (hsrc : SourceOK g) (hf : 0 ≤ f)
    (hlev0 : vget g.level (-1) SOURCE_VERTEX = 0) :
    res.2.2 ≤ 1 := by
  cases fuel with
  | zero =>
    simp only [Graph.dfsFlow] at hrun
    exact Option.noConfusion hrun
  | succ fuel =>
    simp only [Graph.dfsFlow] at hrun
    rw [if_neg (by decide : SOURCE_VERTEX ≠ SINK_VERTEX)] at hrun
    exact dfsEdgeLoopFromSource fuel f hf _ g count res hrun hwf hp hsrc hlev0

/-! ## The level BFS only changes levels -/

theorem bfsScan_fold_level (u s : Nat) :
    ∀ (l : List Edge) (st : VArr Int × List Nat),
      vget st.1 (-1) s = 0 → VShape st.1 →
      vget (l.foldl (bfsScanEdge u) st).1 (-1) s = 0 ∧
      VShape (l.foldl (bfsScanEdge u) st).1 := by
  intro l
  induction l with
  | nil => intro st h0 hsh; exact ⟨h0, hsh⟩
  | cons e tl ih =>
    intro st h0 hsh
    rw [List.foldl_cons]
    refine ih (bfsScanEdge u st e) ?_ ?_
    · unfold bfsScanEdge
      by_cases hgd : vget st.1 (-1) e.v < 0 ∧ e.f < e.c
      · rw [if_pos hgd]
        by_cases hev : e.v = s
        · rw [hev] at hgd
          omega
        · exact (vget_vset_ne _ _ _ _ _ hev).trans h0
      · rw [if_neg hgd]
        exact h0
    · unfold bfsScanEdge
      by_cases hgd : vget st.1 (-1) e.v < 0 ∧ e.f < e.c
      · rw [if_pos hgd]
        exact VShape_vset _ _ _ hsh
      · rw [if_neg hgd]
        exact hsh

theorem bfsLoop_facts :
    ∀ fuel g queue qi g2, Graph.bfsLoop fuel g queue qi = some g2 →
      ∀ s, vget g.level (-1) s = 0 → VShape g.level →
      g2.edges = g.edges ∧ g2.v = g.v ∧
      vget g2.level (-1) s = 0 ∧ VShape g2.level := by
  intro fuel
  induction fuel with
  | zero =>
    intro g queue qi g2 hrun
    simp only [Graph.bfsLoop] at hrun
    exact Option.noConfusion hrun
  | succ fuel ih =>
    intro g queue qi g2 hrun s h0 hsh
    simp only [Graph.bfsLoop] at hrun
    split at hrun
    · have hfold := bfsScan_fold_level (queue.getD qi 0) s
        (vget g.edges [] (queue.getD qi 0)) (g.level, queue) h0 hsh
      have := ih _ _ _ _ hrun s hfold.1 hfold.2
      exact this
    · have hres : g2 = g := (Option.some.inj hrun).symm
      subst hres
      exact ⟨rfl, rfl, h0, hsh⟩

theorem bfs_facts (g : Graph) (t : Nat) (g2 : Graph) (b : Bool)
    (hrun : Graph.bfs g SOURCE_VERTEX t = some (g2, b)) (ht : t < g.v)
    (hv : g.v = GRAPH_VERTEX_COUNT) :
    g2.edges = g.edges ∧ g2.v = g.v ∧
    vget g2.level (-1) SOURCE_VERTEX = 0 ∧ VShape g2.level := by
  simp only [Graph.bfs] at hrun
  rw [if_neg (by omega : ¬ t ≥ g.v)] at hrun
  split at hrun
  · exact Option.noConfusion hrun
  · rename_i g3 hloop
    have hsh0 : VShape (vinit g.v (-1)) := by
      apply VShape_vinit
      rw [hv]
      rfl
    have hsh1 : VShape (vset (vinit g.v (-1)) SOURCE_VERTEX 0) :=
      VShape_vset _ _ _ hsh0
    have h00 : vget (vset (vinit g.v (-1)) SOURCE_VERTEX 0) (-1) SOURCE_VERTEX = 0 :=
      vget_vset_self _ _ _ _ hsh0 (by decide)
    have hfacts := bfsLoop_facts BFS_FUEL _ [SOURCE_VERTEX] 0 g3 hloop
      SOURCE_VERTEX h00 hsh1
    have hres : g2 = g3 ∧ b = (if 0 ≤ vget g3.level (-1) t then true else false) := by
      have := Option.some.inj hrun
      exact ⟨(congrArg Prod.fst this).symm, (congrArg Prod.snd this).symm⟩
    rw [hres.1]
    exact hfacts

/-! ## Transport along equal edge stores -/

theorem elook_of_edges_eq {g g' : Graph} (he : g'.edges = g.edges) :
    ∀ u i, elook g' u i = elook g u i := by
  intro u i
  unfold elook elist
  rw [he]

theorem SameStruct_of_edges_eq {g g' : Graph} (he : g'.edges = g.edges)
    (hv : g'.v = g.v) : SameStruct g g' :=
  ⟨hv, fun u i => by rw [elook_of_edges_eq he]⟩

theorem Paired_of_edges_eq {g g' : Graph} (he : g'.edges = g.edges)
    (hp : Paired g) : Paired g' := by
  intro u i e hl
  rw [elook_of_edges_eq he] at hl
  obtain ⟨h1, h2, h3, h4, e', h5, h6⟩ := hp u i e hl
  exact ⟨h1, h2, h3, h4, e', by rw [elook_of_edges_eq he]; exact h5, h6⟩

theorem SourceOK_of_edges_eq {g g' : Graph} (he : g'.edges = g.edges)
    (hp : SourceOK g) : SourceOK g' := by
  intro i e hl
  rw [elook_of_edges_eq he] at hl
  obtain ⟨h1, h2, h3, ⟨e0, h4, h5⟩, e1, h6, h7⟩ := hp i e hl
  refine ⟨h1, h2, ?_, ⟨e0, by rw [elook_of_edges_eq he]; exact h4, h5⟩,
    e1, by rw [elook_of_edges_eq he]; exact h6, h7⟩
  unfold elist
  rw [he]
  exact h3

theorem edgeSum_of_edges_eq {g g' : Graph} (he : g'.edges = g.edges) (w : Nat) :
    edgeSum g' w = edgeSum g w := by
  unfold edgeSum elist
  rw [he]

/-! ## The inner do-while loop of Dinic's algorithm -/

theorem INF_nonneg : (0 : Int) ≤ INF := by
  unfold INF
  positivity

theorem calcMinCutInner_facts :
    ∀ fuel g count acc res,
      Graph.calcMinCutInner SOURCE_VERTEX SINK_VERTEX fuel g count acc = some res →
      GraphWF g → Paired g → SourceOK g →
      vget g.level (-1) SOURCE_VERTEX = 0 →
      GraphWF res.1 ∧ Paired res.1 ∧ SameStruct g res.1 ∧
      res.1.level = g.level ∧
      acc ≤ res.2 ∧ res.2 ≤ acc + fuel ∧
      AllDelta g res.1 (12000 * (res.2 - acc)) ∧
      (∀ w, edgeSum res.1 w =
        edgeSum g w + (if w = SOURCE_VERTEX then res.2 - acc else 0) -
        (if w = SINK_VERTEX then res.2 - acc else 0)) := by
  intro fuel
  induction fuel with
  | zero =>
    intro g count acc res hrun _ _ _ _
    simp only [Graph.calcMinCutInner] at hrun
    exact Option.noConfusion hrun
  | succ fuel ih =>
    intro g count acc res hrun hwf hp hsrc hlev0
    simp only [Graph.calcMinCutInner] at hrun
    split at hrun
    · exact Option.noConfusion hrun
    · rename_i g1 count1 flow hdfs
      have hM := dfsFlow_master SINK_VERTEX DFS_FUEL g count SOURCE_VERTEX INF
        _ hdfs hwf hp INF_nonneg (by decide)
      obtain ⟨hwf1, hp1, hss1, hlev1, hf0, _, had1, hsum1, _⟩ := hM
      dsimp only at hwf1 hp1 hss1 hlev1 hf0 had1 hsum1
      have hf1 : flow ≤ 1 :=
        dfsFlowFromSource DFS_FUEL g count INF _ hdfs hwf hp hsrc
          INF_nonneg hlev0
      split at hrun
      · -- positive flow: continue
        rename_i hpos
        have hih := ih g1 count1 (acc + flow) res hrun hwf1 hp1
          (SourceOK_transport hss1 hsrc) (by rw [hlev1]; exact hlev0)
        obtain ⟨hwfr, hpr, hssr, hlevr, hlo, hhi, hadr, hsumr⟩ := hih
        refine ⟨hwfr, hpr, SameStruct_trans hss1 hssr, ?_, by omega, ?_, ?_, ?_⟩
        · rw [hlevr, hlev1]
        · push_cast
          push_cast at hhi
          omega
        · have had1' : AllDelta g g1 (12000 * flow) := by
            refine AllDelta_mono had1 ?_
            have : (2 : Int) * ((DFS_FUEL : Nat) : Int) = 12000 := by decide
            rw [this]
          have := AllDelta_trans had1' hadr
          refine AllDelta_mono this (by omega)
        · intro w
          rw [hsumr w, hsum1 w]
          split_ifs <;> omega
      · -- no more flow: stop
        rename_i hpos
        have hf00 : flow = 0 := by omega
        have hres : res = (g1, acc) := (Option.some.inj hrun).symm
        subst hres
        dsimp only
        refine ⟨hwf1, hp1, hss1, hlev1, le_refl acc, by omega, ?_, ?_⟩
        · refine AllDelta_mono had1 ?_
          rw [hf00]
          simp
        · intro w
          rw [hsum1 w, hf00]
          split_ifs <;> omega

/-! ## The phase loop of Dinic's algorithm -/

theorem calcMinCutLoop_facts :
    ∀ fuel g acc res,
      Graph.calcMinCutLoop SOURCE_VERTEX SINK_VERTEX fuel g acc = some res →
      GraphWF g → Paired g → SourceOK g →
      GraphWF res.1 ∧ Paired res.1 ∧ SameStruct g res.1 ∧
      acc ≤ res.2 ∧ res.2 ≤ acc + (fuel : Int) * (INNER_FUEL : Nat) ∧
      AllDelta g res.1 (12000 * (res.2 - acc)) ∧
      (∀ w, edgeSum res.1 w =
        edgeSum g w + (if w = SOURCE_VERTEX then res.2 - acc else 0) -
        (if w = SINK_VERTEX then res.2 - acc else 0)) := by
  intro fuel
  induction fuel with
  | zero =>
    intro g acc res hrun _ _ _
    simp only [Graph.calcMinCutLoop] at hrun
    exact Option.noConfusion hrun
  | succ fuel ih =>
    intro g acc res hrun hwf hp hsrc
    simp only [Graph.calcMinCutLoop] at hrun
    split at hrun
    · exact Option.noConfusion hrun
    · -- bfs returned false: this phase ends the loop
      rename_i g1 hbfs
      have hb := bfs_facts g SINK_VERTEX g1 false hbfs
        (by rw [hwf.1]; decide) hwf.1
      have hres : res = (g1, acc) := (Option.some.inj hrun).symm
      subst hres
      dsimp only
      refine ⟨⟨hb.2.1.trans hwf.1, hb.2.2.2, by rw [hb.1]; exact hwf.2.2⟩,
        Paired_of_edges_eq hb.1 hp,
        SameStruct_of_edges_eq hb.1 hb.2.1, le_refl acc, ?_, ?_, ?_⟩
      · have : (0:Int) ≤ ((fuel : Int) + 1) * (INNER_FUEL : Nat) := by positivity
        push_cast
        push_cast at this
        omega
      · have : AllDelta g g1 0 := by
          intro u i e he
          exact ⟨e, by rw [elook_of_edges_eq hb.1]; exact he, by simp⟩
        refine AllDelta_mono this (by simp)
      · intro w
        rw [edgeSum_of_edges_eq hb.1]
        split_ifs <;> omega
    · -- bfs returned true: run the inner loop, then the next phase
      rename_i g1 hbfs
      have hb := bfs_facts g SINK_VERTEX g1 true hbfs
        (by rw [hwf.1]; decide) hwf.1
      have hwf1 : GraphWF g1 :=
        ⟨hb.2.1.trans hwf.1, hb.2.2.2, by rw [hb.1]; exact hwf.2.2⟩
      have hp1 : Paired g1 := Paired_of_edges_eq hb.1 hp
      have hsrc1 : SourceOK g1 := SourceOK_of_edges_eq hb.1 hsrc
      split at hrun
      · exact Option.noConfusion hrun
      · rename_i g2 acc1 hinner
        have hI := calcMinCutInner_facts INNER_FUEL g1 _ acc (g2, acc1) hinner
          hwf1 hp1 hsrc1 hb.2.2.1
        obtain ⟨hwf2, hp2, hss2, hlev2, hlo2, hhi2, had2, hsum2⟩ := hI
        dsimp only at hwf2 hp2 hss2 hlev2 hlo2 hhi2 had2 hsum2
        have hihx := ih g2 acc1 res hrun hwf2 hp2 (SourceOK_transport hss2 hsrc1)
        obtain ⟨hwfr, hpr, hssr, hlor, hhir, hadr, hsumr⟩ := hihx
        have hss01 : SameStruct g g1 := SameStruct_of_edges_eq hb.1 hb.2.1
        refine ⟨hwfr, hpr,
          SameStruct_trans hss01 (SameStruct_trans hss2 hssr), by omega, ?_, ?_, ?_⟩
        · push_cast
          push_cast at hhir hhi2
          have hexp : ((fuel : Int) + 1) * ((INNER_FUEL : Nat) : Int) =
              (fuel : Int) * ((INNER_FUEL : Nat) : Int) + ((INNER_FUEL : Nat) : Int) := by
            ring
          push_cast at hexp
          omega
        · have had01 : AllDelta g g1 0 := by
            intro u i e he
            exact ⟨e, by rw [elook_of_edges_eq hb.1]; exact he, by simp⟩
          have h1 := AllDelta_trans had01 (AllDelta_trans had2 hadr)
          refine AllDelta_mono h1 (by omega)
        · intro w
          rw [hsumr w, hsum2 w, edgeSum_of_edges_eq hb.1]
          split_ifs <;> omega

/-! ## calcMinCut facts -/

theorem calcMinCut_facts (g : Graph) (res : Graph × Int)
    (hrun : Graph.calcMinCut g SOURCE_VERTEX SINK_VERTEX = some res)
    (hwf : GraphWF g) (hp : Paired g) (hsrc : SourceOK g) :
    GraphWF res.1 ∧ Paired res.1 ∧ SameStruct g res.1 ∧
    0 ≤ res.2 ∧ res.2 ≤ 10 ^ 10 ∧
    AllDelta g res.1 (12000 * res.2) ∧
    (∀ w, edgeSum res.1 w =
      edgeSum g w + (if w = SOURCE_VERTEX then res.2 else 0) -
      (if w = SINK_VERTEX then res.2 else 0)) := by
  unfold Graph.calcMinCut at hrun
  rw [if_neg (by decide : ¬ SOURCE_VERTEX = SINK_VERTEX)] at hrun
  have hL := calcMinCutLoop_facts PHASE_FUEL g 0 res hrun hwf hp hsrc
  obtain ⟨h1, h2, h3, h4, h5, h6, h7⟩ := hL
  refine ⟨h1, h2, h3, by omega, ?_, ?_, ?_⟩
  · have : ((PHASE_FUEL : Nat) : Int) * ((INNER_FUEL : Nat) : Int) = 10 ^ 10 := by
      decide
    push_cast at h5 ⊢
    omega
  · refine AllDelta_mono h6 (by omega)
  · intro w
    rw [h7 w]
    split_ifs <;> omega

/-! ## Vertex numerology of the built graph -/

theorem topNat_lt (x y : Int) (hx0 : 0 ≤ x) (hx1 : x ≤ 49) (hy0 : 0 ≤ y)
    (hy1 : y ≤ 49) : (positionToVertex x y).toNat < 2500 := by
  unfold positionToVertex
  omega

theorem topNat_inj {x1 y1 x2 y2 : Int}
    (hx0 : 0 ≤ x1) (hx1 : x1 ≤ 49) (hy0 : 0 ≤ y1) (hy1 : y1 ≤ 49)
    (hx0' : 0 ≤ x2) (hx1' : x2 ≤ 49) (hy0' : 0 ≤ y2) (hy1' : y2 ≤ 49)
    (he : (positionToVertex x1 y1).toNat = (positionToVertex x2 y2).toNat) :
    x1 = x2 ∧ y1 = y2 := by
  unfold positionToVertex at he
  omega

theorem botNat_range (x y : Int) (hx0 : 0 ≤ x) (hx1 : x ≤ 49) (hy0 : 0 ≤ y)
    (hy1 : y ≤ 49) :
    2500 ≤ (positionToVertex x y + BOT_OFFSET).toNat ∧
    (positionToVertex x y + BOT_OFFSET).toNat < 5000 := by
  unfold positionToVertex BOT_OFFSET
  omega

theorem botNat_inj {x1 y1 x2 y2 : Int}
    (hx0 : 0 ≤ x1) (hx1 : x1 ≤ 49) (hy0 : 0 ≤ y1) (hy1 : y1 ≤ 49)
    (hx0' : 0 ≤ x2) (hx1' : x2 ≤ 49) (hy0' : 0 ≤ y2) (hy1' : y2 ≤ 49)
    (he : (positionToVertex x1 y1 + BOT_OFFSET).toNat =
      (positionToVertex x2 y2 + BOT_OFFSET).toNat) :
    x1 = x2 ∧ y1 = y2 := by
  unfold positionToVertex BOT_OFFSET at he
  omega

/-! ## The empty graph -/

theorem elist_new (w : Nat) : elist (Graph.new GRAPH_VERTEX_COUNT) w = [] := by
  unfold elist Graph.new vget vinit GRAPH_VERTEX_COUNT
  dsimp only
  rw [show ((2 * 50 * 50 + 2 + 49) / 50) = 101 from rfl]
  simp only [List.getD_eq_getElem?_getD, List.getElem?_replicate]
  by_cases hw : w / 50 < 101
  · rw [if_pos hw, Option.getD_some, List.getElem?_replicate]
    split <;> rfl
  · rw [if_neg hw]
    rfl

theorem GraphWF_new : GraphWF (Graph.new GRAPH_VERTEX_COUNT) := by
  refine ⟨rfl, ?_, ?_⟩ <;> exact VShape_vinit _ _ (by decide)

theorem elook_new (w k : Nat) : elook (Graph.new GRAPH_VERTEX_COUNT) w k = none := by
  unfold elook
  rw [elist_new]
  rfl

/-! ## Effect of addEdge on the stored lists -/

theorem addEdge_elist (g : Graph) (u v : Nat) (c : Int)
    (hs : VShape g.edges) (huv : u ≠ v) (hu : u < 5050) (hv : v < 5050) :
    elist (g.addEdge u v c) u =
      elist g u ++ [⟨v, (elist g v).length, c, 0⟩] ∧
    elist (g.addEdge u v c) v =
      elist g v ++ [⟨u, (elist g u).length, 0, 0⟩] ∧
    (∀ w, w ≠ u → w ≠ v → elist (g.addEdge u v c) w = elist g w) ∧
    (g.addEdge u v c).v = g.v ∧ (g.addEdge u v c).level = g.level ∧
    VShape (g.addEdge u v c).edges := by
  unfold Graph.addEdge
  simp only
  have h2 : vget (vset g.edges u
      (vget g.edges [] u ++ [⟨v, (vget g.edges [] v).length, c, 0⟩])) [] u
      = vget g.edges [] u ++ [⟨v, (vget g.edges [] v).length, c, 0⟩] :=
    vget_vset_self _ _ _ _ hs hu
  have h1 : vget (vset g.edges u
      (vget g.edges [] u ++ [⟨v, (vget g.edges [] v).length, c, 0⟩])) [] v
      = vget g.edges [] v := vget_vset_ne _ _ _ _ _ huv
  have hs1 : VShape (vset g.edges u
      (vget g.edges [] u ++ [⟨v, (vget g.edges [] v).length, c, 0⟩])) :=
    VShape_vset _ _ _ hs
  rw [h2, h1]
  have hlen : (vget g.edges [] u ++
      [(⟨v, (vget g.edges [] v).length, c, 0⟩ : Edge)]).length - 1 =
      (vget g.edges [] u).length := by
    rw [List.length_append]
    rfl
  rw [hlen]
  refine ⟨?_, ?_, ?_, trivial, trivial, VShape_vset _ _ _ hs1⟩
  · unfold elist
    rw [vget_vset_ne _ _ _ _ _ (fun h => huv h.symm)]
    exact h2
  · unfold elist
    rw [vget_vset_self _ _ _ _ hs1 hv]
  · intro w hwu hwv
    unfold elist
    rw [vget_vset_ne _ _ _ _ _ (fun h => hwv h.symm),
      vget_vset_ne _ _ _ _ _ (fun h => hwu h.symm)]

theorem addEdge_elook (g : Graph) (u v : Nat) (c : Int)
    (hs : VShape g.edges) (huv : u ≠ v) (hu : u < 5050) (hv : v < 5050)
    (w k : Nat) :
    elook (g.addEdge u v c) w k =
      if w = u ∧ k = (elist g u).length then
        some ⟨v, (elist g v).length, c, 0⟩
      else if w = v ∧ k = (elist g v).length then
        some ⟨u, (elist g u).length, 0, 0⟩
      else elook g w k := by
  obtain ⟨hA, hB, hC, _, _, _⟩ := addEdge_elist g u v c hs huv hu hv
  by_cases hw : w = u
  · rw [hw]
    unfold elook
    rw [hA]
    by_cases hk : k = (elist g u).length
    · rw [if_pos (show u = u ∧ k = (elist g u).length from ⟨rfl, hk⟩), hk]
      exact List.get?_concat_length _ _
    · rw [if_neg (fun h => hk h.2), if_neg (fun h => huv h.1)]
      by_cases hklt : k < (elist g u).length
      · exact List.get?_append hklt
      · rw [List.get?_eq_getElem?, List.get?_eq_getElem?,
          List.getElem?_eq_none (by rw [List.length_append]; simp; omega),
          List.getElem?_eq_none (by omega)]
  · rw [if_neg (fun h => hw h.1)]
    by_cases hw2 : w = v
    · rw [hw2]
      unfold elook
      rw [hB]
      by_cases hk : k = (elist g v).length
      · rw [if_pos (show v = v ∧ k = (elist g v).length from ⟨rfl, hk⟩), hk]
        exact List.get?_concat_length _ _
      · rw [if_neg (fun h => hk h.2)]
        by_cases hklt : k < (elist g v).length
        · exact List.get?_append hklt
        · rw [List.get?_eq_getElem?, List.get?_eq_getElem?,
            List.getElem?_eq_none (by rw [List.length_append]; simp; omega),
            List.getElem?_eq_none (by omega)]
    · rw [if_neg (fun h => hw2 h.1)]
      unfold elook
      rw [hC w hw hw2]

end AutoPlanner
